import Mathlib

/-!
# Misinformation impact analysis on a social graph: verification development

Shallow embedding of the two translation units of the repository

* `src/Main/comm4.cpp`: vector-based `Graph` and the capped label optimizer;
* `src/Main/mess2.cpp`: map-based `Graph`, `Message`, propagation,
  the misinformation classifier and the node-information query.

Modelling conventions.

* `int` counters that only ever count upwards from zero (degrees, edge totals,
  share counts, message ids, `numNodes`) are natural numbers; signed overflow
  is undefined behaviour in C++ and lies outside the model.
* Node ids of `comm4.cpp` index vectors and are natural numbers; node ids of
  `mess2.cpp` are keys of an `unordered_map<int, _>` and are integers.
* `std::unordered_map<int, V>` is an association list with distinct keys in
  insertion order; `operator[]` on an absent key inserts the default value.
  The order in which a range-for traverses such a map is unspecified in C++:
  where the optimizers depend on it, it is a parameter of the model
  (`hashOrder` for the per-node score maps, `visit` for the node traversal of
  `mess2.cpp`, `shuffle` for `std::shuffle` in `comm4.cpp`), and theorems
  quantify over all such orders.
* `Mess2.detectCommunities` is the sequential mode (`useParallel == false`) of
  `detectCommunities` in `mess2.cpp`. Of the parallel branch only the interleaving
  in which all workers read before any worker writes is modelled
  (`Mess2.readFirstPass`).
* `std::set<int>` is a duplicate-free list in insertion order (only `insert`,
  `count`, `find` and `size` are ever used on the sets of the source).
* `double` values are exact rationals.
* A read `communities[i]` outside the vector is undefined behaviour in the
  source; the model returns `0` for it.
-/

/-- Model of `std::vector::resize(n, d)`. -/
def resize {α : Type} (l : List α) (n : Nat) (d : α) : List α :=
  l.take n ++ List.replicate (n - l.length) d

/-- In-place update of the element at index `i` of a vector. -/
def vecUpdate {α : Type} : List α → Nat → (α → α) → List α
  | [], _, _ => []
  | x :: xs, 0, f => f x :: xs
  | x :: xs, i + 1, f => x :: vecUpdate xs i f

namespace Comm4

/-- Class `Graph` of `comm4.cpp` (lines 11-47). -/
structure Graph where
  adjacencyList : List (List Nat)
  nodeDegrees : List Nat
  totalEdges : Nat
  numNodes : Nat
deriving Repr, DecidableEq

/-- The default-constructed graph. -/
def Graph.empty : Graph :=
  { adjacencyList := [], nodeDegrees := [], totalEdges := 0, numNodes := 0 }

/-- Method `Graph::addEdge` of `comm4.cpp` (lines 19-30). -/
def Graph.addEdge (g : Graph) (fromNode toNode : Nat) : Graph :=
  let g1 : Graph :=
    if fromNode ≥ g.numNodes || toNode ≥ g.numNodes then
      let n := max g.numNodes (max fromNode toNode + 1)
      { g with
        numNodes := n
        adjacencyList := resize g.adjacencyList n []
        nodeDegrees := resize g.nodeDegrees n 0 }
    else g
  let adj1 := vecUpdate g1.adjacencyList fromNode (fun l => l ++ [toNode])
  let adj2 := vecUpdate adj1 toNode (fun l => l ++ [fromNode])
  let deg1 := vecUpdate g1.nodeDegrees fromNode (fun d => d + 1)
  let deg2 := vecUpdate deg1 toNode (fun d => d + 1)
  { g1 with adjacencyList := adj2, nodeDegrees := deg2, totalEdges := g1.totalEdges + 1 }

/-- Method `Graph::getNeighbors` of `comm4.cpp`. -/
def Graph.getNeighbors (g : Graph) (node : Nat) : List Nat :=
  g.adjacencyList.getD node []

/-- Method `Graph::getDegree` of `comm4.cpp`. -/
def Graph.getDegree (g : Graph) (node : Nat) : Nat :=
  g.nodeDegrees.getD node 0

/-- Method `Graph::getTotalEdges` of `comm4.cpp`. -/
def Graph.getTotalEdges (g : Graph) : Nat := g.totalEdges

/-- Method `Graph::getNumNodes` of `comm4.cpp`. -/
def Graph.getNumNodes (g : Graph) : Nat := g.numNodes

/-- The graph after a sequence of `addEdge` calls, as performed by `loadGraph`. -/
def Graph.build (edges : List (Nat × Nat)) : Graph :=
  edges.foldl (fun g e => g.addEdge e.1 e.2) Graph.empty

/-- Sum of `getDegree` over all known nodes `0 .. numNodes - 1`. -/
def Graph.degreeSum (g : Graph) : Nat :=
  ((List.range g.getNumNodes).map g.getDegree).sum

/-- Representation invariant of the vector-based graph. -/
def Graph.WF (g : Graph) : Prop :=
  g.nodeDegrees.length = g.numNodes ∧ g.nodeDegrees.sum = 2 * g.totalEdges

end Comm4

namespace Mess2

/-- Model of `std::unordered_map<int, V>`: association list with distinct keys. -/
abbrev UMap (V : Type) := List (Int × V)

/-- Value stored under `k`, or the default `d` when `k` is absent. -/
def UMap.get {V : Type} (m : UMap V) (k : Int) (d : V) : V :=
  match m with
  | [] => d
  | (k1, v) :: rest => if k1 = k then v else UMap.get rest k d

/-- The effect of `m[k] = f(m[k])`, with `d` the default-constructed value:
an absent key is inserted with value `f d`. -/
def UMap.update {V : Type} (m : UMap V) (k : Int) (d : V) (f : V → V) : UMap V :=
  match m with
  | [] => [(k, f d)]
  | (k1, v) :: rest =>
      if k1 = k then (k1, f v) :: rest else (k1, v) :: UMap.update rest k d f

/-- The keys of the map in iteration order. -/
def UMap.keys {V : Type} (m : UMap V) : List Int := m.map Prod.fst

/-- Class `Graph` of `mess2.cpp` (lines 16-50). Degrees and the edge total
are `double` counters that only take natural values. -/
structure Graph where
  adjacencyList : UMap (List Int)
  nodeDegrees : UMap Nat
  totalEdges : Nat
deriving Repr, DecidableEq

/-- The default-constructed graph. -/
def Graph.empty : Graph :=
  { adjacencyList := [], nodeDegrees := [], totalEdges := 0 }

/-- Method `Graph::addEdge` of `mess2.cpp` (lines 23-29). -/
def Graph.addEdge (g : Graph) (fromNode toNode : Int) : Graph :=
  let adj1 := UMap.update g.adjacencyList fromNode [] (fun l => l ++ [toNode])
  let adj2 := UMap.update adj1 toNode [] (fun l => l ++ [fromNode])
  let deg1 := UMap.update g.nodeDegrees fromNode 0 (fun d => d + 1)
  let deg2 := UMap.update deg1 toNode 0 (fun d => d + 1)
  { adjacencyList := adj2, nodeDegrees := deg2, totalEdges := g.totalEdges + 1 }

/-- Method `Graph::getNeighbors` of `mess2.cpp` (lines 31-33): returns a copy of
`adjacencyList[node]`; the `operator[]` access inserts an empty list for an
absent node, so the graph is returned as well. -/
def Graph.getNeighbors (g : Graph) (node : Int) : List Int × Graph :=
  (UMap.get g.adjacencyList node [],
   { g with adjacencyList := UMap.update g.adjacencyList node [] id })

/-- Method `Graph::getDegree` of `mess2.cpp` (lines 35-37); `operator[]` inserts a
zero degree for an absent node. -/
def Graph.getDegree (g : Graph) (node : Int) : Nat × Graph :=
  (UMap.get g.nodeDegrees node 0,
   { g with nodeDegrees := UMap.update g.nodeDegrees node 0 id })

/-- Method `Graph::getTotalEdges` of `mess2.cpp`. -/
def Graph.getTotalEdges (g : Graph) : Nat := g.totalEdges

/-- Method `Graph::getNodes` of `mess2.cpp` (lines 43-49): the keys of the adjacency map. -/
def Graph.getNodes (g : Graph) : List Int := UMap.keys g.adjacencyList

/-- The graph after a sequence of `addEdge` calls, as performed by `loadGraph`. -/
def Graph.build (edges : List (Int × Int)) : Graph :=
  edges.foldl (fun g e => g.addEdge e.1 e.2) Graph.empty

/-- Sum of `getDegree(node)` over the nodes returned by `getNodes()`. -/
def Graph.degreeSum (g : Graph) : Nat :=
  (g.getNodes.map (fun node => (g.getDegree node).1)).sum

/-- Enumeration `Message::State` of `mess2.cpp` (line 54). -/
inductive Message.State where
  | CREATED
  | SHARED
  | VIRAL
  | FLAGGED
deriving Repr, DecidableEq

/-- Class `Message` of `mess2.cpp` (lines 52-83). -/
structure Message where
  id : Nat
  content : String
  sourceNode : Int
  state : Message.State
  shareCount : Nat
deriving Repr, DecidableEq

/-- Constructor `Message::Message` (lines 56-57). -/
def Message.new (id : Nat) (content : String) (sourceNode : Int) : Message :=
  { id := id, content := content, sourceNode := sourceNode,
    state := Message.State.CREATED, shareCount := 0 }

/-- Accessor `Message::getId`. -/
def Message.getId (m : Message) : Nat := m.id

/-- Accessor `Message::getContent`. -/
def Message.getContent (m : Message) : String := m.content

/-- Accessor `Message::getSourceNode`. -/
def Message.getSourceNode (m : Message) : Int := m.sourceNode

/-- Accessor `Message::getState`. -/
def Message.getState (m : Message) : Message.State := m.state

/-- Accessor `Message::getShareCount`. -/
def Message.getShareCount (m : Message) : Nat := m.shareCount

/-- Private method `Message::updateState` (lines 79-82). -/
def Message.updateState (m : Message) : Message :=
  if m.shareCount > 100 then { m with state := Message.State.VIRAL }
  else if m.shareCount > 10 then { m with state := Message.State.SHARED }
  else m

/-- Method `Message::incrementShareCount` (lines 65-68). -/
def Message.incrementShareCount (m : Message) : Message :=
  Message.updateState { m with shareCount := m.shareCount + 1 }

/-- Method `Message::flagAsMisinformation` (line 70). -/
def Message.flagAsMisinformation (m : Message) : Message :=
  { m with state := Message.State.FLAGGED }

/-- Word characters of the regular-expression class used by the anchor `\b`
(default "C" locale): ASCII letters, digits and the underscore. -/
def isWordChar (c : Char) : Bool := c.isAlphanum || c == '_'

/-- Whether an optional character (absent at either end of the input) is a word character. -/
def isWordAt (c : Option Char) : Bool :=
  match c with
  | none => false
  | some x => isWordChar x

/-- The anchor `\b`: exactly one of the two adjacent positions holds a word character. -/
def atWordBoundary (before after : Option Char) : Bool :=
  xor (isWordAt before) (isWordAt after)

/-- The alternatives of the group `(fake|hoax|conspiracy)` in `misinfoPattern` (line 293). -/
def misinfoTerms : List (List Char) :=
  ["fake".toList, "hoax".toList, "conspiracy".toList]

/-- Whether the literal `t` matches at the head of `input`. -/
def startsWith : List Char → List Char → Bool
  | [], _ => true
  | _ :: _, [] => false
  | a :: as, b :: bs => a == b && startsWith as bs

/-- Whether `\b(fake|hoax|conspiracy)\b` matches starting at the current position, where
`before` is the character preceding the position and `input` the remaining input. -/
def matchAt (before : Option Char) (input : List Char) : Bool :=
  atWordBoundary before input.head? &&
  misinfoTerms.any (fun t =>
    startsWith t input && atWordBoundary t.getLast? (input.drop t.length).head?)

/-- The scan of `std::regex_search`: try every start position from left to right. -/
def regexSearchFrom (before : Option Char) : List Char → Bool
  | [] => matchAt before []
  | c :: cs => matchAt before (c :: cs) || regexSearchFrom (some c) cs

/-- Call `std::regex_search(content, misinfoPattern)` with the default (case-sensitive)
ECMAScript flags of line 293. -/
def regexSearch (content : String) : Bool :=
  regexSearchFrom none content.toList

/-- The `double` literal `0.1` of line 294: the binary64 value nearest to one tenth. -/
def misinfoThreshold : ℚ := 3602879701896397 / 36028797018963968

/-- Method `LouvainCommunityDetection::isMisinformation` (lines 292-295). -/
def isMisinformation (message : Message) (spreadPercentage : ℚ) : Bool :=
  regexSearch message.getContent || decide (spreadPercentage > misinfoThreshold)

/-- Specification predicate: `content` contains the character sequence `w` as a whole word,
letter case respected. -/
def ContainsWholeWord (content w : List Char) : Prop :=
  ∃ pre post, content = pre ++ w ++ post ∧
    (∀ c, pre.getLast? = some c → isWordChar c = false) ∧
    (∀ c, post.head? = some c → isWordChar c = false)

/-- Specification predicate: `content` contains the term `w` as a whole word in any
letter case. -/
def ContainsWholeWordAnyCase (content w : List Char) : Prop :=
  ∃ pre mid post, content = pre ++ mid ++ post ∧ mid.map Char.toLower = w ∧
    (∀ c, pre.getLast? = some c → isWordChar c = false) ∧
    (∀ c, post.head? = some c → isWordChar c = false)

/-- Model of `std::set<int>::insert`: the element is added unless already present. -/
def setInsert (s : List Int) (x : Int) : List Int :=
  if x ∈ s then s else s ++ [x]

/-- State of class `LouvainCommunityDetection` of `mess2.cpp` (lines 85-91). The random
engine `rng` is represented by the number of share decisions drawn from it so far. -/
structure LouvainCommunityDetection where
  graph : Graph
  communities : List Int
  modularity : ℚ
  messages : List Message
  rng : Nat
deriving Repr, DecidableEq

/-- The read `communities[i]`; an index outside the vector (undefined behaviour in the
source) yields `0`. -/
def readCommunity (communities : List Int) (i : Int) : Int :=
  if 0 ≤ i then communities.getD i.toNat 0 else 0

/-- Structure `NodeInfo` of `mess2.cpp` (lines 216-221). -/
structure NodeInfo where
  community : Int
  connectedCommunities : List Int
  directlyConnectedNodes : List Int
  allConnectedNodes : List Int
deriving Repr, DecidableEq

/-- Program state inside the `while` loop of `getNodeInfo` (lines 233-250). -/
structure InfoState where
  self : LouvainCommunityDetection
  info : NodeInfo
  visited : List Int
  queue : List Int
deriving Repr, DecidableEq

/-- Body of the `for (int neighbor : ...)` loop of `getNodeInfo` (lines 238-248). -/
def visitNeighbor (targetNode currentNode : Int) (st : InfoState) (neighbor : Int) :
    InfoState :=
  let info1 : NodeInfo :=
    if currentNode = targetNode then
      { st.info with directlyConnectedNodes := st.info.directlyConnectedNodes ++ [neighbor] }
    else st.info
  let info2 : NodeInfo :=
    { info1 with
      connectedCommunities :=
        setInsert info1.connectedCommunities (readCommunity st.self.communities neighbor)
      allConnectedNodes := setInsert info1.allConnectedNodes neighbor }
  if neighbor ∈ st.visited then { st with info := info2 }
  else
    { st with
      info := info2
      visited := setInsert st.visited neighbor
      queue := st.queue ++ [neighbor] }

/-- One iteration of the `while (!queue.empty())` loop of `getNodeInfo` (lines 234-249),
entered with `currentNode` at the front of the queue and `rest` behind it. -/
def infoIteration (targetNode : Int) (st : InfoState) (currentNode : Int) (rest : List Int) :
    InfoState :=
  let r := st.self.graph.getNeighbors currentNode
  let st1 : InfoState := { st with self := { st.self with graph := r.2 }, queue := rest }
  r.1.foldl (visitNeighbor targetNode currentNode) st1

/-- The `while (!queue.empty())` loop of `getNodeInfo`; every iteration uses one unit of
fuel, and `none` means that the fuel ran out before the queue was empty. -/
def getNodeInfoLoop (targetNode : Int) : Nat → InfoState → Option InfoState
  | fuel, st =>
    match st.queue with
    | [] => some st
    | currentNode :: rest =>
      match fuel with
      | 0 => none
      | fuel + 1 => getNodeInfoLoop targetNode fuel (infoIteration targetNode st currentNode rest)

/-- Method `LouvainCommunityDetection::getNodeInfo` (lines 223-253): the returned
`NodeInfo` together with the object state after the call. -/
def getNodeInfo (self : LouvainCommunityDetection) (targetNode : Int) (fuel : Nat) :
    Option (NodeInfo × LouvainCommunityDetection) :=
  let info : NodeInfo :=
    { community := readCommunity self.communities targetNode
      connectedCommunities := []
      directlyConnectedNodes := []
      allConnectedNodes := [] }
  let st0 : InfoState :=
    { self := self, info := info, visited := setInsert [] targetNode, queue := [targetNode] }
  (getNodeInfoLoop targetNode fuel st0).map (fun st => (st.info, st.self))

/-- Method `LouvainCommunityDetection::shouldShareMessage` (lines 287-290): one draw from the
random engine. The outcome of the `i`-th draw of the run, `dis(rng) < 0.3`, is given by the
sequence `shares`. -/
def shouldShareMessage (shares : Nat → Bool) (self : LouvainCommunityDetection) :
    Bool × LouvainCommunityDetection :=
  (shares self.rng, { self with rng := self.rng + 1 })

/-- Program state inside the `while` loop of `propagateMessage` (lines 271-282). -/
structure PropagationState where
  self : LouvainCommunityDetection
  nodesToProcess : List Int
  affectedNodes : List Int
deriving Repr, DecidableEq

/-- The statement `messages[message.getId()].incrementShareCount()` (line 277); an index
outside the vector (undefined behaviour in the source) leaves the registry unchanged. -/
def recordShare (id : Nat) (messages : List Message) : List Message :=
  vecUpdate messages id Message.incrementShareCount

/-- Body of the `for (int neighbor : ...)` loop of `propagateMessage` (lines 276-280). The
conjunction short-circuits: no share decision is drawn for an affected neighbour. -/
def shareWithNeighbor (shares : Nat → Bool) (message : Message) (st : PropagationState)
    (neighbor : Int) : PropagationState :=
  if neighbor ∈ st.affectedNodes then st
  else
    let d := shouldShareMessage shares st.self
    if d.1 then
      { self := { d.2 with messages := recordShare message.getId d.2.messages }
        nodesToProcess := st.nodesToProcess ++ [neighbor]
        affectedNodes := setInsert st.affectedNodes neighbor }
    else { st with self := d.2 }

/-- One iteration of the `while (!nodesToProcess.empty())` loop of `propagateMessage`. -/
def propagateIteration (shares : Nat → Bool) (message : Message) (st : PropagationState)
    (currentNode : Int) (rest : List Int) : PropagationState :=
  let r := st.self.graph.getNeighbors currentNode
  let st1 : PropagationState :=
    { st with self := { st.self with graph := r.2 }, nodesToProcess := rest }
  r.1.foldl (shareWithNeighbor shares message) st1

/-- The `while (!nodesToProcess.empty())` loop of `propagateMessage`; every iteration uses
one unit of fuel, and `none` means that the fuel ran out before the queue was empty. -/
def propagateLoop (shares : Nat → Bool) (message : Message) :
    Nat → PropagationState → Option PropagationState
  | fuel, st =>
    match st.nodesToProcess with
    | [] => some st
    | currentNode :: rest =>
      match fuel with
      | 0 => none
      | fuel + 1 =>
        propagateLoop shares message fuel (propagateIteration shares message st currentNode rest)

/-- Method `LouvainCommunityDetection::propagateMessage` (lines 260-285): the returned
set `affectedNodes` together with the object state after the call. -/
def propagateMessage (shares : Nat → Bool) (self : LouvainCommunityDetection)
    (message : Message) (startNode : Int) (fuel : Nat) :
    Option (List Int × LouvainCommunityDetection) :=
  let start := if startNode = -1 then message.getSourceNode else startNode
  let st0 : PropagationState :=
    { self := self, nodesToProcess := [start], affectedNodes := setInsert [] start }
  (propagateLoop shares message fuel st0).map (fun st => (st.affectedNodes, st.self))

/-- The adjacency sequence stored for `node` (empty when `node` is not a key). -/
def Graph.neighborsOf (g : Graph) (node : Int) : List Int :=
  UMap.get g.adjacencyList node []

/-- All node ids that occur in some adjacency sequence of the graph. -/
def Graph.allNeighbors (g : Graph) : List Int :=
  (g.adjacencyList.map Prod.snd).flatten

/-- Specification: `u` and `v` are joined by an inserted edge, in either direction. -/
def Adjacent (edges : List (Int × Int)) (u v : Int) : Prop :=
  (u, v) ∈ edges ∨ (v, u) ∈ edges

/-- Specification: `v` is reachable from `u` in the undirected graph of the inserted edges
(every node is reachable from itself). -/
def Reachable (edges : List (Int × Int)) (u v : Int) : Prop :=
  Relation.ReflTransGen (Adjacent edges) u v

/-- Specification: `v` is an endpoint of some inserted edge. -/
def IsEndpoint (edges : List (Int × Int)) (v : Int) : Prop :=
  ∃ e ∈ edges, e.1 = v ∨ e.2 = v

/-- Reachability along stored adjacency sequences. -/
def Graph.Reach (g : Graph) (u v : Int) : Prop :=
  Relation.ReflTransGen (fun a b => b ∈ g.neighborsOf a) u v

/-- Proof device: the pair `(v2, q2)` of visited set and work queue arises from `(v1, q1)`
by appending the same duplicate-free sequence of nodes, all taken from `allowed` and none
of them in `v1`. -/
def Extends (allowed v1 q1 v2 q2 : List Int) : Prop :=
  ∃ fresh : List Int, v2 = v1 ++ fresh ∧ q2 = q1 ++ fresh ∧
    (∀ x ∈ fresh, x ∈ allowed ∧ x ∉ v1) ∧ fresh.Nodup

/-- Proof device: termination measure of the breadth-first loops, relative to a list
`univ` that contains every node that can still be discovered. -/
def bfsMeasure (univ visited queue : List Int) : Nat :=
  2 * (univ.toFinset \ visited.toFinset).card + queue.length

/-- Loop invariant of the `while` loop of `getNodeInfo`, relative to the graph `g0` and the
label vector `c0` at entry and to the target node. -/
structure InfoInv (g0 : Graph) (c0 : List Int) (target : Int) (st : InfoState) : Prop where
  graph_nbrs : ∀ n, st.self.graph.neighborsOf n = g0.neighborsOf n
  comm : st.self.communities = c0
  target_vis : target ∈ st.visited
  vis_reach : ∀ v ∈ st.visited, g0.Reach target v
  queue_vis : ∀ v ∈ st.queue, v ∈ st.visited
  closed : ∀ u ∈ st.visited, u ∉ st.queue → ∀ w ∈ g0.neighborsOf u, w ∈ st.visited
  all_sound : ∀ w ∈ st.info.allConnectedNodes, ∃ u ∈ st.visited, w ∈ g0.neighborsOf u
  all_complete : ∀ u ∈ st.visited, u ∉ st.queue →
    ∀ w ∈ g0.neighborsOf u, w ∈ st.info.allConnectedNodes
  conn_sound : ∀ c ∈ st.info.connectedCommunities,
    ∃ u ∈ st.visited, ∃ w ∈ g0.neighborsOf u, c = readCommunity c0 w
  conn_complete : ∀ u ∈ st.visited, u ∉ st.queue →
    ∀ w ∈ g0.neighborsOf u, readCommunity c0 w ∈ st.info.connectedCommunities
  direct : (st.queue = [target] ∧ st.info.directlyConnectedNodes = []) ∨
    (target ∉ st.queue ∧ st.info.directlyConnectedNodes = g0.neighborsOf target)
  community : st.info.community = readCommunity c0 target
  all_nodup : st.info.allConnectedNodes.Nodup
  conn_nodup : st.info.connectedCommunities.Nodup

/-- Sample edge list used in worked instances: two disjoint triangles. -/
def sampleEdges : List (Int × Int) := [(0, 1), (1, 2), (2, 0), (3, 4), (4, 5), (5, 3)]

/-- Sample object state used in worked instances: the graph of `sampleEdges`, singleton
labels and the three messages registered by `main`. -/
def sampleNetwork : LouvainCommunityDetection :=
  { graph := Graph.build sampleEdges
    communities := [0, 1, 2, 3, 4, 5]
    modularity := 0
    messages :=
      [Message.new 0 "This is a normal message." 1,
       Message.new 1 "FAKE: Earth is flat! Share this conspiracy theory!" 10,
       Message.new 2 "COVID-19 vaccine contains microchips. This is a hoax!" 100]
    rng := 0 }

/-- Loop invariant of the `while` loop of `propagateMessage`, for an arbitrary sequence of
share decisions, relative to the graph `g0` and the registry `msgs0` at entry. -/
structure PropInv (g0 : Graph) (msgs0 : List Message) (id : Nat) (start : Int)
    (st : PropagationState) : Prop where
  graph_nbrs : ∀ n, st.self.graph.neighborsOf n = g0.neighborsOf n
  start_aff : start ∈ st.affectedNodes
  aff_reach : ∀ v ∈ st.affectedNodes, g0.Reach start v
  queue_aff : ∀ v ∈ st.nodesToProcess, v ∈ st.affectedNodes
  aff_nodup : st.affectedNodes.Nodup
  msgs : st.self.messages = (recordShare id)^[st.affectedNodes.length - 1] msgs0

/-- Every affected node that has left the queue has all its neighbours affected. -/
def PropClosed (g0 : Graph) (st : PropagationState) : Prop :=
  ∀ u ∈ st.affectedNodes, u ∉ st.nodesToProcess →
    ∀ w ∈ g0.neighborsOf u, w ∈ st.affectedNodes

/-- Representation invariant of the map-based graph. -/
def Graph.WF (g : Graph) : Prop :=
  UMap.keys g.adjacencyList = UMap.keys g.nodeDegrees ∧
  (UMap.keys g.nodeDegrees).Nodup ∧
  (g.nodeDegrees.map Prod.snd).sum = 2 * g.totalEdges

/-- The character preceding the position that follows `pre`, when the input before `pre`
ended with `before`. -/
def prevChar (before : Option Char) (pre : List Char) : Option Char :=
  match pre.getLast? with
  | some c => some c
  | none => before

end Mess2

namespace Comm4

/-- State of class `LouvainCommunityDetection` of `comm4.cpp` (lines 49-52). -/
structure LouvainCommunityDetection where
  graph : Graph
  communities : List Nat
deriving Repr, DecidableEq

/-- Model of `seen[key] = true` on the key set of an `unordered_map`. -/
def markSeen (seen : List Nat) (community : Nat) : List Nat :=
  if community ∈ seen then seen else seen ++ [community]

/-- Method `LouvainCommunityDetection::countCommunities` of `comm4.cpp` (lines 54-60). -/
def LouvainCommunityDetection.countCommunities (self : LouvainCommunityDetection) : Nat :=
  (self.communities.foldl markSeen []).length

/-- Method `LouvainCommunityDetection::loadGraph` of `comm4.cpp` (lines 63-81), applied to
the edges parsed from the input file. -/
def loadGraph (edges : List (Nat × Nat)) : LouvainCommunityDetection :=
  { graph := Graph.build edges
    communities := List.range (Graph.build edges).getNumNodes }

/-- The statement `community_connections[key]++` on an `unordered_map<int, int>` (line 102):
an absent key is inserted with count 1. Entries are kept in insertion order. -/
def countConnection (m : List (Nat × Nat)) (key : Nat) : List (Nat × Nat) :=
  match m with
  | [] => [(key, 1)]
  | (k, n) :: rest => if k = key then (k, n + 1) :: rest else (k, n) :: countConnection rest key

/-- The map `community_connections` built by the loop of lines 101-103. -/
def connectionsOf (self : LouvainCommunityDetection) (v : Nat) : List (Nat × Nat) :=
  (self.graph.getNeighbors v).foldl
    (fun m nbr => countConnection m (self.communities.getD nbr 0)) []

/-- The scan of lines 105-112 over the entries in their iteration order: the pair
`(best_community, max_connections)` after the loop. -/
def scanBest (entries : List (Nat × Nat)) (old_community : Nat) : Nat × Nat :=
  entries.foldl (fun acc entry => if entry.2 > acc.2 then (entry.1, entry.2) else acc)
    (old_community, 0)

/-- Body of the loop `for (int v : nodes)` of `detectCommunities` (lines 98-117): the state
after the step and whether the step moved `v`. The iteration order of the
`unordered_map` is unspecified; `hashOrder` maps the entries in insertion order to the
order in which the range-for visits them. -/
def moveStep (hashOrder : List (Nat × Nat) → List (Nat × Nat))
    (self : LouvainCommunityDetection) (v : Nat) : LouvainCommunityDetection × Bool :=
  let old_community := self.communities.getD v 0
  let community_connections := connectionsOf self v
  let best_community := (scanBest (hashOrder community_connections) old_community).1
  if best_community ≠ old_community then
    ({ self with communities := self.communities.set v best_community }, true)
  else (self, false)

/-- One pass of the outer loop body (lines 97-118) over the shuffled node sequence: the
state after the pass and the flag `improvement`. -/
def localMovePass (hashOrder : List (Nat × Nat) → List (Nat × Nat))
    (self : LouvainCommunityDetection) (nodes : List Nat) : LouvainCommunityDetection × Bool :=
  nodes.foldl
    (fun acc v => ((moveStep hashOrder acc.1 v).1, acc.2 || (moveStep hashOrder acc.1 v).2))
    (self, false)

/-- The constant `maxIterations` (line 85). -/
def maxIterations : Nat := 20

/-- Result of the loop of lines 91-123: the state, the vector `communityCount` and the
number of executed loop bodies (passes). -/
structure PassLoopResult where
  self : LouvainCommunityDetection
  communityCount : List Nat
  passes : Nat
deriving Repr, DecidableEq

/-- The loop `for (iteration = 0; iteration <= maxIterations; iteration++)` of lines 91-123,
entered at index `iteration` with `remaining` indices still to run. `shuffle i` is the
permutation that `std::shuffle` applies in pass `i`. -/
def passLoop (hashOrder : List (Nat × Nat) → List (Nat × Nat))
    (shuffle : Nat → List Nat → List Nat) :
    Nat → Nat → PassLoopResult → PassLoopResult
  | 0, _, st => st
  | remaining + 1, iteration, st =>
    let nodes := shuffle iteration (List.range st.self.graph.getNumNodes)
    let r := localMovePass hashOrder st.self nodes
    let st1 : PassLoopResult :=
      { self := r.1
        communityCount := st.communityCount.set iteration r.1.countCommunities
        passes := st.passes + 1 }
    if !r.2 then st1 else passLoop hashOrder shuffle remaining (iteration + 1) st1

/-- The selection loop of lines 125-132: the pair `(bestIteration, minCommunities)`. -/
def selectBest (communityCount : List Nat) (numNodes : Nat) : Nat × Nat :=
  (List.range (maxIterations + 1)).foldl
    (fun acc i =>
      if communityCount.getD i 0 < acc.2 ∧ communityCount.getD i 0 > 0 then
        (i, communityCount.getD i 0)
      else acc)
    (0, numNodes)

/-- The loop part of `detectCommunities` (lines 84-123), started on the object state. -/
def runPasses (hashOrder : List (Nat × Nat) → List (Nat × Nat))
    (shuffle : Nat → List Nat → List Nat) (self : LouvainCommunityDetection) :
    PassLoopResult :=
  passLoop hashOrder shuffle (maxIterations + 1) 0
    { self := self, communityCount := List.replicate (maxIterations + 1) 0, passes := 0 }

/-- Method `LouvainCommunityDetection::detectCommunities` of `comm4.cpp` (lines 83-135):
the returned pair and the object state after the call. -/
def detectCommunities (hashOrder : List (Nat × Nat) → List (Nat × Nat))
    (shuffle : Nat → List Nat → List Nat) (self : LouvainCommunityDetection) :
    (Nat × Nat) × LouvainCommunityDetection :=
  let r := runPasses hashOrder shuffle self
  (selectBest r.communityCount self.graph.getNumNodes, r.self)

/-- Edge list of a path `0 - 1 - ... - n` in which the edge `(i, i + 1)` is inserted
`n - i` times, so that every inner node has more connections to its left than to its
right neighbour. -/
def weightedPath (n : Nat) : List (Nat × Nat) :=
  (List.range n).flatMap (fun i => List.replicate (n - i) (i, i + 1))

end Comm4

namespace Mess2

/-- The write `communities[i] = x`; an index outside the vector (undefined behaviour in the
source) leaves the vector unchanged. -/
def writeCommunity (communities : List Int) (i : Int) (x : Int) : List Int :=
  if 0 ≤ i then communities.set i.toNat x else communities

/-- Whether the index `i` lies within the bounds of the vector `communities`. -/
def InBounds (communities : List Int) (i : Int) : Prop :=
  0 ≤ i ∧ i.toNat < communities.length

/-- Method `LouvainCommunityDetection::loadGraph` of `mess2.cpp` (lines 157-174), applied on a
freshly constructed object to the edges parsed from the input file. -/
def loadGraph (edges : List (Int × Int)) : LouvainCommunityDetection :=
  { graph := Graph.build edges
    communities := (List.range (Graph.build edges).getNodes.length).map Int.ofNat
    modularity := 0
    messages := []
    rng := 0 }

/-- The map `communityGains` built by the loop of lines 129-135 of `moveNode`: for every
neighbour the entry of its community is created with value 0 if absent and then
incremented. Entries are kept in insertion order; the values are whole numbers. -/
def communityGainsOf (communities : List Int) (neighbors : List Int) : UMap Nat :=
  neighbors.foldl
    (fun m neighbor => UMap.update m (readCommunity communities neighbor) 0 (fun x => x + 1)) []

/-- The expression of line 142,
`pair.second - (graph.getDegree(node) * communityGains[community] / (2 * graph.getTotalEdges()))`,
in exact rational arithmetic. -/
def gainOf (degree totalEdges connections lookup : Nat) : ℚ :=
  (connections : ℚ) - ((degree : ℚ) * (lookup : ℚ)) / (2 * (totalEdges : ℚ))

/-- The scan of lines 137-147 of `moveNode` over the entries in their iteration order: the
pair `(bestCommunity, bestGain)` after the loop. -/
def scanGains (entries communityGains : UMap Nat) (degree totalEdges : Nat)
    (currentCommunity : Int) : Int × ℚ :=
  entries.foldl
    (fun acc pair =>
      if gainOf degree totalEdges pair.2 (UMap.get communityGains pair.1 0) > acc.2 then
        (pair.1, gainOf degree totalEdges pair.2 (UMap.get communityGains pair.1 0))
      else acc)
    (currentCommunity, 0)

/-- The community selected by `moveNode` for `node` (the value of `bestCommunity` at line
149). The iteration order of the `unordered_map` is unspecified; `hashOrder` maps the
entries in insertion order to the order in which the range-for visits them. -/
def bestCommunityOf (hashOrder : UMap Nat → UMap Nat) (self : LouvainCommunityDetection)
    (node : Int) : Int :=
  (scanGains (hashOrder (communityGainsOf self.communities (self.graph.neighborsOf node)))
    (communityGainsOf self.communities (self.graph.neighborsOf node))
    (UMap.get self.graph.nodeDegrees node 0) self.graph.getTotalEdges
    (readCommunity self.communities node)).1

/-- Private method `LouvainCommunityDetection::moveNode` of `mess2.cpp` (lines 125-152). The
`operator[]` accesses of `getNeighbors` and, when the scan loop runs at least once, of
`getDegree` may insert default entries into the graph maps. -/
def moveNode (hashOrder : UMap Nat → UMap Nat) (self : LouvainCommunityDetection)
    (node : Int) : LouvainCommunityDetection :=
  let currentCommunity := readCommunity self.communities node
  let r := self.graph.getNeighbors node
  let communityGains := communityGainsOf self.communities r.1
  let d := r.2.getDegree node
  let graph2 := if communityGains.isEmpty then r.2 else d.2
  let bestCommunity :=
    (scanGains (hashOrder communityGains) communityGains d.1 r.2.getTotalEdges
      currentCommunity).1
  if bestCommunity ≠ currentCommunity then
    { self with
      graph := graph2
      communities := writeCommunity self.communities node bestCommunity }
  else { self with graph := graph2 }

/-- One execution of the sequential `for (int node : graph.getNodes())` loop of
`detectCommunities` (lines 192-198): the state after the pass and the flag `improvement`. -/
def sequentialPass (hashOrder : UMap Nat → UMap Nat) (self : LouvainCommunityDetection)
    (nodes : List Int) : LouvainCommunityDetection × Bool :=
  nodes.foldl
    (fun acc node =>
      (moveNode hashOrder acc.1 node,
       acc.2 || decide (readCommunity (moveNode hashOrder acc.1 node).communities node ≠
         readCommunity acc.1.communities node)))
    (self, false)

/-- The loop `while (improvement)` of `detectCommunities` (lines 178-200) in sequential mode;
every pass uses one unit of fuel, and `none` means that the fuel ran out before a pass
without a move occurred. `visit i` is the order in which the traversal of pass `i` yields
the keys returned by `getNodes()` (unspecified for an `unordered_map`). -/
def detectLoop (hashOrder : UMap Nat → UMap Nat) (visit : Nat → List Int → List Int) :
    Nat → Nat → LouvainCommunityDetection → Option LouvainCommunityDetection
  | 0, _, _ => none
  | fuel + 1, pass, self =>
    if (sequentialPass hashOrder self (visit pass self.graph.getNodes)).2 then
      detectLoop hashOrder visit fuel (pass + 1)
        (sequentialPass hashOrder self (visit pass self.graph.getNodes)).1
    else some (sequentialPass hashOrder self (visit pass self.graph.getNodes)).1

/-- The statement `vector[i] += x` on an accumulator vector; an index outside the vector
(undefined behaviour in the source) leaves the vector unchanged. -/
def accumulate (acc : List ℚ) (i : Int) (x : ℚ) : List ℚ :=
  if 0 ≤ i then vecUpdate acc i.toNat (fun y => y + x) else acc

/-- Program state inside the first loop of `calculateModularity` (lines 100-114). -/
structure ModularityState where
  self : LouvainCommunityDetection
  communityInternalEdges : List ℚ
  communityTotalEdges : List ℚ

/-- Body of the first loop of `calculateModularity` (lines 101-113) for one node. The
additions are atomic in the source, so that in exact arithmetic the result does not
depend on the interleaving of the parallel loop. -/
def modularityNode (st : ModularityState) (node : Int) : ModularityState :=
  let comm := readCommunity st.self.communities node
  let d := st.self.graph.getDegree node
  let r := d.2.getNeighbors node
  { self := { st.self with graph := r.2 }
    communityTotalEdges := accumulate st.communityTotalEdges comm (d.1 : ℚ)
    communityInternalEdges :=
      r.1.foldl
        (fun acc neighbor =>
          if readCommunity st.self.communities neighbor = comm then accumulate acc comm 1
          else acc)
        st.communityInternalEdges }

/-- The summation loop of `calculateModularity` (lines 116-120). -/
def modularitySum (communityInternalEdges communityTotalEdges : List ℚ) (m : ℚ)
    (size : Nat) : ℚ :=
  (List.range size).foldl
    (fun Q i =>
      if communityTotalEdges.getD i 0 > 0 then
        Q + (communityInternalEdges.getD i 0 / (2 * m) -
          (communityTotalEdges.getD i 0 / (2 * m)) ^ 2)
      else Q)
    0

/-- Private method `LouvainCommunityDetection::calculateModularity` of `mess2.cpp` (lines
93-123), in exact rational arithmetic: the value `Q` and the object state after the call. -/
def calculateModularity (self : LouvainCommunityDetection) :
    ℚ × LouvainCommunityDetection :=
  let st := self.graph.getNodes.foldl modularityNode
    { self := self
      communityInternalEdges := List.replicate self.communities.length 0
      communityTotalEdges := List.replicate self.communities.length 0 }
  (modularitySum st.communityInternalEdges st.communityTotalEdges
      (self.graph.getTotalEdges : ℚ) self.communities.length,
   st.self)

/-- The number of keys of `uniqueCommunities` after the loop of lines 204-207. -/
def uniqueCommunityCount (communities : List Int) : Nat :=
  (communities.foldl setInsert []).length

/-- Method `LouvainCommunityDetection::detectCommunities` of `mess2.cpp` (lines 176-210) in
sequential mode (`useParallel == false`): the returned number of communities and the object
state after the call. -/
def detectCommunities (hashOrder : UMap Nat → UMap Nat) (visit : Nat → List Int → List Int)
    (self : LouvainCommunityDetection) (fuel : Nat) :
    Option (Nat × LouvainCommunityDetection) :=
  (detectLoop hashOrder visit fuel 0 self).map
    (fun s =>
      (uniqueCommunityCount s.communities,
       { (calculateModularity s).2 with modularity := (calculateModularity s).1 }))

/-- Specification quantity: the number of neighbours of `v` (with multiplicity) that carry
the label `c`. -/
def connections (self : LouvainCommunityDetection) (v c : Int) : Nat :=
  ((self.graph.neighborsOf v).filter (fun n => readCommunity self.communities n = c)).length

/-- Specification quantity: the sum of the degrees of all nodes that carry the label `c`. -/
def totalIncidentWeight (self : LouvainCommunityDetection) (c : Int) : Nat :=
  ((self.graph.getNodes.filter (fun n => readCommunity self.communities n = c)).map
    (fun n => UMap.get self.graph.nodeDegrees n 0)).sum

/-- Specification of the modularity-gain score, following the words of the specification:
`connections(v, c) - degree(v) * totalIncidentWeight(c) / (2 * totalEdges)`. -/
def modularityGainSpec (self : LouvainCommunityDetection) (v c : Int) : ℚ :=
  (connections self v c : ℚ) -
    (((UMap.get self.graph.nodeDegrees v 0 : Nat) : ℚ) * (totalIncidentWeight self c : ℚ)) /
      (2 * (self.graph.getTotalEdges : ℚ))

/-- The score that `moveNode` computes for the neighbouring community `c` of `node`
(the value of `gain` at line 142 in the iteration for `c`). -/
def moveNodeScore (self : LouvainCommunityDetection) (node c : Int) : ℚ :=
  gainOf (UMap.get self.graph.nodeDegrees node 0) self.graph.getTotalEdges
    (UMap.get (communityGainsOf self.communities (self.graph.neighborsOf node)) c 0)
    (UMap.get (communityGainsOf self.communities (self.graph.neighborsOf node)) c 0)

/-- Edge list on which the score of `moveNode` and the specified modularity gain select
different communities for node 0. -/
def skewedEdges : List (Int × Int) :=
  [(0, 1), (0, 1), (0, 2), (1, 3), (1, 4), (1, 5), (1, 6)]

end Mess2

namespace Mess2

/-- The indices `x` of the accesses `communities[x]` that `moveNode(node)` performs: the node
itself (lines 126 and 150) and each of its neighbours (line 130). -/
def moveNodeAccesses (self : LouvainCommunityDetection) (node : Int) : List Int :=
  node :: self.graph.neighborsOf node

end Mess2

namespace Comm4

/-- Specification quantity: the number of neighbours of `v` (with multiplicity) that carry
the label `c`. -/
def connections (self : LouvainCommunityDetection) (v c : Nat) : Nat :=
  ((self.graph.getNeighbors v).filter (fun n => self.communities.getD n 0 = c)).length

end Comm4

namespace Comm4

/-- Proof device: the count stored for `key` in a connection map (0 when absent). -/
def entryCount (m : List (Nat × Nat)) (key : Nat) : Nat :=
  match m with
  | [] => 0
  | (k, n) :: rest => if k = key then n else entryCount rest key

/-- Proof device: the connection map `m` holds exactly the labels of the sequence `labels`,
each once, with its number of occurrences. -/
def CountsOf (m : List (Nat × Nat)) (labels : List Nat) : Prop :=
  (m.map Prod.fst).Nodup ∧
  (∀ e ∈ m, e.2 = labels.count e.1 ∧ 0 < e.2) ∧
  (∀ k ∈ labels, k ∈ m.map Prod.fst)

end Comm4

namespace Comm4

/-- Sample object state for the tie rule: node 0 has the neighbours 1 and 2 (in this order
of insertion); the labels are given. -/
def tieState (communities : List Nat) : LouvainCommunityDetection :=
  { graph := Graph.build [(0, 1), (0, 2)], communities := communities }

end Comm4

namespace Comm4

/-- Proof device: loop invariant of the pass loop of `detectCommunities` before the pass
with index `k`, for a label vector of length `n`: the first `k` slots of `communityCount`
hold recorded counts between 1 and `n`, the other slots are still 0. -/
structure Recorded (n k : Nat) (st : PassLoopResult) : Prop where
  passes_eq : st.passes = k
  len : st.communityCount.length = maxIterations + 1
  counted : ∀ j < k, 1 ≤ st.communityCount.getD j 0 ∧ st.communityCount.getD j 0 ≤ n
  untouched : ∀ j, k ≤ j → st.communityCount.getD j 0 = 0
  comm_len : st.self.communities.length = n

end Comm4

namespace Mess2

/-- Proof device: the graph `g2` answers every read (`getNeighbors`, `getDegree`,
`getTotalEdges`, membership in `getNodes`) as the graph `g` does. The `operator[]`
accesses of the read methods only lead from a graph to such a graph when applied to nodes
of the graph. -/
structure SameReads (g g2 : Graph) : Prop where
  nbrs : ∀ n, g2.neighborsOf n = g.neighborsOf n
  degs : ∀ n, UMap.get g2.nodeDegrees n 0 = UMap.get g.nodeDegrees n 0
  total : g2.getTotalEdges = g.getTotalEdges
  nodes : ∀ n, n ∈ g2.getNodes ↔ n ∈ g.getNodes

end Mess2

namespace Comm4

/-- Specification: `u` and `v` are joined by an inserted edge, in either direction. -/
def Adjacent (edges : List (Nat × Nat)) (u v : Nat) : Prop :=
  (u, v) ∈ edges ∨ (v, u) ∈ edges

/-- Specification: `v` lies in the connected component of `u` in the undirected graph of the
inserted edges (every node lies in its own component). -/
def Reachable (edges : List (Nat × Nat)) (u v : Nat) : Prop :=
  Relation.ReflTransGen (Adjacent edges) u v

end Comm4

namespace Comm4

end Comm4

namespace Mess2

end Mess2

namespace Mess2

end Mess2

/-! ## Theorems -/

namespace Comm4

theorem vecUpdate_length {α : Type} (l : List α) (i : Nat) (f : α → α) :
    (vecUpdate l i f).length = l.length := by
  induction l generalizing i with
  | nil => rfl
  | cons x xs ih =>
    cases i with
    | zero => rfl
    | succ j => simp [vecUpdate, ih]

theorem vecUpdate_sum_succ (l : List Nat) (i : Nat) (h : i < l.length) :
    (vecUpdate l i (fun d => d + 1)).sum = l.sum + 1 := by
  induction l generalizing i with
  | nil => simp at h
  | cons x xs ih =>
    cases i with
    | zero => simp [vecUpdate]; omega
    | succ j =>
      have hj : j < xs.length := by simpa using h
      simp [vecUpdate, ih j hj]; omega

theorem resize_length {α : Type} (l : List α) (n : Nat) (d : α) :
    (resize l n d).length = n := by
  simp [resize]; omega

theorem resize_sum_zero (l : List Nat) (n : Nat) (h : l.length ≤ n) :
    (resize l n 0).sum = l.sum := by
  simp [resize, List.take_of_length_le h]

theorem map_getD_range (l : List Nat) :
    (List.range l.length).map (fun i => l.getD i 0) = l := by
  apply List.ext_getElem
  · simp
  · intro i h1 h2
    simp [List.getElem?_eq_getElem h2]

theorem Graph.wf_empty_vec : Graph.empty.WF := by
  simp [Graph.WF, Graph.empty]

theorem Graph.wf_addEdge_vec (g : Graph) (u v : Nat) (h : g.WF) : (g.addEdge u v).WF := by
  obtain ⟨hlen, hsum⟩ := h
  unfold Graph.addEdge
  by_cases hc : (decide (u ≥ g.numNodes) || decide (v ≥ g.numNodes)) = true
  · simp only [hc, if_true]
    have hu : u < max g.numNodes (max u v + 1) := by omega
    have hv : v < max g.numNodes (max u v + 1) := by omega
    refine ⟨?_, ?_⟩
    · simp [vecUpdate_length, resize_length]
    · simp only []
      rw [vecUpdate_sum_succ _ _ (by simpa [vecUpdate_length, resize_length] using hv),
        vecUpdate_sum_succ _ _ (by simpa [resize_length] using hu),
        resize_sum_zero _ _ (by omega)]
      omega
  · simp only [hc]
    have hc2 : u < g.numNodes ∧ v < g.numNodes := by
      simp at hc; omega
    refine ⟨?_, ?_⟩
    · simp [vecUpdate_length, hlen]
    · simp only []
      rw [vecUpdate_sum_succ _ _ (by simpa [vecUpdate_length, hlen] using hc2.2),
        vecUpdate_sum_succ _ _ (by simpa [hlen] using hc2.1)]
      simp at hsum ⊢
      omega

theorem Graph.wf_foldl_vec (edges : List (Nat × Nat)) (g : Graph) (h : g.WF) :
    (edges.foldl (fun g e => g.addEdge e.1 e.2) g).WF := by
  induction edges generalizing g with
  | nil => simpa using h
  | cons e es ih => exact ih _ (Graph.wf_addEdge_vec g e.1 e.2 h)

theorem Graph.degreeSum_of_wf_vec (g : Graph) (h : g.WF) :
    g.degreeSum = 2 * g.getTotalEdges := by
  obtain ⟨hlen, hsum⟩ := h
  unfold Graph.degreeSum Graph.getNumNodes Graph.getTotalEdges
  rw [← hlen, ← hsum]
  have := map_getD_range g.nodeDegrees
  unfold Graph.getDegree
  rw [this]

end Comm4

namespace Mess2

theorem UMap.keys_update_congr {V W : Type} (m1 : UMap V) (m2 : UMap W) (k : Int)
    (d1 : V) (d2 : W) (f1 : V → V) (f2 : W → W) (h : UMap.keys m1 = UMap.keys m2) :
    UMap.keys (UMap.update m1 k d1 f1) = UMap.keys (UMap.update m2 k d2 f2) := by
  induction m1 generalizing m2 with
  | nil =>
    cases m2 with
    | nil => simp [UMap.update, UMap.keys]
    | cons b bs => simp [UMap.keys] at h
  | cons a as ih =>
    cases m2 with
    | nil => simp [UMap.keys] at h
    | cons b bs =>
      obtain ⟨ka, va⟩ := a
      obtain ⟨kb, vb⟩ := b
      simp [UMap.keys] at h
      obtain ⟨h1, h2⟩ := h
      subst h1
      have := ih bs (by simpa [UMap.keys] using h2)
      by_cases hk : ka = k
      · simp [UMap.update, hk, UMap.keys, h2]
      · simp [UMap.update, hk, UMap.keys] at this ⊢
        exact this

theorem UMap.mem_keys_update {V : Type} (m : UMap V) (k : Int) (d : V) (f : V → V) (x : Int) :
    x ∈ UMap.keys (UMap.update m k d f) ↔ x ∈ UMap.keys m ∨ x = k := by
  induction m with
  | nil => simp [UMap.update, UMap.keys]
  | cons a as ih =>
    obtain ⟨ka, va⟩ := a
    by_cases hk : ka = k
    · subst hk
      simp [UMap.update, UMap.keys]
      tauto
    · simp [UMap.update, hk, UMap.keys] at ih ⊢
      rw [ih]
      tauto

theorem UMap.nodup_keys_update {V : Type} (m : UMap V) (k : Int) (d : V) (f : V → V)
    (h : (UMap.keys m).Nodup) : (UMap.keys (UMap.update m k d f)).Nodup := by
  induction m with
  | nil => simp [UMap.update, UMap.keys]
  | cons a as ih =>
    obtain ⟨ka, va⟩ := a
    have h2 : ka ∉ UMap.keys as ∧ (UMap.keys as).Nodup := by
      simpa [UMap.keys] using h
    by_cases hk : ka = k
    · simpa [UMap.update, hk, UMap.keys] using h
    · have hmem := UMap.mem_keys_update as k d f ka
      have ih2 := ih h2.2
      simp only [UMap.update, hk, if_false, UMap.keys, List.map_cons, List.nodup_cons]
      refine ⟨?_, ih2⟩
      intro hx
      have := hmem.mp hx
      tauto

theorem UMap.sum_update_succ (m : UMap Nat) (k : Int) :
    ((UMap.update m k 0 (fun d => d + 1)).map Prod.snd).sum = (m.map Prod.snd).sum + 1 := by
  induction m with
  | nil => simp [UMap.update]
  | cons a as ih =>
    obtain ⟨ka, va⟩ := a
    by_cases hk : ka = k
    · simp [UMap.update, hk]; omega
    · simp [UMap.update, hk, ih]; omega

theorem UMap.map_get_keys (m : UMap Nat) (h : (UMap.keys m).Nodup) :
    (UMap.keys m).map (fun k => UMap.get m k 0) = m.map Prod.snd := by
  induction m with
  | nil => simp [UMap.keys]
  | cons a as ih =>
    obtain ⟨ka, va⟩ := a
    have h2 : ka ∉ UMap.keys as ∧ (UMap.keys as).Nodup := by
      simpa [UMap.keys] using h
    have ih2 := ih h2.2
    simp only [UMap.keys, List.map_cons, UMap.get, if_true, List.cons.injEq, true_and]
    rw [← ih2]
    simp only [UMap.keys, List.map_map]
    apply List.map_congr_left
    intro x hx
    have hne : ka ≠ x.1 := by
      intro he
      apply h2.1
      rw [he]
      exact List.mem_map_of_mem Prod.fst hx
    simp [hne]

theorem Graph.wf_empty_map : Graph.empty.WF := by
  simp [Graph.WF, Graph.empty, UMap.keys]

theorem Graph.wf_addEdge_map (g : Graph) (u v : Int) (h : g.WF) : (g.addEdge u v).WF := by
  obtain ⟨hk, hn, hs⟩ := h
  refine ⟨?_, ?_, ?_⟩
  · exact UMap.keys_update_congr _ _ _ _ _ _ _ (UMap.keys_update_congr _ _ _ _ _ _ _ hk)
  · exact UMap.nodup_keys_update _ _ _ _ (UMap.nodup_keys_update _ _ _ _ hn)
  · simp only [Graph.addEdge]
    rw [UMap.sum_update_succ, UMap.sum_update_succ, hs]
    omega

theorem Graph.wf_foldl_map (edges : List (Int × Int)) (g : Graph) (h : g.WF) :
    (edges.foldl (fun g e => g.addEdge e.1 e.2) g).WF := by
  induction edges generalizing g with
  | nil => simpa using h
  | cons e es ih => exact ih _ (Graph.wf_addEdge_map g e.1 e.2 h)

theorem Graph.degreeSum_of_wf_map (g : Graph) (h : g.WF) :
    g.degreeSum = 2 * g.getTotalEdges := by
  obtain ⟨hk, hn, hs⟩ := h
  unfold Graph.degreeSum Graph.getNodes Graph.getTotalEdges Graph.getDegree
  simp only []
  rw [hk, UMap.map_get_keys _ hn, hs]

end Mess2

/-- C1. Handshake invariant of `Graph::addEdge`: after any finite sequence of `addEdge`
calls starting from the empty graph (duplicate edges and self-loops allowed), the sum of
`getDegree` over all known nodes equals twice `getTotalEdges`, for the vector-based
graph of `comm4.cpp` and for the map-based graph of `mess2.cpp`. -/
theorem handshake_invariant (edges4 : List (Nat × Nat)) (edges2 : List (Int × Int)) :
    (Comm4.Graph.build edges4).degreeSum = 2 * (Comm4.Graph.build edges4).getTotalEdges ∧
    (Mess2.Graph.build edges2).degreeSum = 2 * (Mess2.Graph.build edges2).getTotalEdges :=
  ⟨Comm4.Graph.degreeSum_of_wf_vec _ (Comm4.Graph.wf_foldl_vec edges4 _ Comm4.Graph.wf_empty_vec),
   Mess2.Graph.degreeSum_of_wf_map _ (Mess2.Graph.wf_foldl_map edges2 _ Mess2.Graph.wf_empty_map)⟩

namespace Mess2

theorem startsWith_iff (t l : List Char) :
    startsWith t l = true ↔ ∃ post, l = t ++ post := by
  induction t generalizing l with
  | nil => simp [startsWith]
  | cons a as ih =>
    cases l with
    | nil => simp [startsWith]
    | cons b bs =>
      simp only [startsWith, Bool.and_eq_true, beq_iff_eq, ih, List.cons_append,
        List.cons.injEq]
      constructor
      · rintro ⟨rfl, post, rfl⟩
        exact ⟨post, rfl, rfl⟩
      · rintro ⟨post, rfl, rfl⟩
        exact ⟨rfl, post, rfl⟩

theorem misinfoTerms_word_ends :
    ∀ t ∈ misinfoTerms, isWordAt t.head? = true ∧ isWordAt t.getLast? = true := by
  decide

theorem misinfoTerms_mem (t : List Char) :
    t ∈ misinfoTerms ↔ t = "fake".toList ∨ t = "hoax".toList ∨ t = "conspiracy".toList := by
  simp [misinfoTerms]

theorem matchAt_iff (before : Option Char) (l : List Char) :
    matchAt before l = true ↔
      isWordAt before = false ∧
      ∃ t ∈ misinfoTerms, ∃ post, l = t ++ post ∧ isWordAt post.head? = false := by
  unfold matchAt
  simp only [Bool.and_eq_true, List.any_eq_true, startsWith_iff]
  constructor
  · rintro ⟨hb, t, ht, ⟨post, rfl⟩, he⟩
    obtain ⟨h1, h2⟩ := misinfoTerms_word_ends t ht
    have hne : t ≠ [] := by
      rintro rfl
      simp [isWordAt] at h1
    have hhead : (t ++ post).head? = t.head? := by
      cases t with
      | nil => exact absurd rfl hne
      | cons a as => rfl
    rw [hhead] at hb
    simp only [atWordBoundary, h1, h2, List.drop_left] at hb he
    refine ⟨by simpa using hb, t, ht, post, rfl, by simpa using he⟩
  · rintro ⟨hb, t, ht, post, rfl, he⟩
    obtain ⟨h1, h2⟩ := misinfoTerms_word_ends t ht
    have hne : t ≠ [] := by
      rintro rfl
      simp [isWordAt] at h1
    have hhead : (t ++ post).head? = t.head? := by
      cases t with
      | nil => exact absurd rfl hne
      | cons a as => rfl
    refine ⟨?_, t, ht, ⟨post, rfl⟩, ?_⟩
    · rw [hhead]
      simp [atWordBoundary, h1, hb]
    · simp [atWordBoundary, h2, he]

theorem prevChar_cons (before : Option Char) (c : Char) (pre : List Char) :
    prevChar before (c :: pre) = prevChar (some c) pre := by
  cases pre with
  | nil => simp [prevChar]
  | cons d ds =>
    simp only [prevChar, List.getLast?_cons_cons]
    cases h : (d :: ds).getLast? with
    | none => simp at h
    | some x => rfl

theorem regexSearchFrom_iff (before : Option Char) (l : List Char) :
    regexSearchFrom before l = true ↔
      ∃ t ∈ misinfoTerms, ∃ pre post, l = pre ++ t ++ post ∧
        isWordAt (prevChar before pre) = false ∧ isWordAt post.head? = false := by
  induction l generalizing before with
  | nil =>
    simp only [regexSearchFrom, matchAt_iff]
    constructor
    · rintro ⟨hb, t, ht, post, he, hp⟩
      exact ⟨t, ht, [], post, by simpa using he, by simpa [prevChar] using hb, hp⟩
    · rintro ⟨t, ht, pre, post, he, hb, hp⟩
      have hpre : pre = [] := by
        cases pre with
        | nil => rfl
        | cons a as => simp at he
      subst hpre
      exact ⟨by simpa [prevChar] using hb, t, ht, post, by simpa using he, hp⟩
  | cons c cs ih =>
    simp only [regexSearchFrom, Bool.or_eq_true, matchAt_iff, ih]
    constructor
    · rintro (⟨hb, t, ht, post, he, hp⟩ | ⟨t, ht, pre, post, he, hb, hp⟩)
      · exact ⟨t, ht, [], post, by simpa using he, by simpa [prevChar] using hb, hp⟩
      · refine ⟨t, ht, c :: pre, post, by simp [he], ?_, hp⟩
        rw [prevChar_cons]
        exact hb
    · rintro ⟨t, ht, pre, post, he, hb, hp⟩
      cases pre with
      | nil =>
        left
        exact ⟨by simpa [prevChar] using hb, t, ht, post, by simpa using he, hp⟩
      | cons a as =>
        right
        simp only [List.cons_append, List.cons.injEq] at he
        obtain ⟨rfl, he2⟩ := he
        refine ⟨t, ht, as, post, by simpa using he2, ?_, hp⟩
        rw [← prevChar_cons before]
        exact hb

theorem isWordAt_eq_false_iff (o : Option Char) :
    isWordAt o = false ↔ ∀ c, o = some c → isWordChar c = false := by
  cases o with
  | none => simp [isWordAt]
  | some x => simp [isWordAt]

theorem regexSearchFrom_none_iff (l : List Char) :
    regexSearchFrom none l = true ↔
      ContainsWholeWord l "fake".toList ∨
      ContainsWholeWord l "hoax".toList ∨
      ContainsWholeWord l "conspiracy".toList := by
  rw [regexSearchFrom_iff]
  have key : ∀ t : List Char,
      (∃ pre post, l = pre ++ t ++ post ∧
        isWordAt (prevChar none pre) = false ∧ isWordAt post.head? = false) ↔
      ContainsWholeWord l t := by
    intro t
    unfold ContainsWholeWord
    have hp : ∀ pre : List Char, prevChar none pre = pre.getLast? := by
      intro pre
      unfold prevChar
      cases pre.getLast? <;> rfl
    simp only [hp, isWordAt_eq_false_iff]
  constructor
  · rintro ⟨t, ht, h⟩
    rw [misinfoTerms_mem] at ht
    rcases ht with rfl | rfl | rfl
    · exact Or.inl ((key _).mp h)
    · exact Or.inr (Or.inl ((key _).mp h))
    · exact Or.inr (Or.inr ((key _).mp h))
  · rintro (h | h | h)
    · exact ⟨_, (misinfoTerms_mem _).mpr (Or.inl rfl), (key _).mpr h⟩
    · exact ⟨_, (misinfoTerms_mem _).mpr (Or.inr (Or.inl rfl)), (key _).mpr h⟩
    · exact ⟨_, (misinfoTerms_mem _).mpr (Or.inr (Or.inr rfl)), (key _).mpr h⟩

/-- The classifier answers true exactly when one of the three terms occurs as a whole
word in its lower-case spelling, or the spread exceeds the threshold. -/
theorem isMisinformation_iff (message : Message) (s : ℚ) :
    isMisinformation message s = true ↔
      (ContainsWholeWord message.getContent.toList "fake".toList ∨
       ContainsWholeWord message.getContent.toList "hoax".toList ∨
       ContainsWholeWord message.getContent.toList "conspiracy".toList) ∨
      s > misinfoThreshold := by
  unfold isMisinformation regexSearch
  rw [Bool.or_eq_true, regexSearchFrom_none_iff, decide_eq_true_eq]

theorem isUpper_iff (c : Char) : c.isUpper = true ↔ 65 ≤ c.toNat ∧ c.toNat ≤ 90 := by
  unfold Char.isUpper Char.toNat
  simp only [Bool.and_eq_true, decide_eq_true_eq, ge_iff_le]
  rw [UInt32.le_def, UInt32.le_def]
  rfl

theorem isWordChar_toLower (c : Char) : isWordChar c.toLower = isWordChar c := by
  unfold Char.toLower
  simp only []
  split
  · rename_i h
    have hu : c.isUpper = true := (isUpper_iff c).mpr h
    have h1 : isWordChar c = true := by
      simp [isWordChar, Char.isAlphanum, Char.isAlpha, hu]
    rw [h1]
    obtain ⟨ha, hb⟩ := h
    generalize c.toNat = n at ha hb
    interval_cases n <;> decide
  · rfl

/-- A whole-word occurrence is in particular a whole-word occurrence in any letter case,
for a word that is already in lower case. -/
theorem anyCase_of_wholeWord (content w : List Char) (hw : w.map Char.toLower = w)
    (h : ContainsWholeWord content w) : ContainsWholeWordAnyCase content w := by
  obtain ⟨pre, post, he, hp, hq⟩ := h
  exact ⟨pre, w, post, he, hw, hp, hq⟩

/-- An occurrence in any letter case becomes an exact occurrence once the content is
converted to lower case. -/
theorem wholeWord_lower_of_anyCase (content w : List Char)
    (h : ContainsWholeWordAnyCase content w) :
    ContainsWholeWord (content.map Char.toLower) w := by
  obtain ⟨pre, mid, post, he, hm, hp, hq⟩ := h
  refine ⟨pre.map Char.toLower, post.map Char.toLower, ?_, ?_, ?_⟩
  · rw [he, List.map_append, List.map_append, hm]
  · intro c hc
    rw [List.getLast?_map] at hc
    cases hl : pre.getLast? with
    | none => simp [hl] at hc
    | some x =>
      simp only [hl, Option.map_some', Option.some.injEq] at hc
      rw [← hc, isWordChar_toLower]
      exact hp x hl
  · intro c hc
    rw [List.head?_map] at hc
    cases hl : post.head? with
    | none => simp [hl] at hc
    | some x =>
      simp only [hl, Option.map_some', Option.some.injEq] at hc
      rw [← hc, isWordChar_toLower]
      exact hq x hl

/-- Decision procedure for the absence of the terms in any letter case: scan the
lower-cased content. -/
theorem no_anyCase_of_scan (content : List Char)
    (h : regexSearchFrom none (content.map Char.toLower) = false) :
    ¬ ContainsWholeWordAnyCase content "fake".toList ∧
    ¬ ContainsWholeWordAnyCase content "hoax".toList ∧
    ¬ ContainsWholeWordAnyCase content "conspiracy".toList := by
  have hn : ¬ (regexSearchFrom none (content.map Char.toLower) = true) := by
    rw [h]; simp
  rw [regexSearchFrom_none_iff] at hn
  refine ⟨?_, ?_, ?_⟩
  · intro hc
    exact hn (Or.inl (wholeWord_lower_of_anyCase _ _ hc))
  · intro hc
    exact hn (Or.inr (Or.inl (wholeWord_lower_of_anyCase _ _ hc)))
  · intro hc
    exact hn (Or.inr (Or.inr (wholeWord_lower_of_anyCase _ _ hc)))

theorem incrementShareCount_shareCount (m : Message) :
    m.incrementShareCount.shareCount = m.shareCount + 1 := by
  unfold Message.incrementShareCount Message.updateState
  simp only []
  split
  · rfl
  · split <;> rfl

theorem incrementShareCount_state (m : Message) :
    m.incrementShareCount.state =
      if m.shareCount + 1 > 100 then Message.State.VIRAL
      else if m.shareCount + 1 > 10 then Message.State.SHARED
      else m.state := by
  unfold Message.incrementShareCount Message.updateState
  simp only []
  split
  · rfl
  · split <;> rfl

theorem iterate_increment_shareCount (m : Message) (k : Nat) :
    (Message.incrementShareCount^[k] m).shareCount = m.shareCount + k := by
  induction k with
  | zero => rfl
  | succ n ih =>
    rw [Function.iterate_succ_apply', incrementShareCount_shareCount, ih]
    omega

theorem iterate_increment_state (m : Message) (k : Nat) :
    (Message.incrementShareCount^[k + 1] m).state =
      if m.shareCount + (k + 1) > 100 then Message.State.VIRAL
      else if m.shareCount + (k + 1) > 10 then Message.State.SHARED
      else m.state := by
  induction k with
  | zero =>
    simp only [Function.iterate_succ, Function.iterate_zero, Function.comp_apply, id_eq]
    rw [incrementShareCount_state]
  | succ n ih =>
    rw [Function.iterate_succ_apply', incrementShareCount_state,
      iterate_increment_shareCount, ih]
    by_cases h1 : m.shareCount + (n + 1) + 1 > 100
    · have h1b : m.shareCount + (n + 1 + 1) > 100 := by omega
      simp only [h1, h1b, if_true]
    · have h1b : ¬ m.shareCount + (n + 1 + 1) > 100 := by omega
      by_cases h2 : m.shareCount + (n + 1) + 1 > 10
      · have h2b : m.shareCount + (n + 1 + 1) > 10 := by omega
        simp only [h1, h1b, h2, h2b, if_true, if_false]
      · have h2b : ¬ m.shareCount + (n + 1 + 1) > 10 := by omega
        have h3 : ¬ m.shareCount + (n + 1) > 100 := by omega
        have h4 : ¬ m.shareCount + (n + 1) > 10 := by omega
        simp only [h1, h1b, h2, h2b, h3, h4, if_false]

end Mess2

/-- C2 (refuted as stated). The content "This is FAKE news" contains the term fake as a
whole word when letter case is ignored, yet `isMisinformation` answers false for it at
a spread of 0.05: the pattern is matched case-sensitively. -/
theorem isMisinformation_upper_case_keyword_missed :
    Mess2.ContainsWholeWordAnyCase "This is FAKE news".toList "fake".toList ∧
    Mess2.isMisinformation (Mess2.Message.new 0 "This is FAKE news" 0) (1 / 20) = false := by
  constructor
  · refine ⟨"This is ".toList, "FAKE".toList, " news".toList, by decide, by decide, ?_, ?_⟩
    · intro c hc
      have : c = ' ' := by
        have h2 : "This is ".toList.getLast? = some ' ' := by decide
        rw [h2] at hc
        exact (Option.some.inj hc).symm
      subst this
      decide
    · intro c hc
      have : c = ' ' := by
        have h2 : " news".toList.head? = some ' ' := by decide
        rw [h2] at hc
        exact (Option.some.inj hc).symm
      subst this
      decide
  · have h1 : Mess2.regexSearch (Mess2.Message.new 0 "This is FAKE news" 0).getContent = false := by
      decide
    unfold Mess2.isMisinformation
    rw [h1]
    simp only [Bool.false_or, decide_eq_false_iff_not, Mess2.misinfoThreshold]
    norm_num

/-- C2 (amended). The classifier matches the keywords case-sensitively: whenever the content
contains fake, hoax or conspiracy as a whole word in lower case, `isMisinformation`
answers true for every spread value, including values at or below the threshold. -/
theorem isMisinformation_lower_case_keyword (message : Mess2.Message) (spreadPercentage : ℚ)
    (h : Mess2.ContainsWholeWord message.getContent.toList "fake".toList ∨
         Mess2.ContainsWholeWord message.getContent.toList "hoax".toList ∨
         Mess2.ContainsWholeWord message.getContent.toList "conspiracy".toList) :
    Mess2.isMisinformation message spreadPercentage = true :=
  (Mess2.isMisinformation_iff message spreadPercentage).mpr (Or.inl h)

/-- Witness for C2 (amended): the content "this is a hoax, really" at spread 0. -/
theorem isMisinformation_lower_case_keyword_witness :
    Mess2.ContainsWholeWord
        (Mess2.Message.new 0 "this is a hoax, really" 3).getContent.toList "hoax".toList ∧
    Mess2.isMisinformation (Mess2.Message.new 0 "this is a hoax, really" 3) 0 = true := by
  have hw : Mess2.ContainsWholeWord
      (Mess2.Message.new 0 "this is a hoax, really" 3).getContent.toList "hoax".toList := by
    refine ⟨"this is a ".toList, ", really".toList, by decide, ?_, ?_⟩
    · intro c hc
      have h2 : "this is a ".toList.getLast? = some ' ' := by decide
      rw [h2] at hc
      rw [← Option.some.inj hc]
      decide
    · intro c hc
      have h2 : ", really".toList.head? = some ',' := by decide
      rw [h2] at hc
      rw [← Option.some.inj hc]
      decide
  exact ⟨hw, isMisinformation_lower_case_keyword _ 0 (Or.inr (Or.inl hw))⟩

/-- C3. Threshold half of the classifier: when the content contains none of the terms fake,
hoax, conspiracy as a whole word in any letter case, `isMisinformation` answers true exactly
when the spread is greater than the threshold constant `0.1`; it answers true at 0.11 and
false at 0.05 and at exactly 0.10 (both for the decimal values and for their binary64
roundings). The function only returns a Boolean: no message is changed. -/
theorem isMisinformation_threshold (message : Mess2.Message)
    (h : ¬ Mess2.ContainsWholeWordAnyCase message.getContent.toList "fake".toList ∧
         ¬ Mess2.ContainsWholeWordAnyCase message.getContent.toList "hoax".toList ∧
         ¬ Mess2.ContainsWholeWordAnyCase message.getContent.toList "conspiracy".toList) :
    (∀ s : ℚ, Mess2.isMisinformation message s = true ↔ s > Mess2.misinfoThreshold) ∧
    Mess2.isMisinformation message (11 / 100) = true ∧
    Mess2.isMisinformation message (7926335344172073 / 72057594037927936) = true ∧
    Mess2.isMisinformation message (1 / 20) = false ∧
    Mess2.isMisinformation message (3602879701896397 / 72057594037927936) = false ∧
    Mess2.isMisinformation message (1 / 10) = false ∧
    Mess2.isMisinformation message Mess2.misinfoThreshold = false := by
  have key : ∀ s : ℚ, Mess2.isMisinformation message s = true ↔ s > Mess2.misinfoThreshold := by
    intro s
    rw [Mess2.isMisinformation_iff]
    constructor
    · rintro ((hc | hc | hc) | hs)
      · exact absurd (Mess2.anyCase_of_wholeWord _ _ (by decide) hc) h.1
      · exact absurd (Mess2.anyCase_of_wholeWord _ _ (by decide) hc) h.2.1
      · exact absurd (Mess2.anyCase_of_wholeWord _ _ (by decide) hc) h.2.2
      · exact hs
    · exact Or.inr
  have hf : ∀ s : ℚ, ¬ s > Mess2.misinfoThreshold → Mess2.isMisinformation message s = false := by
    intro s hs
    cases hb : Mess2.isMisinformation message s with
    | false => rfl
    | true => exact absurd ((key s).mp hb) hs
  refine ⟨key, (key _).mpr ?_, (key _).mpr ?_, hf _ ?_, hf _ ?_, hf _ ?_, hf _ ?_⟩ <;>
    simp only [Mess2.misinfoThreshold] <;> norm_num

/-- Witness for C3: the content "This is neutral news". -/
theorem isMisinformation_threshold_witness :
    (¬ Mess2.ContainsWholeWordAnyCase
        (Mess2.Message.new 0 "This is neutral news" 1).getContent.toList "fake".toList ∧
     ¬ Mess2.ContainsWholeWordAnyCase
        (Mess2.Message.new 0 "This is neutral news" 1).getContent.toList "hoax".toList ∧
     ¬ Mess2.ContainsWholeWordAnyCase
        (Mess2.Message.new 0 "This is neutral news" 1).getContent.toList "conspiracy".toList) ∧
    Mess2.isMisinformation (Mess2.Message.new 0 "This is neutral news" 1) (11 / 100) = true ∧
    Mess2.isMisinformation (Mess2.Message.new 0 "This is neutral news" 1) (1 / 20) = false ∧
    Mess2.isMisinformation (Mess2.Message.new 0 "This is neutral news" 1) (1 / 10) = false := by
  have hw := Mess2.no_anyCase_of_scan
    (Mess2.Message.new 0 "This is neutral news" 1).getContent.toList (by decide)
  have ht := isMisinformation_threshold (Mess2.Message.new 0 "This is neutral news" 1) hw
  exact ⟨hw, ht.2.1, ht.2.2.2.1, ht.2.2.2.2.2.1⟩

/-- C4. Message lifecycle derived from the share count: a newly constructed message that is
never flagged has, after `k` calls of `incrementShareCount`, share count `k` and state VIRAL
if `k > 100`, SHARED if `10 < k ≤ 100`, and CREATED if `k ≤ 10`. -/
theorem message_lifecycle (id : Nat) (content : String) (sourceNode : Int) (k : Nat) :
    (Mess2.Message.incrementShareCount^[k]
        (Mess2.Message.new id content sourceNode)).getShareCount = k ∧
    (Mess2.Message.incrementShareCount^[k]
        (Mess2.Message.new id content sourceNode)).getState =
      (if k > 100 then Mess2.Message.State.VIRAL
       else if k > 10 then Mess2.Message.State.SHARED
       else Mess2.Message.State.CREATED) := by
  constructor
  · unfold Mess2.Message.getShareCount
    rw [Mess2.iterate_increment_shareCount]
    simp [Mess2.Message.new]
  · unfold Mess2.Message.getState
    cases k with
    | zero => rfl
    | succ n =>
      rw [Mess2.iterate_increment_state]
      simp [Mess2.Message.new]

/-- C5 (refuted as stated). A message shared ten times and then flagged loses the FLAGGED
state at the very next `incrementShareCount`: the state becomes SHARED. -/
theorem flagged_overwritten_by_increment :
    (Mess2.Message.incrementShareCount
      (Mess2.Message.flagAsMisinformation
        (Mess2.Message.incrementShareCount^[10] (Mess2.Message.new 0 "x" 0)))).getState
      = Mess2.Message.State.SHARED ∧
    (Mess2.Message.incrementShareCount
      (Mess2.Message.flagAsMisinformation
        (Mess2.Message.incrementShareCount^[10] (Mess2.Message.new 0 "x" 0)))).getState
      ≠ Mess2.Message.State.FLAGGED := by
  decide

/-- C5 (amended). After `flagAsMisinformation`, the state is FLAGGED and stays FLAGGED under
further `incrementShareCount` calls exactly while the share count stays at or below 10:
after `k ≥ 1` increments from share count `c` the state is VIRAL if `c + k > 100`, SHARED if
`10 < c + k ≤ 100` and FLAGGED if `c + k ≤ 10`. -/
theorem flagged_until_share_threshold (m : Mess2.Message) (k : Nat) :
    (Mess2.Message.incrementShareCount^[k] m.flagAsMisinformation).getState =
      (if k = 0 then Mess2.Message.State.FLAGGED
       else if m.getShareCount + k > 100 then Mess2.Message.State.VIRAL
       else if m.getShareCount + k > 10 then Mess2.Message.State.SHARED
       else Mess2.Message.State.FLAGGED) ∧
    ((Mess2.Message.incrementShareCount^[k] m.flagAsMisinformation).getState =
        Mess2.Message.State.FLAGGED ↔ (k = 0 ∨ m.getShareCount + k ≤ 10)) := by
  have hform : (Mess2.Message.incrementShareCount^[k] m.flagAsMisinformation).getState =
      (if k = 0 then Mess2.Message.State.FLAGGED
       else if m.getShareCount + k > 100 then Mess2.Message.State.VIRAL
       else if m.getShareCount + k > 10 then Mess2.Message.State.SHARED
       else Mess2.Message.State.FLAGGED) := by
    unfold Mess2.Message.getState Mess2.Message.getShareCount
    cases k with
    | zero => rfl
    | succ n =>
      rw [Mess2.iterate_increment_state]
      simp [Mess2.Message.flagAsMisinformation]
  refine ⟨hform, ?_⟩
  rw [hform]
  by_cases h0 : k = 0
  · simp [h0]
  · by_cases h1 : m.getShareCount + k > 100
    · simp only [h0, h1, if_true, if_false, false_or]
      constructor
      · intro h; cases h
      · intro h; omega
    · by_cases h2 : m.getShareCount + k > 10
      · simp only [h0, h1, h2, if_true, if_false, false_or]
        constructor
        · intro h; cases h
        · intro h; omega
      · simp only [h0, h1, h2, if_false, false_or, true_iff]
        omega

namespace Mess2

theorem UMap.get_update {V : Type} (m : UMap V) (k x : Int) (d : V) (f : V → V) :
    UMap.get (UMap.update m k d f) x d =
      if x = k then f (UMap.get m k d) else UMap.get m x d := by
  induction m with
  | nil =>
    by_cases h : x = k
    · simp [UMap.update, UMap.get, h]
    · have h2 : ¬ k = x := fun e => h e.symm
      simp [UMap.update, UMap.get, h, h2]
  | cons a as ih =>
    obtain ⟨ka, va⟩ := a
    by_cases hk : ka = k
    · subst hk
      by_cases h : x = ka
      · subst h
        simp [UMap.update, UMap.get]
      · have h2 : ¬ ka = x := fun e => h e.symm
        simp [UMap.update, UMap.get, h, h2]
    · by_cases h : x = k
      · subst h
        simp [UMap.update, UMap.get, hk, ih]
      · by_cases h3 : ka = x
        · simp [UMap.update, UMap.get, hk, h, h3]
        · simp [UMap.update, UMap.get, hk, h, h3, ih]

theorem Graph.neighborsOf_getNeighbors (g : Graph) (node x : Int) :
    (g.getNeighbors node).2.neighborsOf x = g.neighborsOf x := by
  unfold Graph.getNeighbors Graph.neighborsOf
  simp only [UMap.get_update]
  split
  · rename_i h
    simp [h]
  · rfl

theorem Graph.getNeighbors_fst (g : Graph) (node : Int) :
    (g.getNeighbors node).1 = g.neighborsOf node := rfl

theorem Graph.mem_allNeighbors (g : Graph) (node x : Int) (h : x ∈ g.neighborsOf node) :
    x ∈ g.allNeighbors := by
  unfold Graph.neighborsOf at h
  unfold Graph.allNeighbors
  generalize g.adjacencyList = m at h
  induction m with
  | nil => simp [UMap.get] at h
  | cons a as ih =>
    obtain ⟨ka, va⟩ := a
    simp only [List.map_cons, List.flatten_cons, List.mem_append]
    by_cases hk : ka = node
    · left
      simpa [UMap.get, hk] using h
    · right
      apply ih
      simpa [UMap.get, hk] using h

theorem mem_setInsert (s : List Int) (x y : Int) :
    y ∈ setInsert s x ↔ y ∈ s ∨ y = x := by
  unfold setInsert
  split
  · rename_i h
    constructor
    · exact Or.inl
    · rintro (h1 | h1)
      · exact h1
      · rw [h1]; exact h
  · simp

theorem nodup_setInsert (s : List Int) (x : Int) (h : s.Nodup) : (setInsert s x).Nodup := by
  unfold setInsert
  split
  · exact h
  · rename_i hx
    rw [List.nodup_append]
    refine ⟨h, List.nodup_singleton x, ?_⟩
    intro a ha hb
    simp only [List.mem_singleton] at hb
    exact hx (hb ▸ ha)

theorem setInsert_of_not_mem (s : List Int) (x : Int) (h : x ∉ s) :
    setInsert s x = s ++ [x] := by
  simp [setInsert, h]

theorem Extends.refl (allowed v q : List Int) : Extends allowed v q v q :=
  ⟨[], by simp, by simp, by simp, List.nodup_nil⟩

theorem Extends.push (allowed v q : List Int) (n : Int) (hn : n ∈ allowed) (hv : n ∉ v) :
    Extends allowed v q (v ++ [n]) (q ++ [n]) :=
  ⟨[n], rfl, rfl, by simpa using ⟨hn, hv⟩, List.nodup_singleton n⟩

theorem Extends.trans {allowed v1 q1 v2 q2 v3 q3 : List Int}
    (h12 : Extends allowed v1 q1 v2 q2) (h23 : Extends allowed v2 q2 v3 q3) :
    Extends allowed v1 q1 v3 q3 := by
  obtain ⟨f1, hv1, hq1, hm1, hn1⟩ := h12
  obtain ⟨f2, hv2, hq2, hm2, hn2⟩ := h23
  subst hv1 hq1 hv2 hq2
  refine ⟨f1 ++ f2, by simp, by simp, ?_, ?_⟩
  · intro x hx
    rcases List.mem_append.mp hx with h | h
    · exact hm1 x h
    · refine ⟨(hm2 x h).1, ?_⟩
      intro hc
      exact (hm2 x h).2 (List.mem_append_left _ hc)
  · rw [List.nodup_append]
    refine ⟨hn1, hn2, ?_⟩
    intro a ha hb
    exact (hm2 a hb).2 (List.mem_append_right _ ha)

theorem Extends.sub_visited {allowed v1 q1 v2 q2 : List Int}
    (h : Extends allowed v1 q1 v2 q2) : ∀ x ∈ v1, x ∈ v2 := by
  obtain ⟨f, hv, _, _, _⟩ := h
  intro x hx
  rw [hv]
  exact List.mem_append_left _ hx

theorem Extends.sub_queue {allowed v1 q1 v2 q2 : List Int}
    (h : Extends allowed v1 q1 v2 q2) : ∀ x ∈ q1, x ∈ q2 := by
  obtain ⟨f, _, hq, _, _⟩ := h
  intro x hx
  rw [hq]
  exact List.mem_append_left _ hx

theorem Extends.new_in_queue {allowed v1 q1 v2 q2 : List Int}
    (h : Extends allowed v1 q1 v2 q2) : ∀ x ∈ v2, x ∈ v1 ∨ (x ∈ q2 ∧ x ∈ allowed) := by
  obtain ⟨f, hv, hq, hm, _⟩ := h
  intro x hx
  rw [hv] at hx
  rcases List.mem_append.mp hx with h1 | h1
  · exact Or.inl h1
  · right
    rw [hq]
    exact ⟨List.mem_append_right _ h1, (hm x h1).1⟩

theorem Extends.queue_new {allowed v1 q1 v2 q2 : List Int}
    (h : Extends allowed v1 q1 v2 q2) : ∀ x ∈ q2, x ∈ q1 ∨ (x ∈ v2 ∧ x ∉ v1) := by
  obtain ⟨f, hv, hq, hm, _⟩ := h
  intro x hx
  rw [hq] at hx
  rcases List.mem_append.mp hx with h1 | h1
  · exact Or.inl h1
  · right
    rw [hv]
    exact ⟨List.mem_append_right _ h1, (hm x h1).2⟩

theorem Extends.nodup {allowed v1 q1 v2 q2 : List Int}
    (h : Extends allowed v1 q1 v2 q2) (hn : v1.Nodup) : v2.Nodup := by
  obtain ⟨f, hv, _, hm, hf⟩ := h
  rw [hv, List.nodup_append]
  refine ⟨hn, hf, ?_⟩
  intro a ha hb
  exact (hm a hb).2 ha

theorem Extends.length_le {allowed v1 q1 v2 q2 : List Int}
    (h : Extends allowed v1 q1 v2 q2) : v1.length ≤ v2.length := by
  obtain ⟨f, hv, _, _, _⟩ := h
  rw [hv, List.length_append]
  omega

theorem Extends.measure {allowed v1 q1 v2 q2 : List Int} (univ : List Int)
    (h : Extends allowed v1 q1 v2 q2) (hU : ∀ x ∈ allowed, x ∈ univ) :
    bfsMeasure univ v2 q2 ≤ bfsMeasure univ v1 q1 := by
  obtain ⟨f, hv, hq, hm, hf⟩ := h
  subst hv hq
  unfold bfsMeasure
  have hsub : f.toFinset ⊆ univ.toFinset \ v1.toFinset := by
    intro x hx
    rw [List.mem_toFinset] at hx
    rw [Finset.mem_sdiff, List.mem_toFinset, List.mem_toFinset]
    exact ⟨hU x (hm x hx).1, (hm x hx).2⟩
  have hset : univ.toFinset \ (v1 ++ f).toFinset =
      (univ.toFinset \ v1.toFinset) \ f.toFinset := by
    rw [List.toFinset_append, Finset.sdiff_union_distrib]
    ext x
    simp only [Finset.mem_inter, Finset.mem_sdiff]
    tauto
  rw [hset, Finset.card_sdiff hsub, List.toFinset_card_of_nodup hf, List.length_append]
  have hle := Finset.card_le_card hsub
  rw [List.toFinset_card_of_nodup hf] at hle
  omega

theorem bfsMeasure_start (univ : List Int) (start : Int) :
    bfsMeasure univ [start] [start] ≤ 2 * univ.length + 1 := by
  unfold bfsMeasure
  have h1 : (univ.toFinset \ [start].toFinset).card ≤ univ.toFinset.card :=
    Finset.card_le_card Finset.sdiff_subset
  have h2 := List.toFinset_card_le univ
  simp only [List.length_singleton]
  omega

theorem visitNeighbor_self (t c : Int) (st : InfoState) (n : Int) :
    (visitNeighbor t c st n).self = st.self := by
  by_cases h : n ∈ st.visited <;> simp [visitNeighbor, h]

theorem visitNeighbor_extends (t c : Int) (st : InfoState) (n : Int) (allowed : List Int)
    (hn : n ∈ allowed) :
    Extends allowed st.visited st.queue (visitNeighbor t c st n).visited
      (visitNeighbor t c st n).queue := by
  by_cases h : n ∈ st.visited
  · simp only [visitNeighbor, h, if_true]
    exact Extends.refl _ _ _
  · simp only [visitNeighbor, h, if_false, setInsert_of_not_mem _ _ h]
    exact Extends.push _ _ _ _ hn h

theorem visitNeighbor_mem_visited (t c : Int) (st : InfoState) (n : Int) :
    n ∈ (visitNeighbor t c st n).visited := by
  by_cases h : n ∈ st.visited
  · simp [visitNeighbor, h]
  · simp [visitNeighbor, h, mem_setInsert]

theorem visitNeighbor_all (t c : Int) (st : InfoState) (n : Int) :
    (visitNeighbor t c st n).info.allConnectedNodes =
      setInsert st.info.allConnectedNodes n := by
  by_cases h : n ∈ st.visited <;> by_cases h2 : c = t <;> simp [visitNeighbor, h, h2]

theorem visitNeighbor_conn (t c : Int) (st : InfoState) (n : Int) :
    (visitNeighbor t c st n).info.connectedCommunities =
      setInsert st.info.connectedCommunities (readCommunity st.self.communities n) := by
  by_cases h : n ∈ st.visited <;> by_cases h2 : c = t <;> simp [visitNeighbor, h, h2]

theorem visitNeighbor_directly (t c : Int) (st : InfoState) (n : Int) :
    (visitNeighbor t c st n).info.directlyConnectedNodes =
      if c = t then st.info.directlyConnectedNodes ++ [n]
      else st.info.directlyConnectedNodes := by
  by_cases h : n ∈ st.visited <;> by_cases h2 : c = t <;> simp [visitNeighbor, h, h2]

theorem visitNeighbor_community (t c : Int) (st : InfoState) (n : Int) :
    (visitNeighbor t c st n).info.community = st.info.community := by
  by_cases h : n ∈ st.visited <;> by_cases h2 : c = t <;> simp [visitNeighbor, h, h2]

/-- Effect of the whole `for` loop of `getNodeInfo` over the neighbour sequence `ns`. -/
theorem foldl_visitNeighbor (t c : Int) (allowed : List Int) (ns : List Int) :
    ∀ st : InfoState, (∀ n ∈ ns, n ∈ allowed) →
      (ns.foldl (visitNeighbor t c) st).self = st.self ∧
      Extends allowed st.visited st.queue (ns.foldl (visitNeighbor t c) st).visited
        (ns.foldl (visitNeighbor t c) st).queue ∧
      (∀ n ∈ ns, n ∈ (ns.foldl (visitNeighbor t c) st).visited) ∧
      (∀ x, x ∈ (ns.foldl (visitNeighbor t c) st).info.allConnectedNodes ↔
        x ∈ st.info.allConnectedNodes ∨ x ∈ ns) ∧
      (∀ x, x ∈ (ns.foldl (visitNeighbor t c) st).info.connectedCommunities ↔
        x ∈ st.info.connectedCommunities ∨
          ∃ w ∈ ns, x = readCommunity st.self.communities w) ∧
      (ns.foldl (visitNeighbor t c) st).info.directlyConnectedNodes =
        (if c = t then st.info.directlyConnectedNodes ++ ns
         else st.info.directlyConnectedNodes) ∧
      (ns.foldl (visitNeighbor t c) st).info.community = st.info.community ∧
      (st.info.allConnectedNodes.Nodup →
        (ns.foldl (visitNeighbor t c) st).info.allConnectedNodes.Nodup) ∧
      (st.info.connectedCommunities.Nodup →
        (ns.foldl (visitNeighbor t c) st).info.connectedCommunities.Nodup) := by
  induction ns with
  | nil =>
    intro st _
    refine ⟨rfl, Extends.refl _ _ _, by simp, by simp, by simp, ?_, rfl, id, id⟩
    simp
  | cons n ns ih =>
    intro st hall
    have hn : n ∈ allowed := hall n (List.mem_cons_self _ _)
    have hns : ∀ x ∈ ns, x ∈ allowed := fun x hx => hall x (List.mem_cons_of_mem _ hx)
    obtain ⟨h1, h2, h3, h4, h5, h6, h7, h8, h9⟩ := ih (visitNeighbor t c st n) hns
    simp only [List.foldl_cons]
    have e1 := visitNeighbor_extends t c st n allowed hn
    refine ⟨?_, ?_, ?_, ?_, ?_, ?_, ?_, ?_, ?_⟩
    · rw [h1, visitNeighbor_self]
    · exact Extends.trans e1 h2
    · intro x hx
      rcases List.mem_cons.mp hx with rfl | hx
      · exact h2.sub_visited _ (visitNeighbor_mem_visited t c st x)
      · exact h3 x hx
    · intro x
      rw [h4, visitNeighbor_all, mem_setInsert, List.mem_cons]
      tauto
    · intro x
      rw [h5, visitNeighbor_conn, mem_setInsert, visitNeighbor_self]
      constructor
      · rintro ((h | h) | ⟨w, hw, h⟩)
        · exact Or.inl h
        · exact Or.inr ⟨n, List.mem_cons_self _ _, h⟩
        · exact Or.inr ⟨w, List.mem_cons_of_mem _ hw, h⟩
      · rintro (h | ⟨w, hw, h⟩)
        · exact Or.inl (Or.inl h)
        · rcases List.mem_cons.mp hw with rfl | hw
          · exact Or.inl (Or.inr h)
          · exact Or.inr ⟨w, hw, h⟩
    · rw [h6, visitNeighbor_directly]
      split <;> simp
    · rw [h7, visitNeighbor_community]
    · intro hnd
      apply h8
      rw [visitNeighbor_all]
      exact nodup_setInsert _ _ hnd
    · intro hnd
      apply h9
      rw [visitNeighbor_conn]
      exact nodup_setInsert _ _ hnd

theorem getNodeInfoLoop_nil (t : Int) (fuel : Nat) (st : InfoState) (h : st.queue = []) :
    getNodeInfoLoop t fuel st = some st := by
  cases fuel <;> simp [getNodeInfoLoop, h]

theorem getNodeInfoLoop_cons (t : Int) (fuel : Nat) (st : InfoState) (cur : Int)
    (rest : List Int) (h : st.queue = cur :: rest) :
    getNodeInfoLoop t (fuel + 1) st = getNodeInfoLoop t fuel (infoIteration t st cur rest) := by
  rw [getNodeInfoLoop]
  simp [h]

theorem infoIteration_inv (g0 : Graph) (c0 : List Int) (t : Int) (st : InfoState)
    (cur : Int) (rest : List Int) (hinv : InfoInv g0 c0 t st) (hq : st.queue = cur :: rest) :
    InfoInv g0 c0 t (infoIteration t st cur rest) ∧
    bfsMeasure g0.allNeighbors (infoIteration t st cur rest).visited
        (infoIteration t st cur rest).queue
      < bfsMeasure g0.allNeighbors st.visited st.queue := by
  have hnb : (st.self.graph.getNeighbors cur).1 = g0.neighborsOf cur := by
    rw [Graph.getNeighbors_fst, hinv.graph_nbrs]
  have hfold := foldl_visitNeighbor t cur (g0.neighborsOf cur) (g0.neighborsOf cur)
    { st with self := { st.self with graph := (st.self.graph.getNeighbors cur).2 }, queue := rest }
    (fun n hn => hn)
  have hdef : infoIteration t st cur rest =
      (g0.neighborsOf cur).foldl (visitNeighbor t cur)
        { st with self := { st.self with graph := (st.self.graph.getNeighbors cur).2 },
                  queue := rest } := by
    unfold infoIteration
    simp only [hnb]
  rw [← hdef] at hfold
  simp only [] at hfold
  obtain ⟨hself, hext, hnbv, hall, hconn, hdir, hcom, halln, hconnn⟩ := hfold
  have hcur_q : cur ∈ st.queue := by rw [hq]; exact List.mem_cons_self _ _
  have hcur_v : cur ∈ st.visited := hinv.queue_vis cur hcur_q
  have hrest : ∀ x ∈ rest, x ∈ st.queue := fun x hx => by
    rw [hq]; exact List.mem_cons_of_mem _ hx
  have hcomm : (infoIteration t st cur rest).self.communities = c0 := by
    rw [hself]; exact hinv.comm
  -- a processed node of the new state is either `cur` or was processed before
  have hproc : ∀ u ∈ (infoIteration t st cur rest).visited,
      u ∉ (infoIteration t st cur rest).queue → u = cur ∨ (u ∈ st.visited ∧ u ∉ st.queue) := by
    intro u hu hnq
    by_cases huc : u = cur
    · exact Or.inl huc
    · right
      rcases hext.new_in_queue u hu with h | ⟨h, _⟩
      · refine ⟨h, ?_⟩
        intro hc
        rw [hq] at hc
        rcases List.mem_cons.mp hc with h1 | h1
        · exact huc h1
        · exact hnq (hext.sub_queue u h1)
      · exact absurd h hnq
  refine ⟨?_, ?_⟩
  · refine
      { graph_nbrs := ?_, comm := hcomm, target_vis := hext.sub_visited _ hinv.target_vis,
        vis_reach := ?_, queue_vis := ?_, closed := ?_, all_sound := ?_, all_complete := ?_,
        conn_sound := ?_, conn_complete := ?_, direct := ?_, community := ?_,
        all_nodup := halln hinv.all_nodup, conn_nodup := hconnn hinv.conn_nodup }
    · intro n
      rw [hself]
      simp only []
      rw [Graph.neighborsOf_getNeighbors, hinv.graph_nbrs]
    · intro v hv
      rcases hext.new_in_queue v hv with h | ⟨_, h⟩
      · exact hinv.vis_reach v h
      · exact Relation.ReflTransGen.tail (hinv.vis_reach cur hcur_v) h
    · intro v hv
      rcases hext.queue_new v hv with h | ⟨h, _⟩
      · exact hext.sub_visited v (hinv.queue_vis v (hrest v h))
      · exact h
    · intro u hu hnq w hw
      rcases hproc u hu hnq with rfl | ⟨h1, h2⟩
      · exact hnbv w hw
      · exact hext.sub_visited w (hinv.closed u h1 h2 w hw)
    · intro w hw
      rcases (hall w).mp hw with h | h
      · obtain ⟨u, hu, huw⟩ := hinv.all_sound w h
        exact ⟨u, hext.sub_visited u hu, huw⟩
      · exact ⟨cur, hext.sub_visited cur hcur_v, h⟩
    · intro u hu hnq w hw
      rcases hproc u hu hnq with rfl | ⟨h1, h2⟩
      · exact (hall w).mpr (Or.inr hw)
      · exact (hall w).mpr (Or.inl (hinv.all_complete u h1 h2 w hw))
    · intro c hc
      rcases (hconn c).mp hc with h | ⟨w, hw, h⟩
      · obtain ⟨u, hu, w, hw, hcw⟩ := hinv.conn_sound c h
        exact ⟨u, hext.sub_visited u hu, w, hw, hcw⟩
      · refine ⟨cur, hext.sub_visited cur hcur_v, w, hw, ?_⟩
        rw [h]
        exact congrArg (fun c => readCommunity c w) hinv.comm
    · intro u hu hnq w hw
      rcases hproc u hu hnq with rfl | ⟨h1, h2⟩
      · refine (hconn _).mpr (Or.inr ⟨w, hw, ?_⟩)
        exact (congrArg (fun c => readCommunity c w) hinv.comm).symm
      · exact (hconn _).mpr (Or.inl (hinv.conn_complete u h1 h2 w hw))
    · right
      rcases hinv.direct with ⟨hA, hd⟩ | ⟨hB, hd⟩
      · rw [hA] at hq
        have hct : cur = t := by
          have := (List.cons.inj hq).1
          exact this.symm
        have hr : rest = [] := ((List.cons.inj hq).2).symm
        refine ⟨?_, ?_⟩
        · intro hc
          rcases hext.queue_new t hc with h | ⟨_, h⟩
          · rw [hr] at h
            simp at h
          · exact h hinv.target_vis
        · rw [hdir]
          simp only [hct, if_true, hd, List.nil_append]
      · have hct : cur ≠ t := by
          intro he
          apply hB
          rw [← he]
          exact hcur_q
        refine ⟨?_, ?_⟩
        · intro hc
          rcases hext.queue_new t hc with h | ⟨_, h⟩
          · exact hB (hrest t h)
          · exact h hinv.target_vis
        · rw [hdir]
          simp only [hct, if_false]
          exact hd
    · rw [hcom]
      exact hinv.community
  · have hm := hext.measure g0.allNeighbors
      (fun x hx => Graph.mem_allNeighbors g0 cur x hx)
    simp only [] at hm
    have : bfsMeasure g0.allNeighbors st.visited st.queue =
        bfsMeasure g0.allNeighbors st.visited rest + 1 := by
      unfold bfsMeasure
      rw [hq]
      simp only [List.length_cons]
      omega
    omega

theorem getNodeInfoLoop_terminates (g0 : Graph) (c0 : List Int) (t : Int) :
    ∀ (fuel : Nat) (st : InfoState), InfoInv g0 c0 t st →
      bfsMeasure g0.allNeighbors st.visited st.queue ≤ fuel →
      ∃ st2, getNodeInfoLoop t fuel st = some st2 ∧ InfoInv g0 c0 t st2 ∧ st2.queue = [] := by
  intro fuel
  induction fuel with
  | zero =>
    intro st hinv hm
    cases hq : st.queue with
    | nil => exact ⟨st, getNodeInfoLoop_nil t 0 st hq, hinv, hq⟩
    | cons cur rest =>
      exfalso
      unfold bfsMeasure at hm
      rw [hq] at hm
      simp at hm
  | succ fuel ih =>
    intro st hinv hm
    cases hq : st.queue with
    | nil => exact ⟨st, getNodeInfoLoop_nil t _ st hq, hinv, hq⟩
    | cons cur rest =>
      obtain ⟨hinv2, hlt⟩ := infoIteration_inv g0 c0 t st cur rest hinv hq
      obtain ⟨st2, h1, h2, h3⟩ := ih (infoIteration t st cur rest) hinv2 (by omega)
      exact ⟨st2, by rw [getNodeInfoLoop_cons t fuel st cur rest hq]; exact h1, h2, h3⟩

theorem getNodeInfoLoop_mono (t : Int) :
    ∀ (fuel : Nat) (st st2 : InfoState), getNodeInfoLoop t fuel st = some st2 →
      ∀ fuel2, fuel ≤ fuel2 → getNodeInfoLoop t fuel2 st = some st2 := by
  intro fuel
  induction fuel with
  | zero =>
    intro st st2 h fuel2 _
    cases hq : st.queue with
    | nil =>
      rw [getNodeInfoLoop_nil t 0 st hq] at h
      rw [getNodeInfoLoop_nil t fuel2 st hq]
      exact h
    | cons cur rest =>
      rw [getNodeInfoLoop] at h
      simp [hq] at h
  | succ fuel ih =>
    intro st st2 h fuel2 hle
    cases hq : st.queue with
    | nil =>
      rw [getNodeInfoLoop_nil t _ st hq] at h
      rw [getNodeInfoLoop_nil t fuel2 st hq]
      exact h
    | cons cur rest =>
      rw [getNodeInfoLoop_cons t fuel st cur rest hq] at h
      obtain ⟨k, rfl⟩ : ∃ k, fuel2 = k + 1 := ⟨fuel2 - 1, by omega⟩
      rw [getNodeInfoLoop_cons t k st cur rest hq]
      exact ih _ _ h k (by omega)

theorem infoInv_init (self : LouvainCommunityDetection) (t : Int) :
    InfoInv self.graph self.communities t
      { self := self,
        info :=
          { community := readCommunity self.communities t, connectedCommunities := [],
            directlyConnectedNodes := [], allConnectedNodes := [] },
        visited := setInsert [] t, queue := [t] } := by
  have hv : setInsert [] t = [t] := by simp [setInsert]
  refine
    { graph_nbrs := fun _ => rfl, comm := rfl, target_vis := ?_, vis_reach := ?_,
      queue_vis := ?_, closed := ?_, all_sound := ?_, all_complete := ?_, conn_sound := ?_,
      conn_complete := ?_, direct := Or.inl ⟨rfl, rfl⟩, community := rfl,
      all_nodup := List.nodup_nil, conn_nodup := List.nodup_nil }
  · simp [hv]
  · intro v h
    simp only [hv, List.mem_singleton] at h
    rw [h]
    exact Relation.ReflTransGen.refl
  · intro v h
    simpa [hv] using h
  · intro u hu hnq
    simp only [hv] at hu
    exact absurd hu hnq
  · intro w h
    simp at h
  · intro u hu hnq
    simp only [hv] at hu
    exact absurd hu hnq
  · intro c h
    simp at h
  · intro u hu hnq
    simp only [hv] at hu
    exact absurd hu hnq

/-- Result of `getNodeInfo` on an arbitrary object state: the call returns for every fuel
from `2 * |adjacency entries| + 1` on, and the four fields of the result are characterised
through reachability along the stored adjacency sequences. -/
theorem getNodeInfo_result (self : LouvainCommunityDetection) (t : Int) :
    ∃ (info : NodeInfo) (self2 : LouvainCommunityDetection),
      (∀ fuel, 2 * self.graph.allNeighbors.length + 1 ≤ fuel →
        getNodeInfo self t fuel = some (info, self2)) ∧
      info.community = readCommunity self.communities t ∧
      info.directlyConnectedNodes = self.graph.neighborsOf t ∧
      (∀ w, w ∈ info.allConnectedNodes ↔
        ∃ u, self.graph.Reach t u ∧ w ∈ self.graph.neighborsOf u) ∧
      (∀ c, c ∈ info.connectedCommunities ↔
        ∃ u, self.graph.Reach t u ∧
          ∃ w ∈ self.graph.neighborsOf u, c = readCommunity self.communities w) ∧
      info.allConnectedNodes.Nodup ∧ info.connectedCommunities.Nodup := by
  have hinit := infoInv_init self t
  have hm : bfsMeasure self.graph.allNeighbors (setInsert [] t) [t] ≤
      2 * self.graph.allNeighbors.length + 1 := by
    have hv : setInsert [] t = [t] := by simp [setInsert]
    rw [hv]
    exact bfsMeasure_start _ _
  obtain ⟨st2, hrun, hinv, hq⟩ :=
    getNodeInfoLoop_terminates self.graph self.communities t _ _ hinit hm
  have hclosed : ∀ u, self.graph.Reach t u → u ∈ st2.visited := by
    intro u hu
    induction hu with
    | refl => exact hinv.target_vis
    | tail _ hstep ih =>
      exact hinv.closed _ ih (by rw [hq]; simp) _ hstep
  refine ⟨st2.info, st2.self, ?_, hinv.community, ?_, ?_, ?_, hinv.all_nodup, hinv.conn_nodup⟩
  · intro fuel hf
    unfold getNodeInfo
    simp only []
    rw [getNodeInfoLoop_mono t _ _ _ hrun fuel hf]
    rfl
  · rcases hinv.direct with ⟨h, _⟩ | ⟨_, h⟩
    · rw [hq] at h
      simp at h
    · exact h
  · intro w
    constructor
    · intro hw
      obtain ⟨u, hu, huw⟩ := hinv.all_sound w hw
      exact ⟨u, hinv.vis_reach u hu, huw⟩
    · rintro ⟨u, hu, huw⟩
      exact hinv.all_complete u (hclosed u hu) (by rw [hq]; simp) w huw
  · intro c
    constructor
    · intro hc
      obtain ⟨u, hu, w, hw, hcw⟩ := hinv.conn_sound c hc
      exact ⟨u, hinv.vis_reach u hu, w, hw, hcw⟩
    · rintro ⟨u, hu, w, hw, rfl⟩
      exact hinv.conn_complete u (hclosed u hu) (by rw [hq]; simp) w hw

theorem Graph.mem_neighborsOf_addEdge (g : Graph) (u v a b : Int) :
    b ∈ (g.addEdge u v).neighborsOf a ↔
      b ∈ g.neighborsOf a ∨ (a = u ∧ b = v) ∨ (a = v ∧ b = u) := by
  unfold Graph.neighborsOf Graph.addEdge
  simp only [UMap.get_update]
  by_cases h1 : a = v
  · subst h1
    by_cases h3 : a = u
    · subst h3
      simp
    · simp [h3]
  · by_cases h2 : a = u
    · subst h2
      simp [h1]
    · simp [h1, h2]

theorem Graph.mem_neighborsOf_foldl (es : List (Int × Int)) :
    ∀ (g : Graph) (a b : Int),
      b ∈ (es.foldl (fun g e => g.addEdge e.1 e.2) g).neighborsOf a ↔
        b ∈ g.neighborsOf a ∨ Adjacent es a b := by
  induction es with
  | nil =>
    intro g a b
    simp [Adjacent]
  | cons e es ih =>
    intro g a b
    simp only [List.foldl_cons]
    rw [ih, Graph.mem_neighborsOf_addEdge]
    obtain ⟨e1, e2⟩ := e
    simp only [Adjacent, List.mem_cons, Prod.mk.injEq]
    tauto

theorem Graph.mem_neighborsOf_build (edges : List (Int × Int)) (a b : Int) :
    b ∈ (Graph.build edges).neighborsOf a ↔ Adjacent edges a b := by
  unfold Graph.build
  rw [Graph.mem_neighborsOf_foldl]
  simp [Graph.neighborsOf, Graph.empty, UMap.get]

theorem Graph.reach_build (edges : List (Int × Int)) (a b : Int) :
    (Graph.build edges).Reach a b ↔ Reachable edges a b := by
  unfold Graph.Reach Reachable
  have : (fun x y => y ∈ (Graph.build edges).neighborsOf x) = Adjacent edges := by
    funext x y
    exact propext (Graph.mem_neighborsOf_build edges x y)
  rw [this]

theorem Adjacent.symm {edges : List (Int × Int)} {a b : Int} (h : Adjacent edges a b) :
    Adjacent edges b a := by
  unfold Adjacent at *
  tauto

theorem IsEndpoint.exists_adjacent {edges : List (Int × Int)} {v : Int}
    (h : IsEndpoint edges v) : ∃ x, Adjacent edges v x := by
  obtain ⟨⟨e1, e2⟩, he, h1 | h1⟩ := h
  · simp only at h1
    subst h1
    exact ⟨e2, Or.inl he⟩
  · simp only at h1
    subst h1
    exact ⟨e1, Or.inr he⟩

theorem Adjacent.isEndpoint_right {edges : List (Int × Int)} {a b : Int}
    (h : Adjacent edges a b) : IsEndpoint edges b := by
  rcases h with h | h
  · exact ⟨(a, b), h, Or.inr rfl⟩
  · exact ⟨(b, a), h, Or.inl rfl⟩

theorem Reachable.isEndpoint {edges : List (Int × Int)} {a b : Int}
    (h : Reachable edges a b) (ha : IsEndpoint edges a) : IsEndpoint edges b := by
  induction h with
  | refl => exact ha
  | tail _ hstep _ => exact hstep.isEndpoint_right

/-- In the undirected graph of the inserted edges, the nodes that are neighbours of some
node reachable from an endpoint `t` are exactly the nodes reachable from `t`. -/
theorem reachable_iff_neighbor_of_reachable (edges : List (Int × Int)) (t w : Int)
    (ht : IsEndpoint edges t) :
    (∃ u, Reachable edges t u ∧ Adjacent edges u w) ↔ Reachable edges t w := by
  constructor
  · rintro ⟨u, hu, huw⟩
    exact Relation.ReflTransGen.tail hu huw
  · intro hw
    rcases Relation.ReflTransGen.cases_tail hw with h | ⟨u, hu, huw⟩
    · obtain ⟨x, hx⟩ := ht.exists_adjacent
      subst h
      exact ⟨x, Relation.ReflTransGen.single hx, hx.symm⟩
    · exact ⟨u, hu, huw⟩

end Mess2

namespace Mess2

theorem readCommunity_of_valid (comm : List Int) (v : Int) (h0 : 0 ≤ v)
    (h1 : v.toNat < comm.length) (x : Int) :
    comm[v.toNat]? = some x ↔ x = readCommunity comm v := by
  unfold readCommunity
  simp only [h0, if_true, List.getD_eq_getElem?_getD, List.getElem?_eq_getElem h1,
    Option.getD_some, Option.some.injEq]
  exact eq_comm

end Mess2

/-- C9. Community set computed by `getNodeInfo`: when every node id is a valid index of the
`communities` vector and the target has at least one edge, the call returns,
`info.community` is `communities[target]`, and `connectedCommunities` is (without
repetition) exactly the set of labels `communities[v]` of the nodes `v` reachable from
the target, the target included; in particular it contains `info.community`. -/
theorem getNodeInfo_communities (edges : List (Int × Int))
    (self : Mess2.LouvainCommunityDetection) (targetNode : Int)
    (hgraph : self.graph = Mess2.Graph.build edges)
    (hend : Mess2.IsEndpoint edges targetNode)
    (hvalid : ∀ v, Mess2.IsEndpoint edges v → 0 ≤ v ∧ v.toNat < self.communities.length) :
    ∃ (info : Mess2.NodeInfo) (self2 : Mess2.LouvainCommunityDetection),
      (∀ fuel, 2 * self.graph.allNeighbors.length + 1 ≤ fuel →
        Mess2.getNodeInfo self targetNode fuel = some (info, self2)) ∧
      self.communities[targetNode.toNat]? = some info.community ∧
      (∀ c, c ∈ info.connectedCommunities ↔
        ∃ v, Mess2.Reachable edges targetNode v ∧ self.communities[v.toNat]? = some c) ∧
      info.community ∈ info.connectedCommunities ∧
      info.connectedCommunities.Nodup := by
  obtain ⟨info, self2, hrun, hcom, _, _, hconn, _, hnd⟩ :=
    Mess2.getNodeInfo_result self targetNode
  have hlabel : ∀ v, Mess2.Reachable edges targetNode v → ∀ x,
      (self.communities[v.toNat]? = some x ↔ x = Mess2.readCommunity self.communities v) := by
    intro v hv x
    have hev := hvalid v (Mess2.Reachable.isEndpoint hv hend)
    exact Mess2.readCommunity_of_valid _ v hev.1 hev.2 x
  have htarget : self.communities[targetNode.toNat]? = some info.community :=
    (hlabel targetNode Relation.ReflTransGen.refl _).mpr hcom
  have hiff : ∀ c, c ∈ info.connectedCommunities ↔
      ∃ v, Mess2.Reachable edges targetNode v ∧ self.communities[v.toNat]? = some c := by
    intro c
    rw [hconn]
    simp only [hgraph, Mess2.Graph.reach_build, Mess2.Graph.mem_neighborsOf_build]
    constructor
    · rintro ⟨u, hu, w, hw, hc⟩
      have hrw : Mess2.Reachable edges targetNode w := Relation.ReflTransGen.tail hu hw
      exact ⟨w, hrw, (hlabel w hrw c).mpr hc⟩
    · rintro ⟨v, hv, hc⟩
      obtain ⟨u, hu, huv⟩ :=
        (Mess2.reachable_iff_neighbor_of_reachable edges targetNode v hend).mpr hv
      exact ⟨u, hu, v, huv, (hlabel v hv c).mp hc⟩
  exact ⟨info, self2, hrun, htarget,
    hiff, (hiff _).mpr ⟨targetNode, Relation.ReflTransGen.refl, htarget⟩, hnd⟩

/-- Witness for C9: node 3 of the two-triangle sample graph with singleton labels. -/
theorem getNodeInfo_communities_witness :
    (Mess2.IsEndpoint Mess2.sampleEdges 3 ∧
      ∀ v, Mess2.IsEndpoint Mess2.sampleEdges v →
        0 ≤ v ∧ v.toNat < Mess2.sampleNetwork.communities.length) ∧
    ∃ (info : Mess2.NodeInfo) (self2 : Mess2.LouvainCommunityDetection),
      (∀ fuel, 2 * Mess2.sampleNetwork.graph.allNeighbors.length + 1 ≤ fuel →
        Mess2.getNodeInfo Mess2.sampleNetwork 3 fuel = some (info, self2)) ∧
      Mess2.sampleNetwork.communities[(3 : Int).toNat]? = some info.community ∧
      (∀ c, c ∈ info.connectedCommunities ↔
        ∃ v, Mess2.Reachable Mess2.sampleEdges 3 v ∧
          Mess2.sampleNetwork.communities[v.toNat]? = some c) ∧
      info.community ∈ info.connectedCommunities ∧
      info.connectedCommunities.Nodup := by
  have hend : Mess2.IsEndpoint Mess2.sampleEdges 3 := ⟨(3, 4), by decide, Or.inl rfl⟩
  have hvalid : ∀ v, Mess2.IsEndpoint Mess2.sampleEdges v →
      0 ≤ v ∧ v.toNat < Mess2.sampleNetwork.communities.length := by
    rintro v ⟨e, he, hv⟩
    simp only [Mess2.sampleEdges, List.mem_cons, List.mem_singleton, List.not_mem_nil,
      or_false] at he
    rcases he with rfl | rfl | rfl | rfl | rfl | rfl <;> rcases hv with rfl | rfl <;> decide
  exact ⟨⟨hend, hvalid⟩,
    getNodeInfo_communities Mess2.sampleEdges Mess2.sampleNetwork 3 rfl hend hvalid⟩

namespace Mess2

theorem shareWithNeighbor_graph (shares : Nat → Bool) (m : Message) (st : PropagationState)
    (n : Int) : (shareWithNeighbor shares m st n).self.graph = st.self.graph := by
  by_cases h : n ∈ st.affectedNodes <;> by_cases hd : shares st.self.rng = true <;>
    simp [shareWithNeighbor, shouldShareMessage, h, hd]

theorem shareWithNeighbor_extends (shares : Nat → Bool) (m : Message) (st : PropagationState)
    (n : Int) (allowed : List Int) (hn : n ∈ allowed) :
    Extends allowed st.affectedNodes st.nodesToProcess
      (shareWithNeighbor shares m st n).affectedNodes
      (shareWithNeighbor shares m st n).nodesToProcess := by
  by_cases h : n ∈ st.affectedNodes
  · simp only [shareWithNeighbor, h, if_true]
    exact Extends.refl _ _ _
  · by_cases hd : shares st.self.rng = true
    · simp only [shareWithNeighbor, shouldShareMessage, h, hd, if_true, if_false,
        setInsert_of_not_mem _ _ h]
      exact Extends.push _ _ _ _ hn h
    · simp only [shareWithNeighbor, shouldShareMessage, h, hd, if_false]
      exact Extends.refl _ _ _

theorem shareWithNeighbor_messages (shares : Nat → Bool) (m : Message)
    (st : PropagationState) (n : Int) :
    (shareWithNeighbor shares m st n).self.messages =
      (recordShare m.getId)^[(shareWithNeighbor shares m st n).affectedNodes.length -
        st.affectedNodes.length] st.self.messages := by
  by_cases h : n ∈ st.affectedNodes
  · simp [shareWithNeighbor, h]
  · by_cases hd : shares st.self.rng = true
    · simp [shareWithNeighbor, shouldShareMessage, h, hd, setInsert_of_not_mem _ _ h]
    · simp [shareWithNeighbor, shouldShareMessage, h, hd]

theorem shareWithNeighbor_mem_of_true (shares : Nat → Bool) (hone : ∀ i, shares i = true)
    (m : Message) (st : PropagationState) (n : Int) :
    n ∈ (shareWithNeighbor shares m st n).affectedNodes := by
  by_cases h : n ∈ st.affectedNodes
  · simp [shareWithNeighbor, h]
  · simp [shareWithNeighbor, shouldShareMessage, h, hone, mem_setInsert]

theorem shareWithNeighbor_of_false (shares : Nat → Bool) (hzero : ∀ i, shares i = false)
    (m : Message) (st : PropagationState) (n : Int) :
    (shareWithNeighbor shares m st n).affectedNodes = st.affectedNodes ∧
    (shareWithNeighbor shares m st n).nodesToProcess = st.nodesToProcess ∧
    (shareWithNeighbor shares m st n).self.messages = st.self.messages := by
  by_cases h : n ∈ st.affectedNodes
  · simp [shareWithNeighbor, h]
  · simp [shareWithNeighbor, shouldShareMessage, h, hzero]

/-- Effect of the whole `for` loop of `propagateMessage` over the neighbour sequence `ns`,
for arbitrary share decisions. -/
theorem foldl_shareWithNeighbor (shares : Nat → Bool) (m : Message) (allowed : List Int)
    (ns : List Int) :
    ∀ st : PropagationState, (∀ n ∈ ns, n ∈ allowed) →
      (ns.foldl (shareWithNeighbor shares m) st).self.graph = st.self.graph ∧
      Extends allowed st.affectedNodes st.nodesToProcess
        (ns.foldl (shareWithNeighbor shares m) st).affectedNodes
        (ns.foldl (shareWithNeighbor shares m) st).nodesToProcess ∧
      (ns.foldl (shareWithNeighbor shares m) st).self.messages =
        (recordShare m.getId)^[(ns.foldl (shareWithNeighbor shares m) st).affectedNodes.length -
          st.affectedNodes.length] st.self.messages := by
  induction ns with
  | nil =>
    intro st _
    exact ⟨rfl, Extends.refl _ _ _, by simp⟩
  | cons n ns ih =>
    intro st hall
    have hn : n ∈ allowed := hall n (List.mem_cons_self _ _)
    have hns : ∀ x ∈ ns, x ∈ allowed := fun x hx => hall x (List.mem_cons_of_mem _ hx)
    obtain ⟨h1, h2, h3⟩ := ih (shareWithNeighbor shares m st n) hns
    have e1 := shareWithNeighbor_extends shares m st n allowed hn
    simp only [List.foldl_cons]
    refine ⟨by rw [h1, shareWithNeighbor_graph], Extends.trans e1 h2, ?_⟩
    rw [h3, shareWithNeighbor_messages, ← Function.iterate_add_apply]
    have l1 := e1.length_le
    have l2 := h2.length_le
    congr 1
    omega

theorem foldl_shareWithNeighbor_of_true (shares : Nat → Bool) (hone : ∀ i, shares i = true)
    (m : Message) (ns : List Int) :
    ∀ st : PropagationState,
      ∀ n ∈ ns, n ∈ (ns.foldl (shareWithNeighbor shares m) st).affectedNodes := by
  induction ns with
  | nil =>
    intro st n hn
    simp at hn
  | cons a ns ih =>
    intro st n hn
    simp only [List.foldl_cons]
    rcases List.mem_cons.mp hn with rfl | h
    · have hext := (foldl_shareWithNeighbor shares m ns ns
        (shareWithNeighbor shares m st n) (fun _ hx => hx)).2.1
      exact hext.sub_visited _ (shareWithNeighbor_mem_of_true shares hone m st n)
    · exact ih _ n h

theorem foldl_shareWithNeighbor_of_false (shares : Nat → Bool)
    (hzero : ∀ i, shares i = false) (m : Message) (ns : List Int) :
    ∀ st : PropagationState,
      (ns.foldl (shareWithNeighbor shares m) st).affectedNodes = st.affectedNodes ∧
      (ns.foldl (shareWithNeighbor shares m) st).nodesToProcess = st.nodesToProcess ∧
      (ns.foldl (shareWithNeighbor shares m) st).self.messages = st.self.messages := by
  induction ns with
  | nil =>
    intro st
    exact ⟨rfl, rfl, rfl⟩
  | cons a ns ih =>
    intro st
    simp only [List.foldl_cons]
    obtain ⟨h1, h2, h3⟩ := ih (shareWithNeighbor shares m st a)
    obtain ⟨k1, k2, k3⟩ := shareWithNeighbor_of_false shares hzero m st a
    exact ⟨h1.trans k1, h2.trans k2, h3.trans k3⟩

theorem propagateLoop_nil (shares : Nat → Bool) (m : Message) (fuel : Nat)
    (st : PropagationState) (h : st.nodesToProcess = []) :
    propagateLoop shares m fuel st = some st := by
  cases fuel <;> simp [propagateLoop, h]

theorem propagateLoop_cons (shares : Nat → Bool) (m : Message) (fuel : Nat)
    (st : PropagationState) (cur : Int) (rest : List Int)
    (h : st.nodesToProcess = cur :: rest) :
    propagateLoop shares m (fuel + 1) st =
      propagateLoop shares m fuel (propagateIteration shares m st cur rest) := by
  rw [propagateLoop]
  simp [h]

theorem propagateLoop_mono (shares : Nat → Bool) (m : Message) :
    ∀ (fuel : Nat) (st st2 : PropagationState), propagateLoop shares m fuel st = some st2 →
      ∀ fuel2, fuel ≤ fuel2 → propagateLoop shares m fuel2 st = some st2 := by
  intro fuel
  induction fuel with
  | zero =>
    intro st st2 h fuel2 _
    cases hq : st.nodesToProcess with
    | nil =>
      rw [propagateLoop_nil shares m 0 st hq] at h
      rw [propagateLoop_nil shares m fuel2 st hq]
      exact h
    | cons cur rest =>
      rw [propagateLoop] at h
      simp [hq] at h
  | succ fuel ih =>
    intro st st2 h fuel2 hle
    cases hq : st.nodesToProcess with
    | nil =>
      rw [propagateLoop_nil shares m _ st hq] at h
      rw [propagateLoop_nil shares m fuel2 st hq]
      exact h
    | cons cur rest =>
      rw [propagateLoop_cons shares m fuel st cur rest hq] at h
      obtain ⟨k, rfl⟩ : ∃ k, fuel2 = k + 1 := ⟨fuel2 - 1, by omega⟩
      rw [propagateLoop_cons shares m k st cur rest hq]
      exact ih _ _ h k (by omega)

/-- Induction principle for the `while` loop of `propagateMessage`: a property preserved
by every iteration, together with a strictly decreasing measure, holds when the loop ends,
and the loop ends within `fuel` iterations as soon as `fuel` bounds the measure. -/
theorem propagateLoop_induct (shares : Nat → Bool) (m : Message)
    (P : PropagationState → Prop) (μ : PropagationState → Nat)
    (hstep : ∀ st cur rest, P st → st.nodesToProcess = cur :: rest →
      P (propagateIteration shares m st cur rest) ∧
      μ (propagateIteration shares m st cur rest) < μ st) :
    ∀ (fuel : Nat) (st : PropagationState), P st → μ st ≤ fuel →
      ∃ st2, propagateLoop shares m fuel st = some st2 ∧ P st2 ∧ st2.nodesToProcess = [] := by
  intro fuel
  induction fuel with
  | zero =>
    intro st hP hm
    cases hq : st.nodesToProcess with
    | nil => exact ⟨st, propagateLoop_nil shares m 0 st hq, hP, hq⟩
    | cons cur rest =>
      have := (hstep st cur rest hP hq).2
      omega
  | succ fuel ih =>
    intro st hP hm
    cases hq : st.nodesToProcess with
    | nil => exact ⟨st, propagateLoop_nil shares m _ st hq, hP, hq⟩
    | cons cur rest =>
      obtain ⟨hP2, hlt⟩ := hstep st cur rest hP hq
      obtain ⟨st2, h1, h2, h3⟩ := ih (propagateIteration shares m st cur rest) hP2 (by omega)
      exact ⟨st2, by rw [propagateLoop_cons shares m fuel st cur rest hq]; exact h1, h2, h3⟩

theorem propagateIteration_eq (shares : Nat → Bool) (m : Message) (g0 : Graph)
    (st : PropagationState) (cur : Int) (rest : List Int)
    (hg : ∀ n, st.self.graph.neighborsOf n = g0.neighborsOf n) :
    propagateIteration shares m st cur rest =
      (g0.neighborsOf cur).foldl (shareWithNeighbor shares m)
        { st with self := { st.self with graph := (st.self.graph.getNeighbors cur).2 },
                  nodesToProcess := rest } := by
  unfold propagateIteration
  simp only [Graph.getNeighbors_fst, hg]

/-- One iteration of the propagation loop preserves the invariant and decreases the
measure, whatever the share decisions are. -/
theorem propagateIteration_inv (shares : Nat → Bool) (m : Message) (g0 : Graph)
    (msgs0 : List Message) (start : Int) (st : PropagationState) (cur : Int)
    (rest : List Int) (hinv : PropInv g0 msgs0 m.getId start st)
    (hq : st.nodesToProcess = cur :: rest) :
    PropInv g0 msgs0 m.getId start (propagateIteration shares m st cur rest) ∧
    bfsMeasure g0.allNeighbors (propagateIteration shares m st cur rest).affectedNodes
        (propagateIteration shares m st cur rest).nodesToProcess
      < bfsMeasure g0.allNeighbors st.affectedNodes st.nodesToProcess ∧
    Extends (g0.neighborsOf cur) st.affectedNodes rest
      (propagateIteration shares m st cur rest).affectedNodes
      (propagateIteration shares m st cur rest).nodesToProcess := by
  have hfold := foldl_shareWithNeighbor shares m (g0.neighborsOf cur) (g0.neighborsOf cur)
    { st with self := { st.self with graph := (st.self.graph.getNeighbors cur).2 },
              nodesToProcess := rest }
    (fun n hn => hn)
  rw [← propagateIteration_eq shares m g0 st cur rest hinv.graph_nbrs] at hfold
  simp only [] at hfold
  obtain ⟨hgraph, hext, hmsg⟩ := hfold
  have hcur_q : cur ∈ st.nodesToProcess := by rw [hq]; exact List.mem_cons_self _ _
  have hcur_v : cur ∈ st.affectedNodes := hinv.queue_aff cur hcur_q
  have hrest : ∀ x ∈ rest, x ∈ st.nodesToProcess := fun x hx => by
    rw [hq]; exact List.mem_cons_of_mem _ hx
  refine ⟨?_, ?_, hext⟩
  · refine
      { graph_nbrs := ?_, start_aff := hext.sub_visited _ hinv.start_aff, aff_reach := ?_,
        queue_aff := ?_, aff_nodup := hext.nodup hinv.aff_nodup, msgs := ?_ }
    · intro n
      rw [hgraph, Graph.neighborsOf_getNeighbors, hinv.graph_nbrs]
    · intro v hv
      rcases hext.new_in_queue v hv with h | ⟨_, h⟩
      · exact hinv.aff_reach v h
      · exact Relation.ReflTransGen.tail (hinv.aff_reach cur hcur_v) h
    · intro v hv
      rcases hext.queue_new v hv with h | ⟨h, _⟩
      · exact hext.sub_visited v (hinv.queue_aff v (hrest v h))
      · exact h
    · rw [hmsg, hinv.msgs, ← Function.iterate_add_apply]
      have l1 := hext.length_le
      have l2 : 0 < st.affectedNodes.length := List.length_pos_of_mem hinv.start_aff
      congr 1
      omega
  · have hm := hext.measure g0.allNeighbors
      (fun x hx => Graph.mem_allNeighbors g0 cur x hx)
    have : bfsMeasure g0.allNeighbors st.affectedNodes st.nodesToProcess =
        bfsMeasure g0.allNeighbors st.affectedNodes rest + 1 := by
      unfold bfsMeasure
      rw [hq]
      simp only [List.length_cons]
      omega
    omega

/-- When every share decision is true, one iteration keeps the processed part of the
affected set closed under neighbours. -/
theorem propagateIteration_closed (shares : Nat → Bool) (hone : ∀ i, shares i = true)
    (m : Message) (g0 : Graph) (msgs0 : List Message) (start : Int) (st : PropagationState)
    (cur : Int) (rest : List Int) (hinv : PropInv g0 msgs0 m.getId start st)
    (hcl : PropClosed g0 st) (hq : st.nodesToProcess = cur :: rest) :
    PropClosed g0 (propagateIteration shares m st cur rest) := by
  obtain ⟨_, _, hext⟩ := propagateIteration_inv shares m g0 msgs0 start st cur rest hinv hq
  have hnb : ∀ w ∈ g0.neighborsOf cur,
      w ∈ (propagateIteration shares m st cur rest).affectedNodes := by
    rw [propagateIteration_eq shares m g0 st cur rest hinv.graph_nbrs]
    exact foldl_shareWithNeighbor_of_true shares hone m _ _
  intro u hu hnq w hw
  by_cases huc : u = cur
  · subst huc
    exact hnb w hw
  · rcases hext.new_in_queue u hu with h | ⟨h, _⟩
    · have hnq0 : u ∉ st.nodesToProcess := by
        intro hc
        rw [hq] at hc
        rcases List.mem_cons.mp hc with h1 | h1
        · exact huc h1
        · exact hnq (hext.sub_queue u h1)
      exact hext.sub_visited w (hcl u h hnq0 w hw)
    · exact absurd h hnq

theorem propInv_init (self : LouvainCommunityDetection) (id : Nat) (start : Int) :
    PropInv self.graph self.messages id start
      { self := self, nodesToProcess := [start], affectedNodes := setInsert [] start } := by
  have hv : setInsert [] start = [start] := by simp [setInsert]
  refine
    { graph_nbrs := fun _ => rfl, start_aff := ?_, aff_reach := ?_, queue_aff := ?_,
      aff_nodup := ?_, msgs := ?_ }
  · simp [hv]
  · intro v h
    simp only [hv, List.mem_singleton] at h
    rw [h]
    exact Relation.ReflTransGen.refl
  · intro v h
    simpa [hv] using h
  · simp [hv]
  · simp [hv]

theorem vecUpdate_getElem?_self {α : Type} (l : List α) (i : Nat) (f : α → α) :
    (vecUpdate l i f)[i]? = (l[i]?).map f := by
  induction l generalizing i with
  | nil => simp [vecUpdate]
  | cons x xs ih =>
    cases i with
    | zero => simp [vecUpdate]
    | succ j => simp [vecUpdate, ih]

theorem iterate_recordShare_getElem? (id : Nat) (k : Nat) (ms : List Message) :
    ((recordShare id)^[k] ms)[id]? = (ms[id]?).map (Message.incrementShareCount^[k]) := by
  induction k with
  | zero => simp
  | succ n ih =>
    have hrs : ∀ l : List Message,
        (recordShare id l)[id]? = (l[id]?).map Message.incrementShareCount :=
      fun l => vecUpdate_getElem?_self l id _
    rw [Function.iterate_succ_apply', hrs, ih, Function.iterate_succ', Option.map_map]

/-- Result of `propagateMessage` when every share decision is true, on an arbitrary object
state: the call returns for every fuel from `2 * |adjacency entries| + 1` on, the affected
set is exactly the set reachable along stored adjacency sequences, and the registry has
received one `incrementShareCount` on the message per affected node other than the start. -/
theorem propagateMessage_all_true (shares : Nat → Bool) (hone : ∀ i, shares i = true)
    (self : LouvainCommunityDetection) (m : Message) (startNode : Int) :
    ∃ (affected : List Int) (self2 : LouvainCommunityDetection),
      (∀ fuel, 2 * self.graph.allNeighbors.length + 1 ≤ fuel →
        propagateMessage shares self m startNode fuel = some (affected, self2)) ∧
      (∀ v, v ∈ affected ↔
        self.graph.Reach (if startNode = -1 then m.getSourceNode else startNode) v) ∧
      affected.Nodup ∧
      self2.messages = (recordShare m.getId)^[affected.length - 1] self.messages := by
  generalize hs : (if startNode = -1 then m.getSourceNode else startNode) = start
  have hinit := propInv_init self m.getId start
  have hclosed0 : PropClosed self.graph
      { self := self, nodesToProcess := [start], affectedNodes := setInsert [] start } := by
    intro u hu hnq
    have hv : setInsert [] start = [start] := by simp [setInsert]
    simp only [hv] at hu
    exact absurd hu hnq
  have hm : bfsMeasure self.graph.allNeighbors (setInsert [] start) [start] ≤
      2 * self.graph.allNeighbors.length + 1 := by
    have hv : setInsert [] start = [start] := by simp [setInsert]
    rw [hv]
    exact bfsMeasure_start _ _
  obtain ⟨st2, hrun, ⟨hinv, hcl⟩, hq⟩ :=
    propagateLoop_induct shares m
      (fun st => PropInv self.graph self.messages m.getId start st ∧ PropClosed self.graph st)
      (fun st => bfsMeasure self.graph.allNeighbors st.affectedNodes st.nodesToProcess)
      (fun st cur rest hP hq =>
        ⟨⟨(propagateIteration_inv shares m _ _ start st cur rest hP.1 hq).1,
          propagateIteration_closed shares hone m _ _ start st cur rest hP.1 hP.2 hq⟩,
         (propagateIteration_inv shares m _ _ start st cur rest hP.1 hq).2.1⟩)
      _ _ ⟨hinit, hclosed0⟩ hm
  have hall : ∀ u, self.graph.Reach start u → u ∈ st2.affectedNodes := by
    intro u hu
    induction hu with
    | refl => exact hinv.start_aff
    | tail _ hstep ih => exact hcl _ ih (by rw [hq]; simp) _ hstep
  refine ⟨st2.affectedNodes, st2.self, ?_, ?_, hinv.aff_nodup, hinv.msgs⟩
  · intro fuel hf
    unfold propagateMessage
    simp only [hs]
    rw [propagateLoop_mono shares m _ _ _ hrun fuel hf]
    rfl
  · intro v
    exact ⟨hinv.aff_reach v, hall v⟩

theorem Graph.mem_getNodes_foldl (es : List (Int × Int)) :
    ∀ (g : Graph) (x : Int),
      x ∈ (es.foldl (fun g e => g.addEdge e.1 e.2) g).getNodes ↔
        x ∈ g.getNodes ∨ IsEndpoint es x := by
  induction es with
  | nil =>
    intro g x
    simp [IsEndpoint]
  | cons e es ih =>
    intro g x
    simp only [List.foldl_cons]
    rw [ih]
    have h1 : x ∈ (g.addEdge e.1 e.2).getNodes ↔ x ∈ g.getNodes ∨ x = e.1 ∨ x = e.2 := by
      unfold Graph.getNodes Graph.addEdge
      simp only [UMap.mem_keys_update]
      tauto
    rw [h1]
    simp only [IsEndpoint, List.mem_cons, exists_eq_or_imp]
    constructor
    · rintro ((h | h | h) | h)
      · exact Or.inl h
      · exact Or.inr (Or.inl (Or.inl h.symm))
      · exact Or.inr (Or.inl (Or.inr h.symm))
      · exact Or.inr (Or.inr h)
    · rintro (h | (h | h) | h)
      · exact Or.inl (Or.inl h)
      · exact Or.inl (Or.inr (Or.inl h.symm))
      · exact Or.inl (Or.inr (Or.inr h.symm))
      · exact Or.inr h

theorem Graph.mem_getNodes_build (edges : List (Int × Int)) (x : Int) :
    x ∈ (Graph.build edges).getNodes ↔ IsEndpoint edges x := by
  unfold Graph.build
  rw [Graph.mem_getNodes_foldl]
  simp [Graph.getNodes, Graph.empty, UMap.keys]

end Mess2

/-- C6. Propagation with share probability 0: when every share decision is false,
`propagateMessage` returns (one loop iteration suffices) exactly the singleton set of its
start node, which is `startNode` itself unless `startNode` is the default argument `-1`
that stands for the source node of the message, and it leaves the whole message registry,
hence every share count and state, unchanged. -/
theorem propagateMessage_probability_zero (shares : Nat → Bool)
    (hzero : ∀ i, shares i = false) (self : Mess2.LouvainCommunityDetection)
    (message : Mess2.Message) (startNode : Int) (fuel : Nat) (hfuel : 1 ≤ fuel) :
    ∃ self2 : Mess2.LouvainCommunityDetection,
      Mess2.propagateMessage shares self message startNode fuel =
        some ([if startNode = -1 then message.getSourceNode else startNode], self2) ∧
      (startNode ≠ -1 →
        Mess2.propagateMessage shares self message startNode fuel =
          some ([startNode], self2)) ∧
      self2.messages = self.messages := by
  obtain ⟨k, rfl⟩ : ∃ k, fuel = k + 1 := ⟨fuel - 1, by omega⟩
  generalize hs : (if startNode = -1 then message.getSourceNode else startNode) = start
  have hv : Mess2.setInsert [] start = [start] := by simp [Mess2.setInsert]
  have hfold := Mess2.foldl_shareWithNeighbor_of_false shares hzero message
    (self.graph.getNeighbors start).1
    { self := { self with graph := (self.graph.getNeighbors start).2 },
      nodesToProcess := [], affectedNodes := [start] }
  have h1 : (Mess2.propagateIteration shares message
      { self := self, nodesToProcess := [start], affectedNodes := [start] }
      start []).affectedNodes = [start] := hfold.1
  have h2 : (Mess2.propagateIteration shares message
      { self := self, nodesToProcess := [start], affectedNodes := [start] }
      start []).nodesToProcess = [] := hfold.2.1
  have h3 : (Mess2.propagateIteration shares message
      { self := self, nodesToProcess := [start], affectedNodes := [start] }
      start []).self.messages = self.messages := hfold.2.2
  have hrun : Mess2.propagateMessage shares self message startNode (k + 1) =
      some ([start],
        (Mess2.propagateIteration shares message
          { self := self, nodesToProcess := [start], affectedNodes := [start] }
          start []).self) := by
    unfold Mess2.propagateMessage
    simp only [hs, hv]
    rw [Mess2.propagateLoop_cons shares message k _ start [] rfl,
      Mess2.propagateLoop_nil shares message k _ h2]
    simp only [Option.map_some', Option.some.injEq, Prod.mk.injEq, and_true]
    exact h1
  refine ⟨_, hrun, ?_, h3⟩
  intro hne
  rw [hrun]
  simp only [if_neg hne] at hs
  rw [hs]

/-- Witness for C6: the first sample message, started at node 3 of the sample graph. -/
theorem propagateMessage_probability_zero_witness :
    (∀ i : Nat, (fun _ : Nat => false) i = false) ∧ 1 ≤ 1 ∧
    ∃ self2 : Mess2.LouvainCommunityDetection,
      Mess2.propagateMessage (fun _ => false) Mess2.sampleNetwork
          (Mess2.Message.new 0 "This is a normal message." 1) 3 1 =
        some ([if (3 : Int) = -1 then
                (Mess2.Message.new 0 "This is a normal message." 1).getSourceNode
               else 3], self2) ∧
      ((3 : Int) ≠ -1 →
        Mess2.propagateMessage (fun _ => false) Mess2.sampleNetwork
            (Mess2.Message.new 0 "This is a normal message." 1) 3 1 =
          some ([3], self2)) ∧
      self2.messages = Mess2.sampleNetwork.messages :=
  ⟨fun _ => rfl, Nat.le_refl 1,
   propagateMessage_probability_zero (fun _ => false) (fun _ => rfl) Mess2.sampleNetwork
     (Mess2.Message.new 0 "This is a normal message." 1) 3 1 (Nat.le_refl 1)⟩

/-- C7. Propagation with share probability 1: on a graph built by `addEdge` calls and for a
registered message, when every share decision is true `propagateMessage` returns (for every
fuel from `2 * |adjacency entries| + 1` on), the returned set is, without repetition, exactly
the set of nodes reachable from the start node in the undirected graph, the start node
included (the whole node set when the graph is connected and the start node is one of its
nodes), and the share count of the message has increased by exactly `|affectedNodes| - 1`.
The start node is `startNode`, or the source node of the message when `startNode` is the
default argument `-1`. -/
theorem propagateMessage_probability_one (shares : Nat → Bool)
    (hone : ∀ i, shares i = true) (edges : List (Int × Int))
    (self : Mess2.LouvainCommunityDetection)
    (hgraph : self.graph = Mess2.Graph.build edges)
    (message : Mess2.Message) (hreg : message.getId < self.messages.length)
    (startNode : Int) :
    ∃ (affected : List Int) (self2 : Mess2.LouvainCommunityDetection),
      (∀ fuel, 2 * self.graph.allNeighbors.length + 1 ≤ fuel →
        Mess2.propagateMessage shares self message startNode fuel =
          some (affected, self2)) ∧
      (∀ v, v ∈ affected ↔
        Mess2.Reachable edges
          (if startNode = -1 then message.getSourceNode else startNode) v) ∧
      affected.Nodup ∧
      ((∀ u v, Mess2.IsEndpoint edges u → Mess2.IsEndpoint edges v →
            Mess2.Reachable edges u v) →
        Mess2.IsEndpoint edges
          (if startNode = -1 then message.getSourceNode else startNode) →
        ∀ v, v ∈ affected ↔ v ∈ self.graph.getNodes) ∧
      ∃ m0 m1 : Mess2.Message,
        self.messages[message.getId]? = some m0 ∧
        self2.messages[message.getId]? = some m1 ∧
        m1.getShareCount = m0.getShareCount + (affected.length - 1) := by
  obtain ⟨affected, self2, hrun, hreach, hnd, hmsgs⟩ :=
    Mess2.propagateMessage_all_true shares hone self message startNode
  have hiff : ∀ v, v ∈ affected ↔
      Mess2.Reachable edges
        (if startNode = -1 then message.getSourceNode else startNode) v := by
    intro v
    rw [hreach, hgraph, Mess2.Graph.reach_build]
  refine ⟨affected, self2, hrun, hiff, hnd, ?_, ?_⟩
  · intro hconn hstart v
    rw [hiff, hgraph, Mess2.Graph.mem_getNodes_build]
    constructor
    · intro hv
      exact Mess2.Reachable.isEndpoint hv hstart
    · intro hv
      exact hconn _ _ hstart hv
  · have h0 : self.messages[message.getId]? = some (self.messages[message.getId]) :=
      List.getElem?_eq_getElem hreg
    refine ⟨self.messages[message.getId],
      Mess2.Message.incrementShareCount^[affected.length - 1] (self.messages[message.getId]),
      h0, ?_, ?_⟩
    · rw [hmsgs, Mess2.iterate_recordShare_getElem?, h0]
      rfl
    · unfold Mess2.Message.getShareCount
      exact Mess2.iterate_increment_shareCount _ _

/-- Witness for C7: the first sample message, started at node 3 of the sample graph. -/
theorem propagateMessage_probability_one_witness :
    ((∀ i : Nat, (fun _ : Nat => true) i = true) ∧
      (Mess2.Message.new 0 "This is a normal message." 1).getId <
        Mess2.sampleNetwork.messages.length) ∧
    ∃ (affected : List Int) (self2 : Mess2.LouvainCommunityDetection),
      (∀ fuel, 2 * Mess2.sampleNetwork.graph.allNeighbors.length + 1 ≤ fuel →
        Mess2.propagateMessage (fun _ => true) Mess2.sampleNetwork
            (Mess2.Message.new 0 "This is a normal message." 1) 3 fuel =
          some (affected, self2)) ∧
      (∀ v, v ∈ affected ↔
        Mess2.Reachable Mess2.sampleEdges
          (if (3 : Int) = -1 then
            (Mess2.Message.new 0 "This is a normal message." 1).getSourceNode
           else 3) v) ∧
      affected.Nodup ∧
      ((∀ u v, Mess2.IsEndpoint Mess2.sampleEdges u → Mess2.IsEndpoint Mess2.sampleEdges v →
            Mess2.Reachable Mess2.sampleEdges u v) →
        Mess2.IsEndpoint Mess2.sampleEdges
          (if (3 : Int) = -1 then
            (Mess2.Message.new 0 "This is a normal message." 1).getSourceNode
           else 3) →
        ∀ v, v ∈ affected ↔ v ∈ Mess2.sampleNetwork.graph.getNodes) ∧
      ∃ m0 m1 : Mess2.Message,
        Mess2.sampleNetwork.messages[
          (Mess2.Message.new 0 "This is a normal message." 1).getId]? = some m0 ∧
        self2.messages[(Mess2.Message.new 0 "This is a normal message." 1).getId]? = some m1 ∧
        m1.getShareCount = m0.getShareCount + (affected.length - 1) :=
  ⟨⟨fun _ => rfl, by decide⟩,
   propagateMessage_probability_one (fun _ => true) (fun _ => rfl) Mess2.sampleEdges
     Mess2.sampleNetwork rfl (Mess2.Message.new 0 "This is a normal message." 1)
     (by decide) 3⟩

/-- C13 (refuted as stated). On the path `0 - 1 - ... - 20` whose edge `(i, i + 1)` is
inserted `20 - i` times, with every pass visiting the nodes in descending order,
`detectCommunities` of `comm4.cpp` executes 21 local-move passes, one more than the 20 of
the claim: the loop index runs through `0 .. maxIterations` inclusive. No tie between
communities ever occurs on this input, so the count is the same for the two natural
iteration orders of the hash map (insertion order and its reverse). -/
theorem detectCommunities_runs_twenty_one_passes :
    (Comm4.runPasses id (fun _ nodes => nodes.reverse)
      (Comm4.loadGraph (Comm4.weightedPath 20))).passes = 21 ∧
    (Comm4.runPasses List.reverse (fun _ nodes => nodes.reverse)
      (Comm4.loadGraph (Comm4.weightedPath 20))).passes = 21 := by
  constructor <;> decide!

/-- C15 (the code reads outside the vector). After `loadGraph` of `mess2.cpp` on the single
edge `(5, 7)` the vector `communities` has the two elements `[0, 1]` while the nodes are 5
and 7, so the accesses `communities[5]` of `moveNode(5)` (line 126), of `getNodeInfo(5)`
(line 225) and of `calculateModularity` (line 102) lie outside the vector. The sibling
`loadGraph` of `comm4.cpp` sizes the vector by the largest id plus one and has eight
elements on the same input. -/
theorem loadGraph_sparse_ids_out_of_bounds :
    (Mess2.loadGraph [(5, 7)]).communities = [0, 1] ∧
    (Mess2.loadGraph [(5, 7)]).graph.getNodes = [5, 7] ∧
    (5 : Int) ∈ Mess2.moveNodeAccesses (Mess2.loadGraph [(5, 7)]) 5 ∧
    ¬ Mess2.InBounds (Mess2.loadGraph [(5, 7)]).communities 5 ∧
    ¬ Mess2.InBounds (Mess2.loadGraph [(5, 7)]).communities 7 ∧
    (Comm4.loadGraph [(5, 7)]).communities.length = 8 := by
  refine ⟨by decide, by decide, by decide, ?_, ?_, by decide⟩
  · rintro ⟨_, h⟩
    revert h
    decide
  · rintro ⟨_, h⟩
    revert h
    decide

/-- C17 (the code does not compute the specified score). On the graph with edges
`(0,1),(0,1),(0,2),(1,3),(1,4),(1,5),(1,6)` and singleton labels, `moveNode(0)` scores
community 1 with `2 - 3 * 2 / 14 = 11/7`, using the connection count where the modularity gain
uses the total incident weight 6 of community 1, for which the specified score is
`2 - 3 * 6 / 14 = 5/7`. The specified scores prefer community 2 (`11/14 > 5/7`), but
`moveNode` moves node 0 to community 1, for both natural iteration orders of the hash map. -/
theorem moveNode_score_differs_from_modularity_gain :
    Mess2.moveNodeScore (Mess2.loadGraph Mess2.skewedEdges) 0 1 = 11 / 7 ∧
    Mess2.modularityGainSpec (Mess2.loadGraph Mess2.skewedEdges) 0 1 = 5 / 7 ∧
    Mess2.moveNodeScore (Mess2.loadGraph Mess2.skewedEdges) 0 2 = 11 / 14 ∧
    Mess2.modularityGainSpec (Mess2.loadGraph Mess2.skewedEdges) 0 2 = 11 / 14 ∧
    (Mess2.moveNode id (Mess2.loadGraph Mess2.skewedEdges) 0).communities =
      [1, 1, 2, 3, 4, 5, 6] ∧
    (Mess2.moveNode List.reverse (Mess2.loadGraph Mess2.skewedEdges) 0).communities =
      [1, 1, 2, 3, 4, 5, 6] := by
  refine ⟨by decide!, by decide!, by decide!, by decide!, by decide!, by decide!⟩

namespace Comm4

theorem mem_keys_countConnection (m : List (Nat × Nat)) (key x : Nat) :
    x ∈ (countConnection m key).map Prod.fst ↔ x ∈ m.map Prod.fst ∨ x = key := by
  induction m with
  | nil => simp [countConnection]
  | cons e rest ih =>
    obtain ⟨k, n⟩ := e
    by_cases hk : k = key
    · subst hk
      simp [countConnection]
      tauto
    · simp only [countConnection, hk, if_false, List.map_cons, List.mem_cons, ih]
      tauto

theorem countConnection_keys_nodup (m : List (Nat × Nat)) (key : Nat)
    (h : (m.map Prod.fst).Nodup) : ((countConnection m key).map Prod.fst).Nodup := by
  induction m with
  | nil => simp [countConnection]
  | cons e rest ih =>
    obtain ⟨k, n⟩ := e
    have h2 : k ∉ rest.map Prod.fst ∧ (rest.map Prod.fst).Nodup := by simpa using h
    by_cases hk : k = key
    · simpa [countConnection, hk] using h
    · simp only [countConnection, hk, if_false, List.map_cons, List.nodup_cons]
      refine ⟨?_, ih h2.2⟩
      intro hx
      rcases (mem_keys_countConnection rest key k).mp hx with h3 | h3
      · exact h2.1 h3
      · exact hk h3

theorem entryCount_of_mem (m : List (Nat × Nat)) (h : (m.map Prod.fst).Nodup)
    (e : Nat × Nat) (he : e ∈ m) : entryCount m e.1 = e.2 := by
  induction m with
  | nil => simp at he
  | cons e0 rest ih =>
    obtain ⟨k, n⟩ := e0
    have h2 : k ∉ rest.map Prod.fst ∧ (rest.map Prod.fst).Nodup := by simpa using h
    rcases List.mem_cons.mp he with h1 | h1
    · subst h1
      simp [entryCount]
    · have hne : k ≠ e.1 := by
        intro hc
        apply h2.1
        rw [hc]
        exact List.mem_map_of_mem Prod.fst h1
      simp only [entryCount, hne, if_false]
      exact ih h2.2 h1

theorem entryCount_of_not_mem (m : List (Nat × Nat)) (key : Nat)
    (h : key ∉ m.map Prod.fst) : entryCount m key = 0 := by
  induction m with
  | nil => rfl
  | cons e0 rest ih =>
    obtain ⟨k, n⟩ := e0
    have h2 : ¬ k = key ∧ key ∉ rest.map Prod.fst := by
      constructor
      · intro hc
        apply h
        simp [hc]
      · intro hc
        apply h
        simp only [List.map_cons, List.mem_cons]
        exact Or.inr hc
    simp only [entryCount, h2.1, if_false]
    exact ih h2.2

theorem mem_countConnection (m : List (Nat × Nat)) (key : Nat)
    (h : (m.map Prod.fst).Nodup) (e : Nat × Nat) (he : e ∈ countConnection m key) :
    (e ∈ m ∧ e.1 ≠ key) ∨ (e.1 = key ∧ e.2 = entryCount m key + 1) := by
  induction m with
  | nil =>
    simp only [countConnection, List.mem_singleton] at he
    subst he
    exact Or.inr ⟨rfl, rfl⟩
  | cons e0 rest ih =>
    obtain ⟨k, n⟩ := e0
    have h2 : k ∉ rest.map Prod.fst ∧ (rest.map Prod.fst).Nodup := by simpa using h
    by_cases hk : k = key
    · subst hk
      simp only [countConnection, if_true, List.mem_cons] at he
      rcases he with h1 | h1
      · subst h1
        exact Or.inr ⟨rfl, by simp [entryCount]⟩
      · left
        refine ⟨List.mem_cons_of_mem _ h1, ?_⟩
        intro hc
        apply h2.1
        rw [← hc]
        exact List.mem_map_of_mem Prod.fst h1
    · simp only [countConnection, hk, if_false, List.mem_cons] at he
      rcases he with h1 | h1
      · subst h1
        exact Or.inl ⟨List.mem_cons_self _ _, hk⟩
      · rcases ih h2.2 h1 with ⟨h3, h4⟩ | ⟨h3, h4⟩
        · exact Or.inl ⟨List.mem_cons_of_mem _ h3, h4⟩
        · exact Or.inr ⟨h3, by simp [entryCount, hk, h4]⟩

theorem countsOf_countConnection (m : List (Nat × Nat)) (labels : List Nat) (key : Nat)
    (h : CountsOf m labels) : CountsOf (countConnection m key) (labels ++ [key]) := by
  obtain ⟨hn, he, hk⟩ := h
  refine ⟨countConnection_keys_nodup m key hn, ?_, ?_⟩
  · intro e hmem
    rcases mem_countConnection m key hn e hmem with ⟨h1, h2⟩ | ⟨h1, h2⟩
    · obtain ⟨h3, h4⟩ := he e h1
      refine ⟨?_, h4⟩
      rw [List.count_append, h3]
      have : [key].count e.1 = 0 := by
        rw [List.count_eq_zero]
        simpa using h2
      omega
    · have hc : entryCount m key = labels.count key := by
        by_cases hmk : key ∈ m.map Prod.fst
        · obtain ⟨e2, he2, hfst⟩ := List.mem_map.mp hmk
          have := entryCount_of_mem m hn e2 he2
          rw [hfst] at this
          rw [this, (he e2 he2).1, hfst]
        · rw [entryCount_of_not_mem m key hmk]
          symm
          rw [List.count_eq_zero]
          intro hc
          exact hmk (hk key hc)
      refine ⟨?_, by omega⟩
      rw [h2, hc, h1, List.count_append]
      simp
  · intro k hmem
    rw [mem_keys_countConnection]
    rcases List.mem_append.mp hmem with h1 | h1
    · exact Or.inl (hk k h1)
    · exact Or.inr (by simpa using h1)

theorem countsOf_foldl (l2 : List Nat) :
    ∀ (m : List (Nat × Nat)) (l1 : List Nat), CountsOf m l1 →
      CountsOf (l2.foldl countConnection m) (l1 ++ l2) := by
  induction l2 with
  | nil =>
    intro m l1 h
    simpa using h
  | cons a rest ih =>
    intro m l1 h
    have := ih (countConnection m a) (l1 ++ [a]) (countsOf_countConnection m l1 a h)
    simpa using this

/-- The connection map of `v` holds exactly the labels of the neighbours of `v`, each with
its number of occurrences. -/
theorem countsOf_connectionsOf (self : LouvainCommunityDetection) (v : Nat) :
    CountsOf (connectionsOf self v)
      ((self.graph.getNeighbors v).map (fun n => self.communities.getD n 0)) := by
  have h := countsOf_foldl ((self.graph.getNeighbors v).map (fun n => self.communities.getD n 0))
    [] [] ⟨by simp, by simp, by simp⟩
  simp only [List.nil_append, List.foldl_map] at h
  exact h

theorem length_filter_eq_count_map (l : List Nat) (f : Nat → Nat) (c : Nat) :
    (l.filter (fun n => decide (f n = c))).length = (l.map f).count c := by
  induction l with
  | nil => rfl
  | cons a rest ih =>
    by_cases h : f a = c
    · simp [List.filter_cons, h, ih]
    · simp [List.filter_cons, h, ih, List.count_cons]

theorem connections_eq_count (self : LouvainCommunityDetection) (v c : Nat) :
    connections self v c =
      ((self.graph.getNeighbors v).map (fun n => self.communities.getD n 0)).count c :=
  length_filter_eq_count_map _ _ c

/-- The scan result, for an arbitrary initial accumulator: every scanned value is at most
the final maximum, and the final pair is the initial one or a scanned entry with a
strictly larger value. -/
theorem scan_foldl (es : List (Nat × Nat)) :
    ∀ acc : Nat × Nat,
      (∀ e ∈ es, e.2 ≤ (es.foldl (fun acc entry =>
          if entry.2 > acc.2 then (entry.1, entry.2) else acc) acc).2) ∧
      acc.2 ≤ (es.foldl (fun acc entry =>
          if entry.2 > acc.2 then (entry.1, entry.2) else acc) acc).2 ∧
      ((es.foldl (fun acc entry =>
          if entry.2 > acc.2 then (entry.1, entry.2) else acc) acc) = acc ∨
        ((es.foldl (fun acc entry =>
          if entry.2 > acc.2 then (entry.1, entry.2) else acc) acc) ∈ es ∧
         acc.2 < (es.foldl (fun acc entry =>
          if entry.2 > acc.2 then (entry.1, entry.2) else acc) acc).2)) := by
  induction es with
  | nil =>
    intro acc
    simp
  | cons e rest ih =>
    intro acc
    simp only [List.foldl_cons]
    by_cases hgt : e.2 > acc.2
    · simp only [hgt, if_true]
      obtain ⟨h1, h2, h3⟩ := ih (e.1, e.2)
      refine ⟨?_, ?_, ?_⟩
      · intro x hx
        rcases List.mem_cons.mp hx with rfl | hx
        · exact h2
        · exact h1 x hx
      · simp only at h2
        omega
      · right
        rcases h3 with h3 | ⟨h3, h4⟩
        · rw [h3]
          exact ⟨List.mem_cons_self _ _, hgt⟩
        · refine ⟨List.mem_cons_of_mem _ h3, ?_⟩
          simp only at h4
          omega
    · simp only [hgt, if_false]
      obtain ⟨h1, h2, h3⟩ := ih acc
      refine ⟨?_, h2, ?_⟩
      · intro x hx
        rcases List.mem_cons.mp hx with rfl | hx
        · omega
        · exact h1 x hx
      · rcases h3 with h3 | ⟨h3, h4⟩
        · exact Or.inl h3
        · exact Or.inr ⟨List.mem_cons_of_mem _ h3, h4⟩

theorem scanBest_spec (es : List (Nat × Nat)) (old : Nat) :
    (∀ e ∈ es, e.2 ≤ (scanBest es old).2) ∧
    (scanBest es old = (old, 0) ∨ (scanBest es old ∈ es ∧ 0 < (scanBest es old).2)) := by
  obtain ⟨h1, _, h3⟩ := scan_foldl es (old, 0)
  exact ⟨h1, h3⟩

/-- The community selected by the per-node step: either the current one, with no
neighbour at all, or the label of a neighbour that no other label exceeds in number
of neighbours. -/
theorem moveStep_best (hashOrder : List (Nat × Nat) → List (Nat × Nat))
    (hperm : ∀ m, (hashOrder m).Perm m) (self : LouvainCommunityDetection) (v : Nat) :
    ((scanBest (hashOrder (connectionsOf self v)) (self.communities.getD v 0)).1 =
        self.communities.getD v 0 ∧ self.graph.getNeighbors v = []) ∨
    ((∃ nbr ∈ self.graph.getNeighbors v, self.communities.getD nbr 0 =
        (scanBest (hashOrder (connectionsOf self v)) (self.communities.getD v 0)).1) ∧
      ∀ c, connections self v c ≤
        connections self v
          (scanBest (hashOrder (connectionsOf self v)) (self.communities.getD v 0)).1) := by
  obtain ⟨hn, he, hk⟩ := countsOf_connectionsOf self v
  obtain ⟨h1, h2⟩ := scanBest_spec (hashOrder (connectionsOf self v))
    (self.communities.getD v 0)
  have hmemiff : ∀ e, e ∈ hashOrder (connectionsOf self v) ↔ e ∈ connectionsOf self v :=
    fun e => (hperm _).mem_iff
  rcases h2 with h2 | ⟨h2, h3⟩
  · left
    refine ⟨by rw [h2], ?_⟩
    cases hnb : self.graph.getNeighbors v with
    | nil => rfl
    | cons a rest =>
      exfalso
      have hmem : self.communities.getD a 0 ∈ (connectionsOf self v).map Prod.fst := by
        apply hk
        rw [hnb]
        simp
      obtain ⟨e, hem, _⟩ := List.mem_map.mp hmem
      have hle := h1 e ((hmemiff e).mpr hem)
      rw [h2] at hle
      have := (he e hem).2
      simp only at hle
      omega
  · right
    have hbm := (hmemiff _).mp h2
    obtain ⟨hb1, hb2⟩ := he _ hbm
    have hcount : 0 < ((self.graph.getNeighbors v).map
        (fun n => self.communities.getD n 0)).count
          (scanBest (hashOrder (connectionsOf self v)) (self.communities.getD v 0)).1 := by
      omega
    refine ⟨?_, ?_⟩
    · have := List.count_pos_iff.mp hcount
      obtain ⟨nbr, hnbr, heq⟩ := List.mem_map.mp this
      exact ⟨nbr, hnbr, heq⟩
    · intro c
      rw [connections_eq_count, connections_eq_count, ← hb1]
      by_cases hc : c ∈ (self.graph.getNeighbors v).map (fun n => self.communities.getD n 0)
      · obtain ⟨e, hem, hfst⟩ := List.mem_map.mp (hk c hc)
        have hle := h1 e ((hmemiff e).mpr hem)
        rw [← hfst, ← (he e hem).1]
        exact hle
      · rw [List.count_eq_zero.mpr hc]
        omega

end Comm4

namespace Comm4

theorem perm_pair_cases {α : Type} (l : List α) (a b : α) (hab : a ≠ b)
    (h : l.Perm [a, b]) : l = [a, b] ∨ l = [b, a] := by
  have hlen := h.length_eq
  have hnd : l.Nodup := h.nodup_iff.mpr (by simp [hab])
  match l, hlen, hnd, h with
  | [x, y], _, hnd, h =>
    have hx : x ∈ [a, b] := h.subset (by simp)
    have hy : y ∈ [a, b] := h.subset (by simp)
    have hxy : x ≠ y := by
      intro hc
      simp [hc] at hnd
    simp only [List.mem_cons, List.mem_singleton, List.not_mem_nil, or_false] at hx hy
    rcases hx with rfl | rfl <;> rcases hy with rfl | rfl
    · exact absurd rfl hxy
    · exact Or.inl rfl
    · exact Or.inr rfl
    · exact absurd rfl hxy

/-- Whatever the iteration order of the hash map is, there is a label assignment on the
three-node sample graph for which node 0 leaves its current community although that
community ties for the greatest number of neighbours. -/
theorem moveStep_tie_for_every_order (hashOrder : List (Nat × Nat) → List (Nat × Nat))
    (hperm : ∀ m, (hashOrder m).Perm m) :
    ∃ communities : List Nat,
      connections (tieState communities) 0 (communities.getD 0 0) = 1 ∧
      (∀ c, connections (tieState communities) 0 c ≤ 1) ∧
      (moveStep hashOrder (tieState communities) 0).2 = true := by
  have hc1 : connectionsOf (tieState [2, 1, 2]) 0 = [(1, 1), (2, 1)] := by decide
  have hc2 : connectionsOf (tieState [1, 1, 2]) 0 = [(1, 1), (2, 1)] := by decide
  have hle : ∀ (l : List Nat), l = [2, 1, 2] ∨ l = [1, 1, 2] →
      ∀ c, connections (tieState l) 0 c ≤ 1 := by
    intro l hl c
    rw [connections_eq_count]
    have hm : ((tieState l).graph.getNeighbors 0).map
        (fun n => (tieState l).communities.getD n 0) = [1, 2] := by
      rcases hl with rfl | rfl <;> decide
    rw [hm]
    exact List.nodup_iff_count_le_one.mp (by decide) c
  rcases perm_pair_cases _ (1, 1) (2, 1) (by decide) (hperm [(1, 1), (2, 1)]) with h | h
  · refine ⟨[2, 1, 2], by decide, hle _ (Or.inl rfl), ?_⟩
    unfold moveStep
    simp only [hc1, h]
    decide
  · refine ⟨[1, 1, 2], by decide, hle _ (Or.inr rfl), ?_⟩
    unfold moveStep
    simp only [hc2, h]
    decide

end Comm4

/-- C16 (refuted as stated). In the sample graph where node 0 has the neighbours 1 and 2,
with labels `[2, 1, 2]` node 0 has one neighbour in its own community 2 and one in
community 1: a tie. With the hash map iterated in insertion order the step nevertheless
moves node 0 to community 1; with the reverse iteration order the same happens for the
labels `[1, 1, 2]`, where node 0 is moved from community 1 to community 2. -/
theorem moveStep_moves_on_tie :
    (Comm4.connections (Comm4.tieState [2, 1, 2]) 0 2 = 1 ∧
     Comm4.connections (Comm4.tieState [2, 1, 2]) 0 1 = 1 ∧
     (Comm4.moveStep id (Comm4.tieState [2, 1, 2]) 0).1.communities = [1, 1, 2]) ∧
    (Comm4.connections (Comm4.tieState [1, 1, 2]) 0 1 = 1 ∧
     Comm4.connections (Comm4.tieState [1, 1, 2]) 0 2 = 1 ∧
     (Comm4.moveStep List.reverse (Comm4.tieState [1, 1, 2]) 0).1.communities = [2, 1, 2]) := by
  decide

namespace Comm4

/-- The scan of lines 105-112 returns the first entry, in iteration order, whose count is
the greatest among the entries that exceed the initial maximum; it returns the initial pair
when no entry exceeds it. -/
theorem scan_first_greatest (es : List (Nat × Nat)) :
    ∀ acc : Nat × Nat,
      ((es.foldl (fun acc entry => if entry.2 > acc.2 then (entry.1, entry.2) else acc) acc
          = acc ∧ ∀ e ∈ es, e.2 ≤ acc.2) ∨
        ∃ (c n : Nat) (pre post : List (Nat × Nat)),
          es = pre ++ (c, n) :: post ∧
          es.foldl (fun acc entry => if entry.2 > acc.2 then (entry.1, entry.2) else acc) acc
            = (c, n) ∧
          acc.2 < n ∧ (∀ e ∈ pre, e.2 < n) ∧ (∀ e ∈ post, e.2 ≤ n)) := by
  induction es with
  | nil =>
    intro acc
    exact Or.inl ⟨rfl, fun e he => by cases he⟩
  | cons e rest ih =>
    intro acc
    simp only [List.foldl_cons]
    by_cases hgt : e.2 > acc.2
    · simp only [hgt, if_true]
      rcases ih (e.1, e.2) with ⟨h1, h2⟩ | ⟨c, n, pre, post, h1, h2, h3, h4, h5⟩
      · right
        refine ⟨e.1, e.2, [], rest, rfl, h1, hgt, (fun x hx => by cases hx), h2⟩
      · right
        refine ⟨c, n, e :: pre, post, by rw [h1]; rfl, h2, ?_, ?_, h5⟩
        · simp only at h3
          omega
        · intro x hx
          rcases List.mem_cons.mp hx with rfl | hx
          · exact h3
          · exact h4 x hx
    · simp only [hgt, if_false]
      rcases ih acc with ⟨h1, h2⟩ | ⟨c, n, pre, post, h1, h2, h3, h4, h5⟩
      · left
        refine ⟨h1, ?_⟩
        intro x hx
        rcases List.mem_cons.mp hx with rfl | hx
        · omega
        · exact h2 x hx
      · right
        refine ⟨c, n, e :: pre, post, by rw [h1]; rfl, h2, h3, ?_, h5⟩
        intro x hx
        rcases List.mem_cons.mp hx with rfl | hx
        · omega
        · exact h4 x hx

theorem set_getD_self (l : List Nat) (v : Nat) : l.set v (l.getD v 0) = l := by
  apply List.ext_getElem
  · simp
  · intro i h1 h2
    by_cases hi : v = i
    · subst hi
      simp [List.getD_eq_getElem?_getD, List.getElem?_eq_getElem h2]
    · simp [List.getElem_set, hi]

end Comm4

/-- C16 (amended). The per-node step of `comm4.cpp`, for every iteration order of the hash
map: a node without neighbours is left alone; otherwise the label of `v` becomes the
community of the first entry, in iteration order, that holds the greatest number of
neighbours of `v` (every earlier entry holds strictly fewer, every later entry at most as
many), whatever the current label of `v` is, and the step reports a move exactly when that
community differs from the current label. The entries are the communities of the
neighbours of `v`, each with its number of neighbours of `v`. -/
theorem moveStep_takes_first_greatest (hashOrder : List (Nat × Nat) → List (Nat × Nat))
    (hperm : ∀ m, (hashOrder m).Perm m) (self : Comm4.LouvainCommunityDetection) (v : Nat) :
    (self.graph.getNeighbors v = [] ∧ Comm4.moveStep hashOrder self v = (self, false)) ∨
    ∃ (c n : Nat) (pre post : List (Nat × Nat)),
      hashOrder (Comm4.connectionsOf self v) = pre ++ (c, n) :: post ∧
      (∀ e ∈ pre, e.2 < n) ∧ (∀ e ∈ post, e.2 ≤ n) ∧
      (∀ e ∈ hashOrder (Comm4.connectionsOf self v),
        e.2 = Comm4.connections self v e.1 ∧ 0 < e.2) ∧
      (∀ nbr ∈ self.graph.getNeighbors v,
        ∃ e ∈ hashOrder (Comm4.connectionsOf self v), e.1 = self.communities.getD nbr 0) ∧
      n = Comm4.connections self v c ∧
      (∀ c2, Comm4.connections self v c2 ≤ n) ∧
      Comm4.moveStep hashOrder self v =
        ({ self with communities := self.communities.set v c },
          decide (c ≠ self.communities.getD v 0)) := by
  obtain ⟨_, he, hk⟩ := Comm4.countsOf_connectionsOf self v
  have hmemiff : ∀ e, e ∈ hashOrder (Comm4.connectionsOf self v) ↔
      e ∈ Comm4.connectionsOf self v := fun e => (hperm _).mem_iff
  have hentries : ∀ e ∈ hashOrder (Comm4.connectionsOf self v),
      e.2 = Comm4.connections self v e.1 ∧ 0 < e.2 := by
    intro e hmem
    obtain ⟨h1, h2⟩ := he e ((hmemiff e).mp hmem)
    rw [Comm4.connections_eq_count]
    exact ⟨h1, h2⟩
  have hlabels : ∀ nbr ∈ self.graph.getNeighbors v,
      ∃ e ∈ hashOrder (Comm4.connectionsOf self v), e.1 = self.communities.getD nbr 0 := by
    intro nbr hnbr
    have hmem : self.communities.getD nbr 0 ∈ (Comm4.connectionsOf self v).map Prod.fst :=
      hk _ (List.mem_map.mpr ⟨nbr, hnbr, rfl⟩)
    obtain ⟨e, hem, hfst⟩ := List.mem_map.mp hmem
    exact ⟨e, (hmemiff e).mpr hem, hfst⟩
  cases hnb : self.graph.getNeighbors v with
  | nil =>
    left
    refine ⟨rfl, ?_⟩
    have hconn : Comm4.connectionsOf self v = [] := by
      unfold Comm4.connectionsOf
      rw [hnb]
      rfl
    have hnil : hashOrder [] = [] := List.perm_nil.mp (hperm [])
    unfold Comm4.moveStep
    simp [hconn, hnil, Comm4.scanBest]
  | cons a rest =>
    right
    obtain ⟨e0, he0, _⟩ := hlabels a (by rw [hnb]; exact List.mem_cons_self _ _)
    rcases Comm4.scan_first_greatest (hashOrder (Comm4.connectionsOf self v))
      (self.communities.getD v 0, 0) with ⟨_, h2⟩ | ⟨c, n, pre, post, h1, h2, _, h4, h5⟩
    · exfalso
      have := h2 e0 he0
      have := (hentries e0 he0).2
      simp only at *
      omega
    · have hcn : (c, n) ∈ hashOrder (Comm4.connectionsOf self v) := by
        rw [h1]
        simp
      have hn : n = Comm4.connections self v c := (hentries _ hcn).1
      refine ⟨c, n, pre, post, h1, h4, h5, hentries, ?_, hn, ?_, ?_⟩
      · rw [← hnb]
        exact hlabels
      · intro c2
        by_cases hc2 : c2 ∈ (self.graph.getNeighbors v).map
            (fun nbr => self.communities.getD nbr 0)
        · obtain ⟨nbr, hnbr, hlab⟩ := List.mem_map.mp hc2
          obtain ⟨e, hem, hfst⟩ := hlabels nbr hnbr
          have hval := (hentries e hem).1
          rw [hfst, hlab] at hval
          rw [← hval]
          rw [h1] at hem
          rcases List.mem_append.mp hem with hp | hp
          · exact Nat.le_of_lt (h4 e hp)
          · rcases List.mem_cons.mp hp with rfl | hp
            · exact le_refl _
            · exact h5 e hp
        · rw [Comm4.connections_eq_count, List.count_eq_zero_of_not_mem hc2]
          exact Nat.zero_le _
      · have hbest : Comm4.scanBest (hashOrder (Comm4.connectionsOf self v))
            (self.communities.getD v 0) = (c, n) := h2
        unfold Comm4.moveStep
        simp only [hbest]
        by_cases hc : c = self.communities.getD v 0
        · simp only [hc, ne_eq, not_true_eq_false, if_false, decide_False]
          rw [Comm4.set_getD_self]
        · simp only [hc, ne_eq, not_false_eq_true, if_true, decide_True]

/-- Witness for C16 (amended): node 0 of the sample graph with labels `[2, 1, 2]`. -/
theorem moveStep_takes_first_greatest_witness :
    (∀ m : List (Nat × Nat), (id m).Perm m) ∧
    (((Comm4.tieState [2, 1, 2]).graph.getNeighbors 0 = [] ∧
        Comm4.moveStep id (Comm4.tieState [2, 1, 2]) 0 = (Comm4.tieState [2, 1, 2], false)) ∨
      ∃ (c n : Nat) (pre post : List (Nat × Nat)),
        id (Comm4.connectionsOf (Comm4.tieState [2, 1, 2]) 0) = pre ++ (c, n) :: post ∧
        (∀ e ∈ pre, e.2 < n) ∧ (∀ e ∈ post, e.2 ≤ n) ∧
        (∀ e ∈ id (Comm4.connectionsOf (Comm4.tieState [2, 1, 2]) 0),
          e.2 = Comm4.connections (Comm4.tieState [2, 1, 2]) 0 e.1 ∧ 0 < e.2) ∧
        (∀ nbr ∈ (Comm4.tieState [2, 1, 2]).graph.getNeighbors 0,
          ∃ e ∈ id (Comm4.connectionsOf (Comm4.tieState [2, 1, 2]) 0),
            e.1 = (Comm4.tieState [2, 1, 2]).communities.getD nbr 0) ∧
        n = Comm4.connections (Comm4.tieState [2, 1, 2]) 0 c ∧
        (∀ c2, Comm4.connections (Comm4.tieState [2, 1, 2]) 0 c2 ≤ n) ∧
        Comm4.moveStep id (Comm4.tieState [2, 1, 2]) 0 =
          ({ Comm4.tieState [2, 1, 2] with
              communities := (Comm4.tieState [2, 1, 2]).communities.set 0 c },
            decide (c ≠ (Comm4.tieState [2, 1, 2]).communities.getD 0 0))) :=
  ⟨fun m => List.Perm.refl m,
   moveStep_takes_first_greatest id (fun m => List.Perm.refl m) (Comm4.tieState [2, 1, 2]) 0⟩

namespace Comm4

theorem moveStep_graph (hashOrder : List (Nat × Nat) → List (Nat × Nat))
    (self : LouvainCommunityDetection) (v : Nat) :
    (moveStep hashOrder self v).1.graph = self.graph := by
  unfold moveStep
  simp only []
  split <;> rfl

theorem moveStep_length (hashOrder : List (Nat × Nat) → List (Nat × Nat))
    (self : LouvainCommunityDetection) (v : Nat) :
    (moveStep hashOrder self v).1.communities.length = self.communities.length := by
  unfold moveStep
  simp only []
  split
  · simp
  · rfl

theorem moveStep_unchanged (hashOrder : List (Nat × Nat) → List (Nat × Nat))
    (self : LouvainCommunityDetection) (v : Nat) (h : (moveStep hashOrder self v).2 = false) :
    (moveStep hashOrder self v).1 = self := by
  by_cases hc : (scanBest (hashOrder (connectionsOf self v)) (self.communities.getD v 0)).1 =
      self.communities.getD v 0
  · simp only [moveStep, hc, ne_eq, not_true_eq_false, if_false]
  · simp only [moveStep, hc, ne_eq, not_false_eq_true, if_true] at h
    exact absurd h (by decide)

theorem localMovePass_foldl (hashOrder : List (Nat × Nat) → List (Nat × Nat))
    (nodes : List Nat) :
    ∀ acc : LouvainCommunityDetection × Bool,
      (nodes.foldl (fun acc v =>
          ((moveStep hashOrder acc.1 v).1, acc.2 || (moveStep hashOrder acc.1 v).2)) acc).1.graph
        = acc.1.graph ∧
      (nodes.foldl (fun acc v =>
          ((moveStep hashOrder acc.1 v).1, acc.2 || (moveStep hashOrder acc.1 v).2))
          acc).1.communities.length = acc.1.communities.length ∧
      ((nodes.foldl (fun acc v =>
          ((moveStep hashOrder acc.1 v).1, acc.2 || (moveStep hashOrder acc.1 v).2)) acc).2
          = false →
        (nodes.foldl (fun acc v =>
          ((moveStep hashOrder acc.1 v).1, acc.2 || (moveStep hashOrder acc.1 v).2)) acc).1
          = acc.1) := by
  induction nodes with
  | nil =>
    intro acc
    exact ⟨rfl, rfl, fun _ => rfl⟩
  | cons v rest ih =>
    intro acc
    simp only [List.foldl_cons]
    obtain ⟨h1, h2, h3⟩ :=
      ih ((moveStep hashOrder acc.1 v).1, acc.2 || (moveStep hashOrder acc.1 v).2)
    refine ⟨by rw [h1, moveStep_graph], by rw [h2, moveStep_length], ?_⟩
    intro hf
    have hflag : (acc.2 || (moveStep hashOrder acc.1 v).2) = false := by
      by_contra hc
      have ht : (acc.2 || (moveStep hashOrder acc.1 v).2) = true := by
        cases hb : (acc.2 || (moveStep hashOrder acc.1 v).2) with
        | true => rfl
        | false => exact absurd hb hc
      clear h1 h2 h3
      have hmono : ∀ (l : List Nat) (a : LouvainCommunityDetection × Bool), a.2 = true →
          (l.foldl (fun acc v =>
            ((moveStep hashOrder acc.1 v).1, acc.2 || (moveStep hashOrder acc.1 v).2)) a).2
            = true := by
        intro l
        induction l with
        | nil => intro a ha; exact ha
        | cons x xs ihx =>
          intro a ha
          simp only [List.foldl_cons]
          exact ihx _ (by simp [ha])
      have := hmono rest ((moveStep hashOrder acc.1 v).1,
        acc.2 || (moveStep hashOrder acc.1 v).2) ht
      rw [this] at hf
      exact absurd hf (by decide)
    have hstep : (moveStep hashOrder acc.1 v).2 = false := by
      cases hb : (moveStep hashOrder acc.1 v).2 with
      | false => rfl
      | true => simp [hb] at hflag
    rw [h3 hf]
    exact moveStep_unchanged hashOrder acc.1 v hstep

theorem localMovePass_graph (hashOrder : List (Nat × Nat) → List (Nat × Nat))
    (self : LouvainCommunityDetection) (nodes : List Nat) :
    (localMovePass hashOrder self nodes).1.graph = self.graph :=
  (localMovePass_foldl hashOrder nodes (self, false)).1

theorem localMovePass_length (hashOrder : List (Nat × Nat) → List (Nat × Nat))
    (self : LouvainCommunityDetection) (nodes : List Nat) :
    (localMovePass hashOrder self nodes).1.communities.length = self.communities.length :=
  (localMovePass_foldl hashOrder nodes (self, false)).2.1

theorem localMovePass_unchanged (hashOrder : List (Nat × Nat) → List (Nat × Nat))
    (self : LouvainCommunityDetection) (nodes : List Nat)
    (h : (localMovePass hashOrder self nodes).2 = false) :
    (localMovePass hashOrder self nodes).1 = self :=
  (localMovePass_foldl hashOrder nodes (self, false)).2.2 h

theorem markSeen_foldl (l : List Nat) :
    ∀ seen : List Nat, seen.Nodup →
      (l.foldl markSeen seen).Nodup ∧
      (∀ x, x ∈ l.foldl markSeen seen ↔ x ∈ seen ∨ x ∈ l) := by
  induction l with
  | nil =>
    intro seen h
    exact ⟨h, by simp⟩
  | cons a rest ih =>
    intro seen h
    simp only [List.foldl_cons]
    have hn : (markSeen seen a).Nodup := by
      unfold markSeen
      split
      · exact h
      · rename_i ha
        rw [List.nodup_append]
        exact ⟨h, List.nodup_singleton a, by
          intro x hx hy
          simp only [List.mem_singleton] at hy
          exact ha (hy ▸ hx)⟩
    have hm : ∀ x, x ∈ markSeen seen a ↔ x ∈ seen ∨ x = a := by
      intro x
      unfold markSeen
      split
      · rename_i ha
        constructor
        · exact Or.inl
        · rintro (h1 | h1)
          · exact h1
          · rw [h1]; exact ha
      · simp
    obtain ⟨h1, h2⟩ := ih (markSeen seen a) hn
    refine ⟨h1, ?_⟩
    intro x
    rw [h2, hm, List.mem_cons]
    tauto

/-- The value of `countCommunities` is the number of distinct labels. -/
theorem countCommunities_eq_card (self : LouvainCommunityDetection) :
    self.countCommunities = self.communities.toFinset.card := by
  unfold LouvainCommunityDetection.countCommunities
  obtain ⟨h1, h2⟩ := markSeen_foldl self.communities [] List.nodup_nil
  rw [← List.toFinset_card_of_nodup h1]
  congr 1
  ext x
  simp [h2]

theorem countCommunities_le (self : LouvainCommunityDetection) :
    self.countCommunities ≤ self.communities.length := by
  rw [countCommunities_eq_card]
  exact List.toFinset_card_le _

theorem countCommunities_pos (self : LouvainCommunityDetection)
    (h : 0 < self.communities.length) : 0 < self.countCommunities := by
  rw [countCommunities_eq_card, Finset.card_pos]
  cases hc : self.communities with
  | nil => simp [hc] at h
  | cons a rest => exact ⟨a, by simp⟩

theorem countCommunities_of_nodup (self : LouvainCommunityDetection)
    (h : self.communities.Nodup) : self.countCommunities = self.communities.length := by
  rw [countCommunities_eq_card, List.toFinset_card_of_nodup h]

end Comm4

namespace Comm4

theorem getD_set_self (l : List Nat) (i x : Nat) (h : i < l.length) :
    (l.set i x).getD i 0 = x := by
  simp [List.getD_eq_getElem?_getD, List.getElem?_set, h]

theorem getD_set_ne (l : List Nat) (i j x : Nat) (h : i ≠ j) :
    (l.set i x).getD j 0 = l.getD j 0 := by
  simp [List.getD_eq_getElem?_getD, List.getElem?_set, h]

theorem passLoop_recorded (hashOrder : List (Nat × Nat) → List (Nat × Nat))
    (shuffle : Nat → List Nat → List Nat) (n : Nat) (hn : 0 < n) :
    ∀ (remaining k : Nat) (st : PassLoopResult), Recorded n k st →
      k + remaining = maxIterations + 1 →
      Recorded n (passLoop hashOrder shuffle remaining k st).passes
        (passLoop hashOrder shuffle remaining k st) ∧
      (passLoop hashOrder shuffle remaining k st).passes ≤ maxIterations + 1 ∧
      (0 < remaining → k + 1 ≤ (passLoop hashOrder shuffle remaining k st).passes) := by
  intro remaining
  induction remaining with
  | zero =>
    intro k st h hk
    simp only [passLoop]
    refine ⟨by rw [h.passes_eq]; exact h, by rw [h.passes_eq]; omega, by omega⟩
  | succ r ih =>
    intro k st h hk
    obtain ⟨s0, cc0, p0⟩ := st
    have hp : p0 = k := h.passes_eq
    subst hp
    generalize hst : ({ self := s0, communityCount := cc0, passes := p0 } : PassLoopResult) = st
      at h ⊢
    have hpe : st.passes = p0 := by rw [← hst]
    have hrec : Recorded n (p0 + 1)
        { self := (localMovePass hashOrder st.self
            (shuffle p0 (List.range st.self.graph.getNumNodes))).1
          communityCount := st.communityCount.set p0
            (localMovePass hashOrder st.self
              (shuffle p0 (List.range st.self.graph.getNumNodes))).1.countCommunities
          passes := st.passes + 1 } := by
      have hlen : (localMovePass hashOrder st.self
          (shuffle p0 (List.range st.self.graph.getNumNodes))).1.communities.length = n := by
        rw [localMovePass_length, h.comm_len]
      refine
        { passes_eq := by simp [hpe], len := by simp [h.len], counted := ?_, untouched := ?_,
          comm_len := hlen }
      · intro j hj
        by_cases hjk : j = p0
        · subst hjk
          simp only []
          rw [getD_set_self _ _ _ (by rw [h.len]; omega)]
          exact ⟨countCommunities_pos _ (by omega), by
            have := countCommunities_le (localMovePass hashOrder st.self
              (shuffle j (List.range st.self.graph.getNumNodes))).1
            omega⟩
        · simp only []
          rw [getD_set_ne _ _ _ _ (Ne.symm hjk)]
          exact h.counted j (by omega)
      · intro j hj
        simp only []
        rw [getD_set_ne _ _ _ _ (by omega)]
        exact h.untouched j (by omega)
    rw [passLoop]
    split
    · refine ⟨by simpa [hpe] using hrec, ?_, ?_⟩
      · simp only [hpe]
        omega
      · intro _
        simp only [hpe]
        omega
    · obtain ⟨h1, h2, _⟩ := ih (p0 + 1) _ hrec (by omega)
      refine ⟨h1, h2, ?_⟩
      intro _
      have hmono : ∀ (rem k2 : Nat) (s : PassLoopResult),
          s.passes ≤ (passLoop hashOrder shuffle rem k2 s).passes := by
        intro rem
        induction rem with
        | zero => intro k2 s; simp [passLoop]
        | succ r2 ih2 =>
          intro k2 s
          rw [passLoop]
          split
          · simp
          · exact le_trans (by simp) (ih2 (k2 + 1) _)
      have := hmono r (p0 + 1)
        { self := (localMovePass hashOrder st.self
            (shuffle p0 (List.range st.self.graph.getNumNodes))).1
          communityCount := st.communityCount.set p0
            (localMovePass hashOrder st.self
              (shuffle p0 (List.range st.self.graph.getNumNodes))).1.countCommunities
          passes := st.passes + 1 }
      simp only [hpe] at this ⊢
      omega

/-- The selection loop after the first `k` indices, for a vector whose first `P` slots hold
recorded counts in `1 .. n` and whose other slots are 0: the accumulator holds the least
recorded count among the first `min k P` slots and the first index holding it. -/
theorem select_foldl (cc : List Nat) (n P : Nat) (hP : 1 ≤ P)
    (hrec : ∀ j < P, 1 ≤ cc.getD j 0 ∧ cc.getD j 0 ≤ n)
    (hrest : ∀ j, P ≤ j → cc.getD j 0 = 0) :
    ∀ k, 1 ≤ k →
      ((List.range k).foldl (fun acc i =>
          if cc.getD i 0 < acc.2 ∧ cc.getD i 0 > 0 then (i, cc.getD i 0) else acc)
          (0, n)).1 < min k P ∧
      cc.getD ((List.range k).foldl (fun acc i =>
          if cc.getD i 0 < acc.2 ∧ cc.getD i 0 > 0 then (i, cc.getD i 0) else acc)
          (0, n)).1 0 =
        ((List.range k).foldl (fun acc i =>
          if cc.getD i 0 < acc.2 ∧ cc.getD i 0 > 0 then (i, cc.getD i 0) else acc)
          (0, n)).2 ∧
      (∀ j < min k P, ((List.range k).foldl (fun acc i =>
          if cc.getD i 0 < acc.2 ∧ cc.getD i 0 > 0 then (i, cc.getD i 0) else acc)
          (0, n)).2 ≤ cc.getD j 0) ∧
      (∀ j < ((List.range k).foldl (fun acc i =>
          if cc.getD i 0 < acc.2 ∧ cc.getD i 0 > 0 then (i, cc.getD i 0) else acc)
          (0, n)).1,
        ((List.range k).foldl (fun acc i =>
          if cc.getD i 0 < acc.2 ∧ cc.getD i 0 > 0 then (i, cc.getD i 0) else acc)
          (0, n)).2 < cc.getD j 0) := by
  intro k hk
  induction k with
  | zero => omega
  | succ k ih =>
    rw [List.range_succ, List.foldl_append]
    simp only [List.foldl_cons, List.foldl_nil]
    by_cases hk0 : k = 0
    · subst hk0
      simp only [List.range_zero, List.foldl_nil]
      have h0 := hrec 0 (by omega)
      by_cases hlt : cc.getD 0 0 < n
      · have hc : cc.getD 0 0 < n ∧ cc.getD 0 0 > 0 := ⟨hlt, by omega⟩
        simp only [hc, and_self, if_true]
        refine ⟨by omega, trivial, ?_, by omega⟩
        intro j hj
        have : j = 0 := by omega
        subst this
        omega
      · have hc : ¬ (cc.getD 0 0 < n ∧ cc.getD 0 0 > 0) := fun h => hlt h.1
        simp only [hc, if_false]
        refine ⟨by omega, by omega, ?_, by omega⟩
        intro j hj
        have : j = 0 := by omega
        subst this
        omega
    · obtain ⟨i1, i2, i3, i4⟩ := ih (by omega)
      generalize (List.range k).foldl (fun acc i =>
          if cc.getD i 0 < acc.2 ∧ cc.getD i 0 > 0 then (i, cc.getD i 0) else acc)
          (0, n) = acc at i1 i2 i3 i4 ⊢
      by_cases hkP : k < P
      · have hx := hrec k hkP
        by_cases hlt : cc.getD k 0 < acc.2
        · have hc : cc.getD k 0 < acc.2 ∧ cc.getD k 0 > 0 := ⟨hlt, by omega⟩
          simp only [hc, and_self, if_true]
          refine ⟨by omega, trivial, ?_, ?_⟩
          · intro j hj
            by_cases hjk : j = k
            · subst hjk; omega
            · have := i3 j (by omega)
              omega
          · intro j hj
            have := i3 j (by omega)
            omega
        · have hc : ¬ (cc.getD k 0 < acc.2 ∧ cc.getD k 0 > 0) := fun h => hlt h.1
          simp only [hc, if_false]
          refine ⟨by omega, i2, ?_, i4⟩
          intro j hj
          by_cases hjk : j = k
          · subst hjk; omega
          · exact i3 j (by omega)
      · have hx := hrest k (by omega)
        have hc : ¬ (cc.getD k 0 < acc.2 ∧ cc.getD k 0 > 0) := by
          rw [hx]
          omega
        simp only [hc, if_false]
        refine ⟨by omega, i2, ?_, i4⟩
        intro j hj
        exact i3 j (by omega)

end Comm4

/-- C14. Result of the bounded policy: for a graph with at least one node loaded by
`loadGraph`, every iteration order of the hash map and every sequence of shuffles,
`detectCommunities` of `comm4.cpp` returns the pair `(i, c)` in which `c` is the least of the
community counts recorded after the passes actually executed and `i` is the smallest pass
index at which that count was recorded; when the first pass makes no move the result
is `(0, numNodes)`. -/
theorem detectCommunities_bounded_result
    (hashOrder : List (Nat × Nat) → List (Nat × Nat)) (shuffle : Nat → List Nat → List Nat)
    (edges : List (Nat × Nat)) (hnodes : 0 < (Comm4.loadGraph edges).graph.getNumNodes) :
    1 ≤ (Comm4.runPasses hashOrder shuffle (Comm4.loadGraph edges)).passes ∧
    (Comm4.detectCommunities hashOrder shuffle (Comm4.loadGraph edges)).1.1 <
      (Comm4.runPasses hashOrder shuffle (Comm4.loadGraph edges)).passes ∧
    (Comm4.runPasses hashOrder shuffle (Comm4.loadGraph edges)).communityCount.getD
        (Comm4.detectCommunities hashOrder shuffle (Comm4.loadGraph edges)).1.1 0 =
      (Comm4.detectCommunities hashOrder shuffle (Comm4.loadGraph edges)).1.2 ∧
    (∀ j < (Comm4.runPasses hashOrder shuffle (Comm4.loadGraph edges)).passes,
      (Comm4.detectCommunities hashOrder shuffle (Comm4.loadGraph edges)).1.2 ≤
        (Comm4.runPasses hashOrder shuffle (Comm4.loadGraph edges)).communityCount.getD j 0) ∧
    (∀ j < (Comm4.detectCommunities hashOrder shuffle (Comm4.loadGraph edges)).1.1,
      (Comm4.detectCommunities hashOrder shuffle (Comm4.loadGraph edges)).1.2 <
        (Comm4.runPasses hashOrder shuffle (Comm4.loadGraph edges)).communityCount.getD j 0) ∧
    ((Comm4.localMovePass hashOrder (Comm4.loadGraph edges)
        (shuffle 0 (List.range (Comm4.loadGraph edges).graph.getNumNodes))).2 = false →
      (Comm4.detectCommunities hashOrder shuffle (Comm4.loadGraph edges)).1 =
        (0, (Comm4.loadGraph edges).graph.getNumNodes)) := by
  have hlen : (Comm4.loadGraph edges).communities.length =
      (Comm4.loadGraph edges).graph.getNumNodes := by
    simp [Comm4.loadGraph]
  have hinit : Comm4.Recorded (Comm4.loadGraph edges).graph.getNumNodes 0
      { self := Comm4.loadGraph edges,
        communityCount := List.replicate (Comm4.maxIterations + 1) 0, passes := 0 } :=
    { passes_eq := rfl, len := by simp, counted := by intro j hj; omega,
      untouched := by
        intro j _
        simp [List.getD_eq_getElem?_getD, List.getElem?_replicate]
        split <;> simp,
      comm_len := hlen }
  obtain ⟨hrec, hle, hpos⟩ := Comm4.passLoop_recorded hashOrder shuffle
    (Comm4.loadGraph edges).graph.getNumNodes hnodes (Comm4.maxIterations + 1) 0 _ hinit
    (by omega)
  have hP : 1 ≤ (Comm4.runPasses hashOrder shuffle (Comm4.loadGraph edges)).passes :=
    hpos (by simp [Comm4.maxIterations])
  have hsel := Comm4.select_foldl
    (Comm4.runPasses hashOrder shuffle (Comm4.loadGraph edges)).communityCount
    (Comm4.loadGraph edges).graph.getNumNodes
    (Comm4.runPasses hashOrder shuffle (Comm4.loadGraph edges)).passes hP hrec.counted hrec.untouched
    (Comm4.maxIterations + 1) (by omega)
  have hmin : min (Comm4.maxIterations + 1)
      (Comm4.runPasses hashOrder shuffle (Comm4.loadGraph edges)).passes =
      (Comm4.runPasses hashOrder shuffle (Comm4.loadGraph edges)).passes :=
    Nat.min_eq_right hle
  rw [hmin] at hsel
  obtain ⟨s1, s2, s3, s4⟩ := hsel
  refine ⟨hP, s1, s2, s3, s4, ?_⟩
  intro hflag
  have hun := Comm4.localMovePass_unchanged hashOrder _ _ hflag
  have hrun : Comm4.runPasses hashOrder shuffle (Comm4.loadGraph edges) =
      { self := Comm4.loadGraph edges,
        communityCount := (List.replicate (Comm4.maxIterations + 1) 0).set 0
          (Comm4.loadGraph edges).countCommunities,
        passes := 1 } := by
    unfold Comm4.runPasses
    rw [Comm4.passLoop]
    simp only [hflag, hun, Bool.not_false, if_true]
  have hcount : (Comm4.loadGraph edges).countCommunities =
      (Comm4.loadGraph edges).graph.getNumNodes := by
    rw [Comm4.countCommunities_of_nodup _ (by simp [Comm4.loadGraph, List.nodup_range]), hlen]
  have hp1 : (Comm4.runPasses hashOrder shuffle (Comm4.loadGraph edges)).passes = 1 := by
    rw [hrun]
  have s1b : (Comm4.detectCommunities hashOrder shuffle (Comm4.loadGraph edges)).1.1 <
      (Comm4.runPasses hashOrder shuffle (Comm4.loadGraph edges)).passes := s1
  rw [hp1] at s1b
  have hi0 : (Comm4.detectCommunities hashOrder shuffle (Comm4.loadGraph edges)).1.1 = 0 := by
    omega
  have s2b : (Comm4.runPasses hashOrder shuffle (Comm4.loadGraph edges)).communityCount.getD
      (Comm4.detectCommunities hashOrder shuffle (Comm4.loadGraph edges)).1.1 0 =
      (Comm4.detectCommunities hashOrder shuffle (Comm4.loadGraph edges)).1.2 := s2
  apply Prod.ext
  · exact hi0
  · rw [← s2b, hi0, hrun]
    simp only []
    rw [Comm4.getD_set_self _ _ _ (by simp), hcount]

/-- Witness for C14: the two-triangle graph, insertion-order iteration, identity shuffles. -/
theorem detectCommunities_bounded_result_witness :
    0 < (Comm4.loadGraph [(0, 1), (1, 2), (2, 0), (3, 4), (4, 5), (5, 3)]).graph.getNumNodes ∧
    (Comm4.detectCommunities id (fun _ nodes => nodes)
        (Comm4.loadGraph [(0, 1), (1, 2), (2, 0), (3, 4), (4, 5), (5, 3)])).1 = (0, 2) ∧
    1 ≤ (Comm4.runPasses id (fun _ nodes => nodes)
      (Comm4.loadGraph [(0, 1), (1, 2), (2, 0), (3, 4), (4, 5), (5, 3)])).passes :=
  ⟨by decide, by decide!,
   (detectCommunities_bounded_result id (fun _ nodes => nodes)
     [(0, 1), (1, 2), (2, 0), (3, 4), (4, 5), (5, 3)] (by decide)).1⟩

namespace Mess2

theorem vecUpdate_getElem?_ne {α : Type} (l : List α) (i j : Nat) (f : α → α) (h : j ≠ i) :
    (vecUpdate l i f)[j]? = l[j]? := by
  induction l generalizing i j with
  | nil => simp [vecUpdate]
  | cons x xs ih =>
    cases i with
    | zero =>
      cases j with
      | zero => exact absurd rfl h
      | succ j2 => simp [vecUpdate]
    | succ i2 =>
      cases j with
      | zero => simp [vecUpdate]
      | succ j2 =>
        simp only [vecUpdate, List.getElem?_cons_succ]
        exact ih i2 j2 (by omega)

theorem iterate_recordShare_getElem?_ne (id j : Nat) (h : j ≠ id) (k : Nat)
    (ms : List Message) : ((recordShare id)^[k] ms)[j]? = ms[j]? := by
  induction k with
  | zero => simp
  | succ n ih =>
    have hrs : ∀ l : List Message, (recordShare id l)[j]? = l[j]? :=
      fun l => vecUpdate_getElem?_ne l id j _ h
    rw [Function.iterate_succ_apply', hrs, ih]

theorem shareWithNeighbor_rng (shares : Nat → Bool) (m : Message) (st : PropagationState)
    (n : Int) :
    (shareWithNeighbor shares m st n).self.rng =
      if n ∈ st.affectedNodes then st.self.rng else st.self.rng + 1 := by
  by_cases h : n ∈ st.affectedNodes
  · simp [shareWithNeighbor, h]
  · by_cases hd : shares st.self.rng = true <;>
      simp [shareWithNeighbor, shouldShareMessage, h, hd]

end Mess2

/-- C20. Propagation accounting for arbitrary randomness: for every graph, every registered
message, every start node and every sequence of share decisions, `propagateMessage` returns
(for every fuel from `2 * |adjacency entries| + 1` on); the returned set contains the start
node and only nodes reachable from it, without repetition; a share decision is drawn exactly
for the neighbours that are not yet in the affected set; the share count of the message
increases by exactly `|affectedNodes| - 1`, and no other entry of the registry changes. The
start node is `startNode`, or the source node of the message when `startNode` is the default
argument `-1`. -/
theorem propagateMessage_accounting (shares : Nat → Bool)
    (self : Mess2.LouvainCommunityDetection) (message : Mess2.Message)
    (hreg : message.getId < self.messages.length) (startNode : Int) :
    ∃ (affected : List Int) (self2 : Mess2.LouvainCommunityDetection),
      (∀ fuel, 2 * self.graph.allNeighbors.length + 1 ≤ fuel →
        Mess2.propagateMessage shares self message startNode fuel =
          some (affected, self2)) ∧
      (if startNode = -1 then message.getSourceNode else startNode) ∈ affected ∧
      (∀ v ∈ affected,
        self.graph.Reach (if startNode = -1 then message.getSourceNode else startNode) v) ∧
      affected.Nodup ∧
      (∀ (st : Mess2.PropagationState) (neighbor : Int),
        (Mess2.shareWithNeighbor shares message st neighbor).self.rng =
          if neighbor ∈ st.affectedNodes then st.self.rng else st.self.rng + 1) ∧
      (∃ m0 m1 : Mess2.Message,
        self.messages[message.getId]? = some m0 ∧
        self2.messages[message.getId]? = some m1 ∧
        m1.getShareCount = m0.getShareCount + (affected.length - 1)) ∧
      (∀ j, j ≠ message.getId → self2.messages[j]? = self.messages[j]?) := by
  generalize hs : (if startNode = -1 then message.getSourceNode else startNode) = start
  have hinit := Mess2.propInv_init self message.getId start
  have hm : Mess2.bfsMeasure self.graph.allNeighbors (Mess2.setInsert [] start) [start] ≤
      2 * self.graph.allNeighbors.length + 1 := by
    have hv : Mess2.setInsert [] start = [start] := by simp [Mess2.setInsert]
    rw [hv]
    exact Mess2.bfsMeasure_start _ _
  obtain ⟨st2, hrun, hinv, _⟩ :=
    Mess2.propagateLoop_induct shares message
      (fun st => Mess2.PropInv self.graph self.messages message.getId start st)
      (fun st => Mess2.bfsMeasure self.graph.allNeighbors st.affectedNodes st.nodesToProcess)
      (fun st cur rest hP hq =>
        ⟨(Mess2.propagateIteration_inv shares message _ _ start st cur rest hP hq).1,
         (Mess2.propagateIteration_inv shares message _ _ start st cur rest hP hq).2.1⟩)
      _ _ hinit hm
  have h0 : self.messages[message.getId]? = some (self.messages[message.getId]) :=
    List.getElem?_eq_getElem hreg
  refine ⟨st2.affectedNodes, st2.self, ?_, hinv.start_aff, hinv.aff_reach, hinv.aff_nodup,
    Mess2.shareWithNeighbor_rng shares message, ?_, ?_⟩
  · intro fuel hf
    unfold Mess2.propagateMessage
    simp only [hs]
    rw [Mess2.propagateLoop_mono shares message _ _ _ hrun fuel hf]
    rfl
  · refine ⟨self.messages[message.getId],
      Mess2.Message.incrementShareCount^[st2.affectedNodes.length - 1]
        (self.messages[message.getId]), h0, ?_, ?_⟩
    · rw [hinv.msgs, Mess2.iterate_recordShare_getElem?, h0]
      rfl
    · unfold Mess2.Message.getShareCount
      exact Mess2.iterate_increment_shareCount _ _
  · intro j hj
    rw [hinv.msgs]
    exact Mess2.iterate_recordShare_getElem?_ne _ j hj _ _

/-- Witness for C20: the first sample message, started at node 3 of the sample graph, with
share decisions alternating between true and false. -/
theorem propagateMessage_accounting_witness :
    (Mess2.Message.new 0 "This is a normal message." 1).getId <
      Mess2.sampleNetwork.messages.length ∧
    Mess2.propagateMessage (fun i => i % 2 == 0) Mess2.sampleNetwork
        (Mess2.Message.new 0 "This is a normal message." 1) 3 25 ≠ none ∧
    ∃ (affected : List Int) (self2 : Mess2.LouvainCommunityDetection),
      (∀ fuel, 2 * Mess2.sampleNetwork.graph.allNeighbors.length + 1 ≤ fuel →
        Mess2.propagateMessage (fun i => i % 2 == 0) Mess2.sampleNetwork
            (Mess2.Message.new 0 "This is a normal message." 1) 3 fuel =
          some (affected, self2)) ∧
      (∃ m0 m1 : Mess2.Message,
        Mess2.sampleNetwork.messages[
          (Mess2.Message.new 0 "This is a normal message." 1).getId]? = some m0 ∧
        self2.messages[(Mess2.Message.new 0 "This is a normal message." 1).getId]? = some m1 ∧
        m1.getShareCount = m0.getShareCount + (affected.length - 1)) := by
  obtain ⟨affected, self2, h1, _, _, _, _, h6, _⟩ :=
    propagateMessage_accounting (fun i => i % 2 == 0) Mess2.sampleNetwork
      (Mess2.Message.new 0 "This is a normal message." 1) (by decide) 3
  exact ⟨by decide, by decide, affected, self2, h1, h6⟩

namespace Mess2

theorem sameReads_refl (g : Graph) : SameReads g g :=
  ⟨fun _ => rfl, fun _ => rfl, rfl, fun _ => Iff.rfl⟩

theorem sameReads_trans {g1 g2 g3 : Graph} (h12 : SameReads g1 g2) (h23 : SameReads g2 g3) :
    SameReads g1 g3 :=
  ⟨fun n => (h23.nbrs n).trans (h12.nbrs n), fun n => (h23.degs n).trans (h12.degs n),
   h23.total.trans h12.total, fun n => (h23.nodes n).trans (h12.nodes n)⟩

theorem sameReads_getNeighbors (g : Graph) (node : Int) (h : node ∈ g.getNodes) :
    SameReads g (g.getNeighbors node).2 := by
  refine ⟨fun n => Graph.neighborsOf_getNeighbors g node n, fun _ => rfl, rfl, ?_⟩
  intro n
  unfold Graph.getNeighbors Graph.getNodes
  simp only [UMap.mem_keys_update]
  constructor
  · rintro (h1 | h1)
    · exact h1
    · rw [h1]; exact h
  · exact Or.inl

theorem sameReads_getDegree (g : Graph) (node : Int) :
    SameReads g (g.getDegree node).2 := by
  refine ⟨fun _ => rfl, ?_, rfl, fun _ => Iff.rfl⟩
  intro n
  unfold Graph.getDegree
  simp only [UMap.get_update]
  split
  · rename_i h
    simp [h]
  · rfl

theorem bestCommunityOf_congr (hashOrder : UMap Nat → UMap Nat)
    (s s2 : LouvainCommunityDetection) (hc : s2.communities = s.communities)
    (hg : SameReads s.graph s2.graph) (node : Int) :
    bestCommunityOf hashOrder s2 node = bestCommunityOf hashOrder s node := by
  unfold bestCommunityOf
  rw [hc, hg.nbrs, hg.degs, hg.total]

theorem moveNode_communities (hashOrder : UMap Nat → UMap Nat)
    (self : LouvainCommunityDetection) (node : Int) :
    (moveNode hashOrder self node).communities =
      if bestCommunityOf hashOrder self node ≠ readCommunity self.communities node then
        writeCommunity self.communities node (bestCommunityOf hashOrder self node)
      else self.communities := by
  unfold moveNode bestCommunityOf
  simp only []
  split
  · rename_i h
    exact (if_pos h).symm
  · rename_i h
    exact (if_neg h).symm

theorem moveNode_graph (hashOrder : UMap Nat → UMap Nat)
    (self : LouvainCommunityDetection) (node : Int) (h : node ∈ self.graph.getNodes) :
    SameReads self.graph (moveNode hashOrder self node).graph := by
  have h1 := sameReads_getNeighbors self.graph node h
  have h2 := sameReads_getDegree (self.graph.getNeighbors node).2 node
  have hg : (moveNode hashOrder self node).graph = (self.graph.getNeighbors node).2 ∨
      (moveNode hashOrder self node).graph =
        ((self.graph.getNeighbors node).2.getDegree node).2 := by
    unfold moveNode
    simp only []
    split <;> split <;> simp
  rcases hg with hg | hg
  · rw [hg]; exact h1
  · rw [hg]; exact sameReads_trans h1 h2

theorem writeCommunity_length (communities : List Int) (i x : Int) :
    (writeCommunity communities i x).length = communities.length := by
  unfold writeCommunity
  split <;> simp

theorem readCommunity_write_self (communities : List Int) (i x : Int)
    (h : InBounds communities i) : readCommunity (writeCommunity communities i x) i = x := by
  obtain ⟨h0, h1⟩ := h
  unfold readCommunity writeCommunity
  simp [h0, List.getD_eq_getElem?_getD, List.getElem?_set, h1]

theorem moveNode_length (hashOrder : UMap Nat → UMap Nat)
    (self : LouvainCommunityDetection) (node : Int) :
    (moveNode hashOrder self node).communities.length = self.communities.length := by
  rw [moveNode_communities]
  split
  · exact writeCommunity_length _ _ _
  · rfl

/-- A node without stored neighbours is never moved. -/
theorem bestCommunityOf_of_no_neighbors (hashOrder : UMap Nat → UMap Nat)
    (hperm : ∀ m, (hashOrder m).Perm m) (self : LouvainCommunityDetection) (node : Int)
    (h : self.graph.neighborsOf node = []) :
    bestCommunityOf hashOrder self node = readCommunity self.communities node := by
  unfold bestCommunityOf
  rw [h]
  have : hashOrder (communityGainsOf self.communities []) = [] := by
    have hp := hperm (communityGainsOf self.communities [])
    simpa [communityGainsOf] using hp
  rw [this]
  rfl

theorem neighborsOf_of_not_mem (g : Graph) (node : Int) (h : node ∉ g.getNodes) :
    g.neighborsOf node = [] := by
  unfold Graph.neighborsOf
  unfold Graph.getNodes UMap.keys at h
  generalize g.adjacencyList = m at h
  induction m with
  | nil => rfl
  | cons a rest ih =>
    obtain ⟨k, v⟩ := a
    have h2 : ¬ k = node ∧ node ∉ rest.map Prod.fst := by
      constructor
      · intro hc
        apply h
        simp [hc]
      · intro hc
        apply h
        simp only [List.map_cons, List.mem_cons]
        exact Or.inr hc
    simp only [UMap.get, h2.1, if_false]
    exact ih h2.2

end Mess2

namespace Mess2

theorem sequentialPass_foldl (hashOrder : UMap Nat → UMap Nat) :
    ∀ (nodes : List Int) (s : LouvainCommunityDetection) (b : Bool),
      (∀ node ∈ nodes, node ∈ s.graph.getNodes) →
      ((nodes.foldl
          (fun acc node =>
            (moveNode hashOrder acc.1 node,
             acc.2 || decide (readCommunity (moveNode hashOrder acc.1 node).communities node ≠
               readCommunity acc.1.communities node)))
          (s, b)).1.communities.length = s.communities.length) ∧
      SameReads s.graph
        (nodes.foldl
          (fun acc node =>
            (moveNode hashOrder acc.1 node,
             acc.2 || decide (readCommunity (moveNode hashOrder acc.1 node).communities node ≠
               readCommunity acc.1.communities node)))
          (s, b)).1.graph ∧
      (b = true →
        (nodes.foldl
          (fun acc node =>
            (moveNode hashOrder acc.1 node,
             acc.2 || decide (readCommunity (moveNode hashOrder acc.1 node).communities node ≠
               readCommunity acc.1.communities node)))
          (s, b)).2 = true) ∧
      ((nodes.foldl
          (fun acc node =>
            (moveNode hashOrder acc.1 node,
             acc.2 || decide (readCommunity (moveNode hashOrder acc.1 node).communities node ≠
               readCommunity acc.1.communities node)))
          (s, b)).2 = false →
        (∀ node ∈ nodes, InBounds s.communities node) →
        (nodes.foldl
          (fun acc node =>
            (moveNode hashOrder acc.1 node,
             acc.2 || decide (readCommunity (moveNode hashOrder acc.1 node).communities node ≠
               readCommunity acc.1.communities node)))
          (s, b)).1.communities = s.communities ∧
        ∀ node ∈ nodes,
          bestCommunityOf hashOrder s node = readCommunity s.communities node) := by
  intro nodes
  induction nodes with
  | nil =>
    intro s b _
    refine ⟨rfl, sameReads_refl _, fun h => h, fun _ _ => ⟨rfl, ?_⟩⟩
    intro node hn
    cases hn
  | cons a rest ih =>
    intro s b hmem
    have ha : a ∈ s.graph.getNodes := hmem a (List.mem_cons_self _ _)
    have hg := moveNode_graph hashOrder s a ha
    have hrest : ∀ node ∈ rest, node ∈ (moveNode hashOrder s a).graph.getNodes := by
      intro node hn
      exact (hg.nodes node).mpr (hmem node (List.mem_cons_of_mem _ hn))
    obtain ⟨h1, h2, h3, h4⟩ := ih (moveNode hashOrder s a)
      (b || decide (readCommunity (moveNode hashOrder s a).communities a ≠
        readCommunity s.communities a)) hrest
    simp only [List.foldl_cons]
    refine ⟨h1.trans (moveNode_length _ _ _), sameReads_trans hg h2, ?_, ?_⟩
    · intro hb
      apply h3
      simp [hb]
    · intro hfalse hin
      have hflag : (b || decide (readCommunity (moveNode hashOrder s a).communities a ≠
          readCommunity s.communities a)) = false := by
        cases hq : (b || decide (readCommunity (moveNode hashOrder s a).communities a ≠
          readCommunity s.communities a))
        · rfl
        · rw [h3 hq] at hfalse
          cases hfalse
      have hsame : readCommunity (moveNode hashOrder s a).communities a =
          readCommunity s.communities a := by
        simpa using (Bool.or_eq_false_iff.mp hflag).2
      have hbest : bestCommunityOf hashOrder s a = readCommunity s.communities a := by
        by_contra hne
        rw [moveNode_communities, if_pos hne,
          readCommunity_write_self _ _ _ (hin a (List.mem_cons_self _ _))] at hsame
        exact hne hsame
      have hcomm : (moveNode hashOrder s a).communities = s.communities := by
        rw [moveNode_communities, if_neg (not_not.mpr hbest)]
      have hin2 : ∀ node ∈ rest, InBounds (moveNode hashOrder s a).communities node := by
        intro node hn
        rw [hcomm]
        exact hin node (List.mem_cons_of_mem _ hn)
      obtain ⟨h5, h6⟩ := h4 hfalse hin2
      refine ⟨h5.trans hcomm, ?_⟩
      intro node hn
      rcases List.mem_cons.mp hn with hna | hnr
      · rw [hna]; exact hbest
      · have := h6 node hnr
        rw [bestCommunityOf_congr hashOrder s _ hcomm hg, hcomm] at this
        exact this

theorem sequentialPass_spec (hashOrder : UMap Nat → UMap Nat)
    (s : LouvainCommunityDetection) (nodes : List Int)
    (hmem : ∀ node ∈ nodes, node ∈ s.graph.getNodes) :
    (sequentialPass hashOrder s nodes).1.communities.length = s.communities.length ∧
    SameReads s.graph (sequentialPass hashOrder s nodes).1.graph ∧
    ((sequentialPass hashOrder s nodes).2 = false →
      (∀ node ∈ nodes, InBounds s.communities node) →
      (sequentialPass hashOrder s nodes).1.communities = s.communities ∧
      ∀ node ∈ nodes, bestCommunityOf hashOrder s node = readCommunity s.communities node) := by
  obtain ⟨h1, h2, _, h4⟩ := sequentialPass_foldl hashOrder nodes s false hmem
  exact ⟨h1, h2, h4⟩

theorem inBounds_of_length {l l2 : List Int} (h : l2.length = l.length) (i : Int)
    (hi : InBounds l i) : InBounds l2 i := by
  unfold InBounds at *
  rw [h]
  exact hi

theorem detectLoop_fixed (hashOrder : UMap Nat → UMap Nat)
    (visit : Nat → List Int → List Int)
    (hvisit : ∀ i l x, x ∈ visit i l ↔ x ∈ l) :
    ∀ (fuel pass : Nat) (self s : LouvainCommunityDetection),
      (∀ node ∈ self.graph.getNodes, InBounds self.communities node) →
      detectLoop hashOrder visit fuel pass self = some s →
      s.communities.length = self.communities.length ∧
      SameReads self.graph s.graph ∧
      ∀ node ∈ s.graph.getNodes,
        bestCommunityOf hashOrder s node = readCommunity s.communities node := by
  intro fuel
  induction fuel with
  | zero =>
    intro pass self s _ h
    simp [detectLoop] at h
  | succ fuel ih =>
    intro pass self s hdense h
    rw [detectLoop] at h
    have hmem : ∀ node ∈ visit pass self.graph.getNodes, node ∈ self.graph.getNodes :=
      fun node hn => (hvisit _ _ _).mp hn
    obtain ⟨h1, h2, h3⟩ := sequentialPass_spec hashOrder self _ hmem
    by_cases hflag : (sequentialPass hashOrder self (visit pass self.graph.getNodes)).2 = true
    · rw [if_pos hflag] at h
      have hdense2 : ∀ node ∈
          (sequentialPass hashOrder self (visit pass self.graph.getNodes)).1.graph.getNodes,
          InBounds (sequentialPass hashOrder self
            (visit pass self.graph.getNodes)).1.communities node := by
        intro node hn
        exact inBounds_of_length h1 _ (hdense node ((h2.nodes node).mp hn))
      obtain ⟨g1, g2, g3⟩ := ih _ _ _ hdense2 h
      exact ⟨g1.trans h1, sameReads_trans h2 g2, g3⟩
    · rw [if_neg hflag] at h
      have hs := Option.some.inj h
      have hf : (sequentialPass hashOrder self (visit pass self.graph.getNodes)).2 = false := by
        simpa using hflag
      obtain ⟨h5, h6⟩ := h3 hf (fun node hn => hdense node (hmem node hn))
      rw [← hs]
      refine ⟨h1, h2, ?_⟩
      intro node hn
      have hn0 : node ∈ self.graph.getNodes := (h2.nodes node).mp hn
      have := h6 node ((hvisit _ _ _).mpr hn0)
      rw [bestCommunityOf_congr hashOrder self _ h5 h2, h5]
      exact this

theorem modularityNode_foldl :
    ∀ (nodes : List Int) (st : ModularityState),
      (∀ node ∈ nodes, node ∈ st.self.graph.getNodes) →
      (nodes.foldl modularityNode st).self.communities = st.self.communities ∧
      SameReads st.self.graph (nodes.foldl modularityNode st).self.graph := by
  intro nodes
  induction nodes with
  | nil =>
    intro st _
    exact ⟨rfl, sameReads_refl _⟩
  | cons a rest ih =>
    intro st hmem
    have ha : a ∈ st.self.graph.getNodes := hmem a (List.mem_cons_self _ _)
    have hd := sameReads_getDegree st.self.graph a
    have hn := sameReads_getNeighbors (st.self.graph.getDegree a).2 a ((hd.nodes a).mpr ha)
    have hg : SameReads st.self.graph (modularityNode st a).self.graph := sameReads_trans hd hn
    have hc : (modularityNode st a).self.communities = st.self.communities := rfl
    have hrest : ∀ node ∈ rest, node ∈ (modularityNode st a).self.graph.getNodes := by
      intro node hnode
      exact (hg.nodes node).mpr (hmem node (List.mem_cons_of_mem _ hnode))
    obtain ⟨h1, h2⟩ := ih (modularityNode st a) hrest
    simp only [List.foldl_cons]
    exact ⟨h1.trans hc, sameReads_trans hg h2⟩

theorem calculateModularity_state (self : LouvainCommunityDetection) :
    (calculateModularity self).2.communities = self.communities ∧
    SameReads self.graph (calculateModularity self).2.graph := by
  unfold calculateModularity
  exact modularityNode_foldl self.graph.getNodes _ (fun _ h => h)

theorem setInsert_foldl (l : List Int) :
    ∀ (acc : List Int), acc.Nodup →
      (l.foldl setInsert acc).Nodup ∧
      ∀ x, x ∈ l.foldl setInsert acc ↔ x ∈ acc ∨ x ∈ l := by
  induction l with
  | nil =>
    intro acc h
    exact ⟨h, fun x => by simp⟩
  | cons a rest ih =>
    intro acc h
    obtain ⟨h1, h2⟩ := ih (setInsert acc a) (nodup_setInsert acc a h)
    refine ⟨h1, ?_⟩
    intro x
    simp only [List.foldl_cons, h2, mem_setInsert, List.mem_cons]
    tauto

theorem uniqueCommunityCount_eq_card (communities : List Int) :
    uniqueCommunityCount communities = communities.toFinset.card := by
  obtain ⟨h1, h2⟩ := setInsert_foldl communities [] List.nodup_nil
  unfold uniqueCommunityCount
  rw [← List.toFinset_card_of_nodup h1]
  congr 1
  ext x
  simp [h2]

end Mess2

/-- Claim C18: with node ids that are valid indices of `communities`, whenever the
sequential `detectCommunities` of `mess2.cpp` returns (for every iteration order of the hash
maps and every traversal of the nodes), applying `moveNode` to any node of the resulting
state leaves `communities` unchanged, and the returned integer is the number of distinct
values in `communities`. -/
theorem detectCommunities_fixed_point (hashOrder : Mess2.UMap Nat → Mess2.UMap Nat)
    (hperm : ∀ m, (hashOrder m).Perm m)
    (visit : Nat → List Int → List Int)
    (hvisit : ∀ i l x, x ∈ visit i l ↔ x ∈ l)
    (self : Mess2.LouvainCommunityDetection)
    (hdense : ∀ node ∈ self.graph.getNodes, Mess2.InBounds self.communities node)
    (fuel n : Nat) (self2 : Mess2.LouvainCommunityDetection)
    (hret : Mess2.detectCommunities hashOrder visit self fuel = some (n, self2)) :
    (∀ node, (Mess2.moveNode hashOrder self2 node).communities = self2.communities) ∧
    n = self2.communities.toFinset.card := by
  unfold Mess2.detectCommunities at hret
  cases hloop : Mess2.detectLoop hashOrder visit fuel 0 self with
  | none => rw [hloop] at hret; cases hret
  | some s =>
    rw [hloop] at hret
    simp only [Option.map_some'] at hret
    have hpair := Option.some.inj hret
    have hn : Mess2.uniqueCommunityCount s.communities = n := congrArg Prod.fst hpair
    have hs2 : { (Mess2.calculateModularity s).2 with
        modularity := (Mess2.calculateModularity s).1 } = self2 := congrArg Prod.snd hpair
    obtain ⟨_, _, hfix⟩ := Mess2.detectLoop_fixed hashOrder visit hvisit fuel 0 self s hdense hloop
    obtain ⟨hc, hg⟩ := Mess2.calculateModularity_state s
    have hc2 : self2.communities = s.communities := by rw [← hs2]; exact hc
    have hg2 : Mess2.SameReads s.graph self2.graph := by rw [← hs2]; exact hg
    constructor
    · intro node
      have hbest : Mess2.bestCommunityOf hashOrder self2 node =
          Mess2.readCommunity self2.communities node := by
        by_cases hmem : node ∈ self2.graph.getNodes
        · rw [Mess2.bestCommunityOf_congr hashOrder s self2 hc2 hg2, hc2]
          exact hfix node ((hg2.nodes node).mp hmem)
        · exact Mess2.bestCommunityOf_of_no_neighbors hashOrder hperm self2 node
            (Mess2.neighborsOf_of_not_mem _ _ hmem)
      rw [Mess2.moveNode_communities, if_neg (not_not.mpr hbest)]
    · rw [hc2, ← hn]
      exact Mess2.uniqueCommunityCount_eq_card _

theorem detectCommunities_fixed_point_witness :
    Mess2.detectCommunities id (fun _ l => l) (Mess2.loadGraph Mess2.sampleEdges) 10 =
        some (2, { (Mess2.calculateModularity
          { Mess2.loadGraph Mess2.sampleEdges with communities := [1, 1, 1, 4, 4, 4] }).2 with
            modularity := 1 / 2 }) ∧
      (∀ node, (Mess2.moveNode id { (Mess2.calculateModularity
          { Mess2.loadGraph Mess2.sampleEdges with communities := [1, 1, 1, 4, 4, 4] }).2 with
            modularity := 1 / 2 } node).communities = [1, 1, 1, 4, 4, 4]) ∧
      2 = ([1, 1, 1, 4, 4, 4] : List Int).toFinset.card :=
  have h : Mess2.detectCommunities id (fun _ l => l) (Mess2.loadGraph Mess2.sampleEdges) 10 =
        some (2, { (Mess2.calculateModularity
          { Mess2.loadGraph Mess2.sampleEdges with communities := [1, 1, 1, 4, 4, 4] }).2 with
            modularity := 1 / 2 }) := by decide!
  ⟨h, detectCommunities_fixed_point id (fun _ => List.Perm.refl _) (fun _ l => l)
    (fun _ _ _ => Iff.rfl) (Mess2.loadGraph Mess2.sampleEdges)
    (by unfold Mess2.InBounds; decide) 10 2 _ h⟩

namespace Comm4

theorem getD_vecUpdate {α : Type} (l : List α) (i j : Nat) (f : α → α) (d : α) :
    (vecUpdate l i f).getD j d =
      if j = i ∧ i < l.length then f (l.getD i d) else l.getD j d := by
  simp only [List.getD_eq_getElem?_getD]
  by_cases h : j = i
  · subst h
    rw [Mess2.vecUpdate_getElem?_self]
    by_cases hl : j < l.length
    · simp [hl]
    · simp [hl, List.getElem?_eq_none (Nat.le_of_not_lt hl)]
  · rw [Mess2.vecUpdate_getElem?_ne l i j f h]
    simp [h]

theorem getD_resize {α : Type} (l : List α) (n j : Nat) (d : α) (h : l.length ≤ n) :
    (resize l n d).getD j d = l.getD j d := by
  simp only [resize, List.take_of_length_le h, List.getD_eq_getElem?_getD]
  by_cases hj : j < l.length
  · rw [List.getElem?_append_left hj]
  · have hj2 : l.length ≤ j := Nat.le_of_not_lt hj
    rw [List.getElem?_append_right hj2, List.getElem?_eq_none hj2]
    by_cases hk : j - l.length < n - l.length
    · simp [List.getElem?_replicate, hk]
    · simp [List.getElem?_replicate, hk]

theorem Graph.addEdge_adjacency (g : Graph) (u v : Nat)
    (hwf : g.adjacencyList.length = g.numNodes) :
    (g.addEdge u v).adjacencyList.length = (g.addEdge u v).numNodes ∧
    u < (g.addEdge u v).numNodes ∧ v < (g.addEdge u v).numNodes ∧
    g.numNodes ≤ (g.addEdge u v).numNodes ∧
    ∀ a b, b ∈ (g.addEdge u v).getNeighbors a ↔
      b ∈ g.getNeighbors a ∨ (a = u ∧ b = v) ∨ (a = v ∧ b = u) := by
  unfold Graph.addEdge Graph.getNeighbors
  by_cases hc : (decide (u ≥ g.numNodes) || decide (v ≥ g.numNodes)) = true
  · simp only [hc, if_true, vecUpdate_length, resize_length, true_and]
    refine ⟨by omega, by omega, by omega, ?_⟩
    intro a b
    rw [getD_vecUpdate, getD_vecUpdate, getD_vecUpdate, getD_resize _ _ _ _ (by omega),
      getD_resize _ _ _ _ (by omega), getD_resize _ _ _ _ (by omega)]
    simp only [vecUpdate_length, resize_length]
    have hu : u < max g.numNodes (max u v + 1) := by omega
    have hv : v < max g.numNodes (max u v + 1) := by omega
    by_cases h1 : a = v
    · by_cases h2 : a = u
      · subst h1; subst h2; simp [hu]
      · subst h1; simp [hv, h2]
    · by_cases h2 : a = u
      · subst h2; simp [hu, h1]
      · simp [h1, h2]
  · simp only [hc, if_false, vecUpdate_length, true_and]
    simp only [Bool.or_eq_true, decide_eq_true_eq, not_or, not_le, ge_iff_le] at hc
    refine ⟨hwf, hc.1, hc.2, le_refl _, ?_⟩
    intro a b
    rw [getD_vecUpdate, getD_vecUpdate, getD_vecUpdate]
    simp only [vecUpdate_length]
    have hu : u < g.adjacencyList.length := by omega
    have hv : v < g.adjacencyList.length := by omega
    by_cases h1 : a = v
    · by_cases h2 : a = u
      · subst h1; subst h2; simp [hu]
      · subst h1; simp [hv, h2]
    · by_cases h2 : a = u
      · subst h2; simp [hu, h1]
      · simp [h1, h2]

theorem Graph.foldl_adjacency (es : List (Nat × Nat)) :
    ∀ (g : Graph), g.adjacencyList.length = g.numNodes →
      (es.foldl (fun g e => g.addEdge e.1 e.2) g).adjacencyList.length =
        (es.foldl (fun g e => g.addEdge e.1 e.2) g).numNodes ∧
      g.numNodes ≤ (es.foldl (fun g e => g.addEdge e.1 e.2) g).numNodes ∧
      (∀ e ∈ es, e.1 < (es.foldl (fun g e => g.addEdge e.1 e.2) g).numNodes ∧
        e.2 < (es.foldl (fun g e => g.addEdge e.1 e.2) g).numNodes) ∧
      ∀ a b, b ∈ (es.foldl (fun g e => g.addEdge e.1 e.2) g).getNeighbors a ↔
        b ∈ g.getNeighbors a ∨ Adjacent es a b := by
  induction es with
  | nil =>
    intro g h
    refine ⟨h, le_refl _, ?_, ?_⟩
    · intro e he; cases he
    · intro a b; simp [Adjacent]
  | cons e es ih =>
    intro g h
    obtain ⟨h1, h2, h3, h4, h5⟩ := Graph.addEdge_adjacency g e.1 e.2 h
    obtain ⟨g1, g2, g3, g4⟩ := ih (g.addEdge e.1 e.2) h1
    simp only [List.foldl_cons]
    refine ⟨g1, le_trans h4 g2, ?_, ?_⟩
    · intro e2 he2
      rcases List.mem_cons.mp he2 with he | he
      · subst he
        exact ⟨lt_of_lt_of_le h2 g2, lt_of_lt_of_le h3 g2⟩
      · exact g3 e2 he
    · intro a b
      rw [g4, h5]
      obtain ⟨e1, e2⟩ := e
      simp only [Adjacent, List.mem_cons, Prod.mk.injEq]
      tauto

theorem Graph.build_adjacency (edges : List (Nat × Nat)) :
    (Graph.build edges).adjacencyList.length = (Graph.build edges).numNodes ∧
    (∀ a b, Adjacent edges a b →
      a < (Graph.build edges).numNodes ∧ b < (Graph.build edges).numNodes) ∧
    ∀ a b, b ∈ (Graph.build edges).getNeighbors a ↔ Adjacent edges a b := by
  obtain ⟨h1, _, h3, h4⟩ := Graph.foldl_adjacency edges Graph.empty rfl
  refine ⟨h1, ?_, ?_⟩
  · intro a b hab
    rcases hab with h | h
    · exact h3 (a, b) h
    · exact (h3 (b, a) h).symm
  · intro a b
    unfold Graph.build
    rw [h4]
    simp [Graph.getNeighbors, Graph.empty]

theorem Reachable.lt_numNodes {edges : List (Nat × Nat)} {a b : Nat}
    (h : Reachable edges a b) (ha : a < (Graph.build edges).numNodes) :
    b < (Graph.build edges).numNodes := by
  induction h with
  | refl => exact ha
  | tail _ hstep _ => exact ((Graph.build_adjacency edges).2.1 _ _ hstep).2

theorem Reachable.symm_nat {edges : List (Nat × Nat)} {a b : Nat}
    (h : Reachable edges a b) : Reachable edges b a := by
  have hs : Symmetric (Adjacent edges) := by
    intro x y hxy
    unfold Adjacent at *
    tauto
  exact Relation.ReflTransGen.symmetric hs h

end Comm4

/-- Nodes that lie in pairwise different classes of a symmetric and transitive relation
and whose labels lie in their own classes carry pairwise different labels. -/
theorem length_le_card_labels {α : Type} [DecidableEq α] (R : α → α → Prop)
    (hsymm : ∀ a b, R a b → R b a) (htrans : ∀ a b c, R a b → R b c → R a c)
    (label : α → α) (labels : List α) (reps : List α)
    (hlabel : ∀ v ∈ reps, R v (label v) ∧ label v ∈ labels)
    (hreps : reps.Pairwise (fun u v => ¬ R u v)) :
    reps.length ≤ labels.toFinset.card := by
  have hnodup : (reps.map label).Nodup := by
    unfold List.Nodup
    rw [List.pairwise_map]
    refine List.Pairwise.imp_of_mem ?_ hreps
    intro a b ha hb hab heq
    apply hab
    exact htrans _ _ _ (hlabel a ha).1 (by rw [heq]; exact hsymm _ _ (hlabel b hb).1)
  have hsub : (reps.map label).toFinset ⊆ labels.toFinset := by
    intro x hx
    simp only [List.mem_toFinset, List.mem_map] at hx
    obtain ⟨v, hv, rfl⟩ := hx
    exact List.mem_toFinset.mpr (hlabel v hv).2
  calc reps.length = (reps.map label).length := by simp
    _ = (reps.map label).toFinset.card := (List.toFinset_card_of_nodup hnodup).symm
    _ ≤ labels.toFinset.card := Finset.card_le_card hsub

namespace Comm4

/-- One per-node step keeps every label inside the component of the labelled node and
adds no label to the vector. -/
theorem moveStep_labels (hashOrder : List (Nat × Nat) → List (Nat × Nat))
    (hperm : ∀ m, (hashOrder m).Perm m) (edges : List (Nat × Nat))
    (s : LouvainCommunityDetection) (v : Nat)
    (hg : s.graph = Graph.build edges)
    (hlen : s.communities.length = (Graph.build edges).numNodes)
    (hinv : ∀ u, u < (Graph.build edges).numNodes → Reachable edges u (s.communities.getD u 0)) :
    (∀ u, u < (Graph.build edges).numNodes →
      Reachable edges u ((moveStep hashOrder s v).1.communities.getD u 0)) ∧
    (∀ x ∈ (moveStep hashOrder s v).1.communities, x ∈ s.communities) := by
  obtain ⟨_, hlt, hadj⟩ := Graph.build_adjacency edges
  by_cases hc : (scanBest (hashOrder (connectionsOf s v)) (s.communities.getD v 0)).1 =
      s.communities.getD v 0
  · have hsame : (moveStep hashOrder s v).1 = s := by
      simp only [moveStep, hc, ne_eq, not_true_eq_false, if_false]
    rw [hsame]
    exact ⟨hinv, fun x hx => hx⟩
  · have hmoved : (moveStep hashOrder s v).1.communities = s.communities.set v
        (scanBest (hashOrder (connectionsOf s v)) (s.communities.getD v 0)).1 := by
      simp only [moveStep, hc, ne_eq, not_false_eq_true, if_true]
    rcases moveStep_best hashOrder hperm s v with ⟨h1, _⟩ | ⟨⟨nbr, hnbr, hlab⟩, _⟩
    · exact absurd h1 hc
    · rw [hg] at hnbr
      have hvn : Adjacent edges v nbr := (hadj v nbr).mp hnbr
      have hnlt : nbr < (Graph.build edges).numNodes := (hlt v nbr hvn).2
      have hvlt : v < (Graph.build edges).numNodes := (hlt v nbr hvn).1
      rw [hmoved, ← hlab]
      constructor
      · intro u hu
        by_cases huv : v = u
        · subst huv
          rw [getD_set_self _ _ _ (by rw [hlen]; exact hvlt)]
          exact Relation.ReflTransGen.head hvn (hinv nbr hnlt)
        · rw [getD_set_ne _ _ _ _ huv]
          exact hinv u hu
      · intro x hx
        rcases List.mem_or_eq_of_mem_set hx with h | h
        · exact h
        · rw [h, List.getD_eq_getElem?_getD,
            List.getElem?_eq_getElem (by rw [hlen]; exact hnlt)]
          simp

theorem localMovePass_labels (hashOrder : List (Nat × Nat) → List (Nat × Nat))
    (hperm : ∀ m, (hashOrder m).Perm m) (edges : List (Nat × Nat)) (moves : List Nat) :
    ∀ (s : LouvainCommunityDetection),
      s.graph = Graph.build edges →
      s.communities.length = (Graph.build edges).numNodes →
      (∀ u, u < (Graph.build edges).numNodes → Reachable edges u (s.communities.getD u 0)) →
      (localMovePass hashOrder s moves).1.graph = Graph.build edges ∧
      (localMovePass hashOrder s moves).1.communities.length = (Graph.build edges).numNodes ∧
      (∀ u, u < (Graph.build edges).numNodes →
        Reachable edges u ((localMovePass hashOrder s moves).1.communities.getD u 0)) ∧
      (∀ x ∈ (localMovePass hashOrder s moves).1.communities, x ∈ s.communities) := by
  unfold localMovePass
  generalize false = b
  induction moves generalizing b with
  | nil =>
    intro s hg hlen hinv
    exact ⟨hg, hlen, hinv, fun x hx => hx⟩
  | cons v rest ih =>
    intro s hg hlen hinv
    obtain ⟨h1, h2⟩ := moveStep_labels hashOrder hperm edges s v hg hlen hinv
    obtain ⟨g1, g2, g3, g4⟩ := ih (b || (moveStep hashOrder s v).2) (moveStep hashOrder s v).1
      ((moveStep_graph hashOrder s v).trans hg) ((moveStep_length hashOrder s v).trans hlen) h1
    simp only [List.foldl_cons]
    exact ⟨g1, g2, g3, fun x hx => h2 x (g4 x hx)⟩

theorem loadGraph_labels (edges : List (Nat × Nat)) (u : Nat)
    (hu : u < (Graph.build edges).numNodes) : (loadGraph edges).communities.getD u 0 = u := by
  unfold loadGraph Graph.getNumNodes
  simp [List.getD_eq_getElem?_getD, List.getElem?_range hu]

end Comm4

namespace Mess2

theorem scanGains_fst (entries communityGains : UMap Nat) (degree totalEdges : Nat)
    (currentCommunity : Int) :
    (scanGains entries communityGains degree totalEdges currentCommunity).1 = currentCommunity ∨
    (scanGains entries communityGains degree totalEdges currentCommunity).1 ∈ UMap.keys entries := by
  unfold scanGains
  have key : ∀ (es : UMap Nat) (acc : Int × ℚ),
      (es.foldl
        (fun acc pair =>
          if gainOf degree totalEdges pair.2 (UMap.get communityGains pair.1 0) > acc.2 then
            (pair.1, gainOf degree totalEdges pair.2 (UMap.get communityGains pair.1 0))
          else acc) acc).1 = acc.1 ∨
      (es.foldl
        (fun acc pair =>
          if gainOf degree totalEdges pair.2 (UMap.get communityGains pair.1 0) > acc.2 then
            (pair.1, gainOf degree totalEdges pair.2 (UMap.get communityGains pair.1 0))
          else acc) acc).1 ∈ UMap.keys es := by
    intro es
    induction es with
    | nil => intro acc; exact Or.inl rfl
    | cons e rest ih =>
      intro acc
      simp only [List.foldl_cons]
      rcases ih (if gainOf degree totalEdges e.2 (UMap.get communityGains e.1 0) > acc.2 then
            (e.1, gainOf degree totalEdges e.2 (UMap.get communityGains e.1 0))
          else acc) with h | h
      · rw [h]
        split
        · right; simp [UMap.keys]
        · left; rfl
      · right
        simp only [UMap.keys, List.map_cons, List.mem_cons]
        exact Or.inr h
  exact key entries (currentCommunity, 0)

theorem mem_keys_communityGainsOf (communities neighbors : List Int) (x : Int) :
    x ∈ UMap.keys (communityGainsOf communities neighbors) ↔
      ∃ nb ∈ neighbors, readCommunity communities nb = x := by
  unfold communityGainsOf
  have key : ∀ (nbs : List Int) (m : UMap Nat),
      x ∈ UMap.keys (nbs.foldl
        (fun m neighbor => UMap.update m (readCommunity communities neighbor) 0 (fun x => x + 1))
        m) ↔ x ∈ UMap.keys m ∨ ∃ nb ∈ nbs, readCommunity communities nb = x := by
    intro nbs
    induction nbs with
    | nil => intro m; simp
    | cons a rest ih =>
      intro m
      simp only [List.foldl_cons, ih, UMap.mem_keys_update, List.mem_cons, exists_eq_or_imp]
      constructor
      · rintro ((h | h) | h)
        · exact Or.inl h
        · exact Or.inr (Or.inl h.symm)
        · exact Or.inr (Or.inr h)
      · rintro (h | h | h)
        · exact Or.inl (Or.inl h)
        · exact Or.inl (Or.inr h.symm)
        · exact Or.inr h
  rw [key]
  simp [UMap.keys]

theorem moveNode_neighborsOf (hashOrder : UMap Nat → UMap Nat)
    (self : LouvainCommunityDetection) (node n : Int) :
    (moveNode hashOrder self node).graph.neighborsOf n = self.graph.neighborsOf n := by
  have hg : (moveNode hashOrder self node).graph = (self.graph.getNeighbors node).2 ∨
      (moveNode hashOrder self node).graph =
        ((self.graph.getNeighbors node).2.getDegree node).2 := by
    unfold moveNode
    simp only []
    split <;> split <;> simp
  rcases hg with hg | hg
  · rw [hg]; exact Graph.neighborsOf_getNeighbors _ _ _
  · rw [hg]
    exact Graph.neighborsOf_getNeighbors self.graph node n

theorem readCommunity_write_ne (communities : List Int) (i j x : Int) (h : i ≠ j) :
    readCommunity (writeCommunity communities i x) j = readCommunity communities j := by
  unfold readCommunity writeCommunity
  by_cases hj : 0 ≤ j
  · by_cases hi : 0 ≤ i
    · have hne : i.toNat ≠ j.toNat := by
        intro hc
        apply h
        rw [← Int.toNat_of_nonneg hi, ← Int.toNat_of_nonneg hj, hc]
      simp [hi, hj, List.getD_eq_getElem?_getD, List.getElem?_set, hne]
    · simp [hi]
  · simp [hj]

theorem readCommunity_mem (communities : List Int) (i : Int) (h : InBounds communities i) :
    readCommunity communities i ∈ communities := by
  obtain ⟨h0, h1⟩ := h
  unfold readCommunity
  simp only [h0, if_true, List.getD_eq_getElem?_getD, List.getElem?_eq_getElem h1,
    Option.getD_some]
  exact List.getElem_mem _

theorem mem_writeCommunity (communities : List Int) (i x y : Int)
    (h : y ∈ writeCommunity communities i x) : y ∈ communities ∨ y = x := by
  unfold writeCommunity at h
  split at h
  · exact List.mem_or_eq_of_mem_set h
  · exact Or.inl h

theorem moveNode_labels (hashOrder : UMap Nat → UMap Nat)
    (hperm : ∀ m, (hashOrder m).Perm m) (edges : List (Int × Int))
    (s : LouvainCommunityDetection) (x : Int) (len : Nat)
    (hdense : ∀ v, IsEndpoint edges v → 0 ≤ v ∧ v.toNat < len)
    (hg : ∀ n, s.graph.neighborsOf n = (Graph.build edges).neighborsOf n)
    (hlen : s.communities.length = len)
    (hinv : ∀ v, IsEndpoint edges v → Reachable edges v (readCommunity s.communities v)) :
    (∀ v, IsEndpoint edges v →
      Reachable edges v (readCommunity (moveNode hashOrder s x).communities v)) ∧
    (∀ y ∈ (moveNode hashOrder s x).communities, y ∈ s.communities) := by
  rw [moveNode_communities]
  by_cases hc : bestCommunityOf hashOrder s x = readCommunity s.communities x
  · rw [if_neg (not_not.mpr hc)]
    exact ⟨hinv, fun y hy => hy⟩
  · rw [if_pos hc]
    have hkey : bestCommunityOf hashOrder s x ∈
        UMap.keys (communityGainsOf s.communities (s.graph.neighborsOf x)) := by
      rcases scanGains_fst (hashOrder (communityGainsOf s.communities (s.graph.neighborsOf x)))
        (communityGainsOf s.communities (s.graph.neighborsOf x))
        (UMap.get s.graph.nodeDegrees x 0) s.graph.getTotalEdges
        (readCommunity s.communities x) with h | h
      · exact absurd h hc
      · have hp := (hperm (communityGainsOf s.communities (s.graph.neighborsOf x))).map Prod.fst
        exact hp.mem_iff.mp h
    obtain ⟨nb, hnb, hlab⟩ := (mem_keys_communityGainsOf _ _ _).mp hkey
    rw [hg, Graph.mem_neighborsOf_build] at hnb
    have hnbe : IsEndpoint edges nb := hnb.isEndpoint_right
    rw [← hlab]
    constructor
    · intro v hv
      by_cases hxv : x = v
      · subst hxv
        rw [readCommunity_write_self _ _ _ (by rw [InBounds, hlen]; exact hdense x hv)]
        exact Relation.ReflTransGen.head hnb (hinv nb hnbe)
      · rw [readCommunity_write_ne _ _ _ _ hxv]
        exact hinv v hv
    · intro y hy
      rcases mem_writeCommunity _ _ _ _ hy with h | h
      · exact h
      · rw [h]
        exact readCommunity_mem _ _ (by rw [InBounds, hlen]; exact hdense nb hnbe)

theorem moves_labels (hashOrder : UMap Nat → UMap Nat)
    (hperm : ∀ m, (hashOrder m).Perm m) (edges : List (Int × Int)) (len : Nat)
    (hdense : ∀ v, IsEndpoint edges v → 0 ≤ v ∧ v.toNat < len) (moves : List Int) :
    ∀ (s : LouvainCommunityDetection),
      (∀ n, s.graph.neighborsOf n = (Graph.build edges).neighborsOf n) →
      s.communities.length = len →
      (∀ v, IsEndpoint edges v → Reachable edges v (readCommunity s.communities v)) →
      (∀ n, (moves.foldl (moveNode hashOrder) s).graph.neighborsOf n =
        (Graph.build edges).neighborsOf n) ∧
      (moves.foldl (moveNode hashOrder) s).communities.length = len ∧
      (∀ v, IsEndpoint edges v →
        Reachable edges v (readCommunity (moves.foldl (moveNode hashOrder) s).communities v)) ∧
      (∀ y ∈ (moves.foldl (moveNode hashOrder) s).communities, y ∈ s.communities) := by
  induction moves with
  | nil =>
    intro s hg hlen hinv
    exact ⟨hg, hlen, hinv, fun y hy => hy⟩
  | cons x rest ih =>
    intro s hg hlen hinv
    obtain ⟨h1, h2⟩ := moveNode_labels hashOrder hperm edges s x len hdense hg hlen hinv
    obtain ⟨g1, g2, g3, g4⟩ := ih (moveNode hashOrder s x)
      (fun n => (moveNode_neighborsOf hashOrder s x n).trans (hg n))
      ((moveNode_length hashOrder s x).trans hlen) h1
    simp only [List.foldl_cons]
    exact ⟨g1, g2, g3, fun y hy => h2 y (g4 y hy)⟩

theorem loadGraph_read (edges : List (Int × Int)) (v : Int)
    (h : InBounds (loadGraph edges).communities v) :
    readCommunity (loadGraph edges).communities v = v := by
  obtain ⟨h0, h1⟩ := h
  unfold readCommunity
  unfold loadGraph at h1 ⊢
  simp only [List.length_map, List.length_range] at h1
  simp [h0, List.getD_eq_getElem?_getD, List.getElem?_range h1]

theorem Reachable.symm_int {edges : List (Int × Int)} {a b : Int}
    (h : Reachable edges a b) : Reachable edges b a := by
  have hs : Symmetric (Adjacent edges) := fun _ _ hxy => hxy.symm
  exact Relation.ReflTransGen.symmetric hs h

end Mess2

/-- Claim C19: starting from the singleton labels of `loadGraph`, after any sequence of
per-node moves of either optimizer (under any iteration order of the hash maps), every
node's label is a node of the same connected component; a further sequence of moves adds
no label and does not increase the number of distinct communities; and that number is at
least the size of any family of nodes from pairwise different components. -/
theorem labels_stay_in_component
    (hashOrder4 : List (Nat × Nat) → List (Nat × Nat))
    (hperm4 : ∀ m, (hashOrder4 m).Perm m)
    (edges4 : List (Nat × Nat)) (moves4 next4 : List Nat)
    (hashOrder2 : Mess2.UMap Nat → Mess2.UMap Nat)
    (hperm2 : ∀ m, (hashOrder2 m).Perm m)
    (edges2 : List (Int × Int))
    (hdense : ∀ node ∈ (Mess2.loadGraph edges2).graph.getNodes,
      Mess2.InBounds (Mess2.loadGraph edges2).communities node)
    (moves2 next2 : List Int) :
    ((∀ v, v < (Comm4.loadGraph edges4).graph.getNumNodes →
        Comm4.Reachable edges4 v
          ((Comm4.localMovePass hashOrder4 (Comm4.loadGraph edges4) moves4).1.communities.getD
            v 0)) ∧
      (∀ x ∈ (Comm4.localMovePass hashOrder4
          (Comm4.localMovePass hashOrder4 (Comm4.loadGraph edges4) moves4).1 next4).1.communities,
        x ∈ (Comm4.localMovePass hashOrder4 (Comm4.loadGraph edges4) moves4).1.communities) ∧
      (Comm4.localMovePass hashOrder4
          (Comm4.localMovePass hashOrder4 (Comm4.loadGraph edges4) moves4).1
          next4).1.countCommunities ≤
        (Comm4.localMovePass hashOrder4 (Comm4.loadGraph edges4) moves4).1.countCommunities ∧
      ∀ reps : List Nat, (∀ v ∈ reps, v < (Comm4.loadGraph edges4).graph.getNumNodes) →
        reps.Pairwise (fun u v => ¬ Comm4.Reachable edges4 u v) →
        reps.length ≤
          (Comm4.localMovePass hashOrder4 (Comm4.loadGraph edges4) moves4).1.countCommunities) ∧
    ((∀ v ∈ (Mess2.loadGraph edges2).graph.getNodes,
        Mess2.Reachable edges2 v
          (Mess2.readCommunity
            (moves2.foldl (Mess2.moveNode hashOrder2) (Mess2.loadGraph edges2)).communities v)) ∧
      (∀ x ∈ (next2.foldl (Mess2.moveNode hashOrder2)
          (moves2.foldl (Mess2.moveNode hashOrder2) (Mess2.loadGraph edges2))).communities,
        x ∈ (moves2.foldl (Mess2.moveNode hashOrder2) (Mess2.loadGraph edges2)).communities) ∧
      Mess2.uniqueCommunityCount (next2.foldl (Mess2.moveNode hashOrder2)
          (moves2.foldl (Mess2.moveNode hashOrder2) (Mess2.loadGraph edges2))).communities ≤
        Mess2.uniqueCommunityCount
          (moves2.foldl (Mess2.moveNode hashOrder2) (Mess2.loadGraph edges2)).communities ∧
      ∀ reps : List Int, (∀ v ∈ reps, v ∈ (Mess2.loadGraph edges2).graph.getNodes) →
        reps.Pairwise (fun u v => ¬ Mess2.Reachable edges2 u v) →
        reps.length ≤ Mess2.uniqueCommunityCount
          (moves2.foldl (Mess2.moveNode hashOrder2) (Mess2.loadGraph edges2)).communities) := by
  constructor
  · have hinit : ∀ u, u < (Comm4.Graph.build edges4).numNodes →
        Comm4.Reachable edges4 u ((Comm4.loadGraph edges4).communities.getD u 0) := by
      intro u hu
      rw [Comm4.loadGraph_labels edges4 u hu]
      exact Relation.ReflTransGen.refl
    have hlen0 : (Comm4.loadGraph edges4).communities.length =
        (Comm4.Graph.build edges4).numNodes := by
      simp [Comm4.loadGraph, Comm4.Graph.getNumNodes]
    obtain ⟨a1, a2, a3, _⟩ := Comm4.localMovePass_labels hashOrder4 hperm4 edges4 moves4
      (Comm4.loadGraph edges4) rfl hlen0 hinit
    obtain ⟨_, _, _, b4⟩ := Comm4.localMovePass_labels hashOrder4 hperm4 edges4 next4
      (Comm4.localMovePass hashOrder4 (Comm4.loadGraph edges4) moves4).1 a1 a2 a3
    refine ⟨a3, b4, ?_, ?_⟩
    · rw [Comm4.countCommunities_eq_card, Comm4.countCommunities_eq_card]
      apply Finset.card_le_card
      intro x hx
      exact List.mem_toFinset.mpr (b4 x (List.mem_toFinset.mp hx))
    · intro reps hnodes hreps
      rw [Comm4.countCommunities_eq_card]
      refine length_le_card_labels (Comm4.Reachable edges4)
        (fun _ _ h => Comm4.Reachable.symm_nat h)
        (fun _ _ _ h1 h2 => Relation.ReflTransGen.trans h1 h2)
        (fun v => (Comm4.localMovePass hashOrder4 (Comm4.loadGraph edges4)
          moves4).1.communities.getD v 0) _ reps ?_ hreps
      intro v hv
      have hr := a3 v (hnodes v hv)
      refine ⟨hr, ?_⟩
      have hvl : v < (Comm4.localMovePass hashOrder4 (Comm4.loadGraph edges4)
          moves4).1.communities.length := by rw [a2]; exact hnodes v hv
      show (Comm4.localMovePass hashOrder4 (Comm4.loadGraph edges4)
          moves4).1.communities.getD v 0 ∈ _
      rw [List.getD_eq_getElem?_getD, List.getElem?_eq_getElem hvl]
      simp
  · have hd : ∀ v, Mess2.IsEndpoint edges2 v →
        0 ≤ v ∧ v.toNat < (Mess2.loadGraph edges2).communities.length := by
      intro v hv
      exact hdense v ((Mess2.Graph.mem_getNodes_build edges2 v).mpr hv)
    have hinit : ∀ v, Mess2.IsEndpoint edges2 v →
        Mess2.Reachable edges2 v (Mess2.readCommunity (Mess2.loadGraph edges2).communities v) := by
      intro v hv
      rw [Mess2.loadGraph_read edges2 v (hd v hv)]
      exact Relation.ReflTransGen.refl
    obtain ⟨a1, a2, a3, _⟩ := Mess2.moves_labels hashOrder2 hperm2 edges2 _ hd moves2
      (Mess2.loadGraph edges2) (fun _ => rfl) rfl hinit
    obtain ⟨_, _, _, b4⟩ := Mess2.moves_labels hashOrder2 hperm2 edges2 _ hd next2
      (moves2.foldl (Mess2.moveNode hashOrder2) (Mess2.loadGraph edges2)) a1 a2 a3
    have hnode : ∀ v, v ∈ (Mess2.loadGraph edges2).graph.getNodes → Mess2.IsEndpoint edges2 v :=
      fun v hv => (Mess2.Graph.mem_getNodes_build edges2 v).mp hv
    refine ⟨fun v hv => a3 v (hnode v hv), b4, ?_, ?_⟩
    · rw [Mess2.uniqueCommunityCount_eq_card, Mess2.uniqueCommunityCount_eq_card]
      apply Finset.card_le_card
      intro x hx
      exact List.mem_toFinset.mpr (b4 x (List.mem_toFinset.mp hx))
    · intro reps hnodes hreps
      rw [Mess2.uniqueCommunityCount_eq_card]
      refine length_le_card_labels (Mess2.Reachable edges2)
        (fun _ _ h => Mess2.Reachable.symm_int h)
        (fun _ _ _ h1 h2 => Relation.ReflTransGen.trans h1 h2)
        (fun v => Mess2.readCommunity
          (moves2.foldl (Mess2.moveNode hashOrder2) (Mess2.loadGraph edges2)).communities v)
        _ reps ?_ hreps
      intro v hv
      have hve := hnode v (hnodes v hv)
      refine ⟨a3 v hve, ?_⟩
      apply Mess2.readCommunity_mem
      rw [Mess2.InBounds, a2]
      exact hd v hve

theorem labels_stay_in_component_witness :
    (∀ node ∈ (Mess2.loadGraph Mess2.sampleEdges).graph.getNodes,
      Mess2.InBounds (Mess2.loadGraph Mess2.sampleEdges).communities node) ∧
    (∀ v, v < (Comm4.loadGraph [(0, 1), (1, 2), (2, 0), (3, 4), (4, 5), (5, 3)]).graph.getNumNodes →
      Comm4.Reachable [(0, 1), (1, 2), (2, 0), (3, 4), (4, 5), (5, 3)] v
        ((Comm4.localMovePass id (Comm4.loadGraph [(0, 1), (1, 2), (2, 0), (3, 4), (4, 5), (5, 3)])
          [5, 4, 3, 2, 1, 0]).1.communities.getD v 0)) ∧
    (∀ v ∈ (Mess2.loadGraph Mess2.sampleEdges).graph.getNodes,
      Mess2.Reachable Mess2.sampleEdges v
        (Mess2.readCommunity
          (([0, 1, 2, 3, 4, 5] : List Int).foldl (Mess2.moveNode id)
            (Mess2.loadGraph Mess2.sampleEdges)).communities v)) :=
  have hd : ∀ node ∈ (Mess2.loadGraph Mess2.sampleEdges).graph.getNodes,
      Mess2.InBounds (Mess2.loadGraph Mess2.sampleEdges).communities node := by
    unfold Mess2.InBounds; decide
  have h := labels_stay_in_component id (fun _ => List.Perm.refl _)
    [(0, 1), (1, 2), (2, 0), (3, 4), (4, 5), (5, 3)] [5, 4, 3, 2, 1, 0] []
    id (fun _ => List.Perm.refl _) Mess2.sampleEdges hd [0, 1, 2, 3, 4, 5] []
  ⟨hd, h.1.1, h.2.1⟩

namespace Mess2

theorem Graph.degree_addEdge (g : Graph) (u v : Int)
    (h : ∀ node, UMap.get g.nodeDegrees node 0 = (g.neighborsOf node).length) :
    ∀ node, UMap.get (g.addEdge u v).nodeDegrees node 0 =
      ((g.addEdge u v).neighborsOf node).length := by
  intro node
  unfold Graph.neighborsOf at *
  unfold Graph.addEdge
  simp only [UMap.get_update]
  by_cases h1 : node = v
  · by_cases h2 : node = u
    · subst h1; subst h2; simp [h]
    · subst h1
      have h3 : ¬ u = node := fun e => h2 e.symm
      simp [h, h2, h3]
  · by_cases h2 : node = u
    · subst h2
      have h3 : ¬ v = node := fun e => h1 e.symm
      simp [h, h1, h3]
    · simp [h, h1, h2]

theorem Graph.degree_foldl (es : List (Int × Int)) :
    ∀ (g : Graph),
      (∀ node, UMap.get g.nodeDegrees node 0 = (g.neighborsOf node).length) →
      (∀ node, UMap.get (es.foldl (fun g e => g.addEdge e.1 e.2) g).nodeDegrees node 0 =
        ((es.foldl (fun g e => g.addEdge e.1 e.2) g).neighborsOf node).length) ∧
      (es.foldl (fun g e => g.addEdge e.1 e.2) g).totalEdges = g.totalEdges + es.length := by
  induction es with
  | nil => intro g h; exact ⟨h, rfl⟩
  | cons e es ih =>
    intro g h
    obtain ⟨h1, h2⟩ := ih (g.addEdge e.1 e.2) (Graph.degree_addEdge g e.1 e.2 h)
    simp only [List.foldl_cons, List.length_cons]
    refine ⟨h1, ?_⟩
    rw [h2]
    simp only [Graph.addEdge]
    omega

theorem Graph.build_degrees (edges : List (Int × Int)) :
    (∀ node, UMap.get (Graph.build edges).nodeDegrees node 0 =
      ((Graph.build edges).neighborsOf node).length) ∧
    (Graph.build edges).totalEdges = edges.length ∧
    (((Graph.build edges).getNodes.map
      (fun node => UMap.get (Graph.build edges).nodeDegrees node 0)).sum =
        2 * edges.length) := by
  obtain ⟨h1, h2⟩ := Graph.degree_foldl edges Graph.empty (fun _ => rfl)
  have h3 : (Graph.build edges).totalEdges = edges.length := by
    unfold Graph.build
    rw [h2]
    simp [Graph.empty]
  refine ⟨h1, h3, ?_⟩
  have hwf : (Graph.build edges).WF := Graph.wf_foldl_map edges Graph.empty Graph.wf_empty_map
  have := Graph.degreeSum_of_wf_map _ hwf
  unfold Graph.degreeSum Graph.getDegree Graph.getTotalEdges at this
  simp only [] at this
  rw [this, h3]

theorem vecUpdate_vecUpdate {α : Type} (l : List α) (i : Nat) (f g : α → α) :
    vecUpdate (vecUpdate l i f) i g = vecUpdate l i (fun y => g (f y)) := by
  induction l generalizing i with
  | nil => rfl
  | cons x xs ih =>
    cases i with
    | zero => rfl
    | succ j => simp [vecUpdate, ih]

theorem vecUpdate_id_like {α : Type} (l : List α) (i : Nat) (f : α → α) (h : ∀ y, f y = y) :
    vecUpdate l i f = l := by
  induction l generalizing i with
  | nil => rfl
  | cons x xs ih =>
    cases i with
    | zero => simp [vecUpdate, h]
    | succ j => simp [vecUpdate, ih]

theorem accumulate_length (acc : List ℚ) (i : Int) (x : ℚ) :
    (accumulate acc i x).length = acc.length := by
  unfold accumulate
  split
  · exact Comm4.vecUpdate_length _ _ _
  · rfl

theorem accumulate_accumulate (acc : List ℚ) (i : Int) (x y : ℚ) :
    accumulate (accumulate acc i x) i y = accumulate acc i (x + y) := by
  unfold accumulate
  split
  · rw [vecUpdate_vecUpdate]
    congr 1
    funext z
    ring
  · rfl

theorem accumulate_zero (acc : List ℚ) (i : Int) : accumulate acc i 0 = acc := by
  unfold accumulate
  split
  · exact vecUpdate_id_like _ _ _ (fun y => by simp)
  · rfl

theorem accumulate_getD (acc : List ℚ) (i : Int) (x : ℚ) (j : Nat) (hj : j < acc.length) :
    (accumulate acc i x).getD j 0 =
      acc.getD j 0 + if i = (j : Int) then x else 0 := by
  unfold accumulate
  by_cases hi : 0 ≤ i
  · simp only [hi, if_true, List.getD_eq_getElem?_getD]
    by_cases hij : i = (j : Int)
    · have hji : i.toNat = j := by rw [hij]; simp
      rw [← hji, vecUpdate_getElem?_self, hji, List.getElem?_eq_getElem hj]
      simp [hij]
    · have hji : j ≠ i.toNat := by
        intro hc
        apply hij
        rw [hc, Int.toNat_of_nonneg hi]
      rw [vecUpdate_getElem?_ne _ _ _ _ hji]
      simp [hij]
  · have hij : ¬ i = (j : Int) := by
      intro hc
      apply hi
      rw [hc]
      exact Int.ofNat_nonneg j
    simp [hi, hij]

theorem foldl_accumulate_all (comm : Int) (cond : Int → Prop) [DecidablePred cond]
    (nbrs : List Int) (h : ∀ nb ∈ nbrs, cond nb) :
    ∀ acc : List ℚ,
      nbrs.foldl (fun acc neighbor => if cond neighbor then accumulate acc comm 1 else acc) acc =
        accumulate acc comm (nbrs.length : ℚ) := by
  induction nbrs with
  | nil =>
    intro acc
    simp [accumulate_zero]
  | cons a rest ih =>
    intro acc
    have ha : cond a := h a (List.mem_cons_self _ _)
    simp only [List.foldl_cons, ha, if_true, List.length_cons]
    rw [ih (fun nb hnb => h nb (List.mem_cons_of_mem _ hnb)), accumulate_accumulate]
    congr 1
    push_cast
    ring

end Mess2

namespace Mess2

theorem modularityNode_closed (g0 : Graph) (communities : List Int)
    (hdeg : ∀ node, UMap.get g0.nodeDegrees node 0 = (g0.neighborsOf node).length)
    (hclosed : ∀ node ∈ g0.getNodes, ∀ nb ∈ g0.neighborsOf node,
      readCommunity communities nb = readCommunity communities node)
    (st : ModularityState) (a : Int) (ha : a ∈ g0.getNodes)
    (hg : SameReads g0 st.self.graph) (hc : st.self.communities = communities)
    (heq : st.communityInternalEdges = st.communityTotalEdges) :
    SameReads g0 (modularityNode st a).self.graph ∧
    (modularityNode st a).self.communities = communities ∧
    (modularityNode st a).communityInternalEdges = (modularityNode st a).communityTotalEdges ∧
    (modularityNode st a).communityTotalEdges =
      accumulate st.communityTotalEdges (readCommunity communities a)
        ((UMap.get g0.nodeDegrees a 0 : Nat) : ℚ) := by
  have hd := sameReads_getDegree st.self.graph a
  have hn := sameReads_getNeighbors (st.self.graph.getDegree a).2 a
    ((hd.nodes a).mpr ((hg.nodes a).mpr ha))
  have hdegval : (st.self.graph.getDegree a).1 = UMap.get g0.nodeDegrees a 0 := hg.degs a
  have hnbrs : ((st.self.graph.getDegree a).2.getNeighbors a).1 = g0.neighborsOf a := by
    have h1 : ((st.self.graph.getDegree a).2.getNeighbors a).1 =
        (st.self.graph.getDegree a).2.neighborsOf a := rfl
    rw [h1, hd.nbrs, hg.nbrs]
  have htotal : (modularityNode st a).communityTotalEdges =
      accumulate st.communityTotalEdges (readCommunity communities a)
        ((UMap.get g0.nodeDegrees a 0 : Nat) : ℚ) := by
    unfold modularityNode
    simp only []
    rw [hdegval, hc]
  have hinternal : (modularityNode st a).communityInternalEdges =
      accumulate st.communityInternalEdges (readCommunity communities a)
        ((UMap.get g0.nodeDegrees a 0 : Nat) : ℚ) := by
    unfold modularityNode
    simp only []
    rw [hnbrs, hc, hdeg a]
    exact foldl_accumulate_all (readCommunity communities a)
      (fun neighbor => readCommunity communities neighbor = readCommunity communities a)
      (g0.neighborsOf a) (hclosed a ha) st.communityInternalEdges
  refine ⟨sameReads_trans hg (sameReads_trans hd hn), hc, ?_, htotal⟩
  rw [hinternal, htotal, heq]

theorem modularityNode_closed_foldl (g0 : Graph) (communities : List Int)
    (hdeg : ∀ node, UMap.get g0.nodeDegrees node 0 = (g0.neighborsOf node).length)
    (hclosed : ∀ node ∈ g0.getNodes, ∀ nb ∈ g0.neighborsOf node,
      readCommunity communities nb = readCommunity communities node) :
    ∀ (ns : List Int) (st : ModularityState),
      (∀ node ∈ ns, node ∈ g0.getNodes) →
      SameReads g0 st.self.graph → st.self.communities = communities →
      st.communityInternalEdges = st.communityTotalEdges →
      (ns.foldl modularityNode st).communityInternalEdges =
        (ns.foldl modularityNode st).communityTotalEdges ∧
      (ns.foldl modularityNode st).communityTotalEdges.length =
        st.communityTotalEdges.length ∧
      ∀ j, j < st.communityTotalEdges.length →
        (ns.foldl modularityNode st).communityTotalEdges.getD j 0 =
          st.communityTotalEdges.getD j 0 +
            (ns.map (fun node =>
              if readCommunity communities node = (j : Int) then
                ((UMap.get g0.nodeDegrees node 0 : Nat) : ℚ)
              else 0)).sum := by
  intro ns
  induction ns with
  | nil =>
    intro st _ _ _ heq
    refine ⟨heq, rfl, ?_⟩
    intro j _
    simp
  | cons a rest ih =>
    intro st hmem hg hc heq
    obtain ⟨h1, h2, h3, h4⟩ := modularityNode_closed g0 communities hdeg hclosed st a
      (hmem a (List.mem_cons_self _ _)) hg hc heq
    obtain ⟨g1, g2, g3⟩ := ih (modularityNode st a)
      (fun node hn => hmem node (List.mem_cons_of_mem _ hn)) h1 h2 h3
    have hl : (modularityNode st a).communityTotalEdges.length =
        st.communityTotalEdges.length := by
      rw [h4]; exact accumulate_length _ _ _
    simp only [List.foldl_cons]
    refine ⟨g1, g2.trans hl, ?_⟩
    intro j hj
    rw [g3 j (by rw [hl]; exact hj), h4, accumulate_getD _ _ _ _ hj]
    simp only [List.map_cons, List.sum_cons]
    ring

theorem foldl_ge_of_step {α : Type} (step : ℚ → α → ℚ) (l : List α)
    (h : ∀ i ∈ l, ∀ Q, Q ≤ step Q i) : ∀ init, init ≤ l.foldl step init := by
  induction l with
  | nil => intro init; exact le_refl _
  | cons a rest ih =>
    intro init
    simp only [List.foldl_cons]
    exact le_trans (h a (List.mem_cons_self _ _) init)
      (ih (fun i hi => h i (List.mem_cons_of_mem _ hi)) _)

theorem foldl_eq_of_step {α : Type} (step : ℚ → α → ℚ) (l : List α)
    (h : ∀ i ∈ l, ∀ Q, step Q i = Q) : ∀ init, l.foldl step init = init := by
  induction l with
  | nil => intro init; rfl
  | cons a rest ih =>
    intro init
    simp only [List.foldl_cons]
    rw [h a (List.mem_cons_self _ _) init]
    exact ih (fun i hi => h i (List.mem_cons_of_mem _ hi)) _

theorem sum_ite_le (ns : List Int) (p : Int → Prop) [DecidablePred p] (f : Int → Nat) :
    (ns.map (fun node => if p node then ((f node : Nat) : ℚ) else 0)).sum ≤
      (((ns.map f).sum : Nat) : ℚ) ∧
    0 ≤ (ns.map (fun node => if p node then ((f node : Nat) : ℚ) else 0)).sum := by
  induction ns with
  | nil => simp
  | cons a rest ih =>
    simp only [List.map_cons, List.sum_cons, Nat.cast_add]
    have h0 : (0 : ℚ) ≤ (f a : ℚ) := Nat.cast_nonneg _
    constructor
    · split
      · linarith [ih.1]
      · linarith [ih.1]
    · split
      · linarith [ih.2]
      · linarith [ih.2]

theorem sum_ite_all (ns : List Int) (p : Int → Prop) [DecidablePred p] (f : Int → Nat)
    (h : ∀ node ∈ ns, p node) :
    (ns.map (fun node => if p node then ((f node : Nat) : ℚ) else 0)).sum =
      (((ns.map f).sum : Nat) : ℚ) := by
  induction ns with
  | nil => simp
  | cons a rest ih =>
    simp only [List.map_cons, List.sum_cons, h a (List.mem_cons_self _ _), if_true]
    rw [ih (fun node hn => h node (List.mem_cons_of_mem _ hn))]
    push_cast
    rfl

theorem sum_ite_none (ns : List Int) (p : Int → Prop) [DecidablePred p] (f : Int → Nat)
    (h : ∀ node ∈ ns, ¬ p node) :
    (ns.map (fun node => if p node then ((f node : Nat) : ℚ) else 0)).sum = 0 := by
  induction ns with
  | nil => simp
  | cons a rest ih =>
    simp only [List.map_cons, List.sum_cons, h a (List.mem_cons_self _ _), if_false]
    rw [ih (fun node hn => h node (List.mem_cons_of_mem _ hn))]
    simp

end Mess2

namespace Mess2

theorem foldl_congr_mem {α β : Type} (f g : β → α → β) (l : List α)
    (h : ∀ i ∈ l, ∀ Q, f Q i = g Q i) : ∀ init, l.foldl f init = l.foldl g init := by
  induction l with
  | nil => intro init; rfl
  | cons a rest ih =>
    intro init
    simp only [List.foldl_cons]
    rw [h a (List.mem_cons_self _ _) init]
    exact ih (fun i hi => h i (List.mem_cons_of_mem _ hi)) _

/-- The sums computed by `calculateModularity` when every neighbour of a node carries the
label of the node: the two accumulators coincide, and entry `j` is the sum of the degrees
of the nodes labelled `j`. -/
theorem calculateModularity_closed (edges : List (Int × Int)) (communities : List Int)
    (hclosed : ∀ node ∈ (Graph.build edges).getNodes, ∀ nb ∈ (Graph.build edges).neighborsOf node,
      readCommunity communities nb = readCommunity communities node) :
    (calculateModularity { loadGraph edges with communities := communities }).1 =
      (List.range communities.length).foldl
        (fun (Q : ℚ) (i : Nat) =>
          if ((Graph.build edges).getNodes.map (fun node =>
              if readCommunity communities node = (i : Int) then
                ((UMap.get (Graph.build edges).nodeDegrees node 0 : Nat) : ℚ)
              else 0)).sum > 0 then
            Q + (((Graph.build edges).getNodes.map (fun node =>
              if readCommunity communities node = (i : Int) then
                ((UMap.get (Graph.build edges).nodeDegrees node 0 : Nat) : ℚ)
              else 0)).sum / (2 * (edges.length : ℚ)) -
              (((Graph.build edges).getNodes.map (fun node =>
              if readCommunity communities node = (i : Int) then
                ((UMap.get (Graph.build edges).nodeDegrees node 0 : Nat) : ℚ)
              else 0)).sum / (2 * (edges.length : ℚ))) ^ 2)
          else Q)
        0 := by
  obtain ⟨hdeg, htot, _⟩ := Graph.build_degrees edges
  obtain ⟨h1, h2, h3⟩ := modularityNode_closed_foldl (Graph.build edges) communities hdeg hclosed
    (Graph.build edges).getNodes
    { self := { loadGraph edges with communities := communities }
      communityInternalEdges := List.replicate communities.length 0
      communityTotalEdges := List.replicate communities.length 0 }
    (fun _ h => h) (sameReads_refl _) rfl rfl
  have hQ : (calculateModularity { loadGraph edges with communities := communities }).1 =
      modularitySum
        ((Graph.build edges).getNodes.foldl modularityNode
          { self := { loadGraph edges with communities := communities }
            communityInternalEdges := List.replicate communities.length 0
            communityTotalEdges := List.replicate communities.length 0 }).communityInternalEdges
        ((Graph.build edges).getNodes.foldl modularityNode
          { self := { loadGraph edges with communities := communities }
            communityInternalEdges := List.replicate communities.length 0
            communityTotalEdges := List.replicate communities.length 0 }).communityTotalEdges
        (((Graph.build edges).totalEdges : Nat) : ℚ) communities.length := rfl
  rw [hQ, htot]
  generalize List.foldl modularityNode _ (Graph.build edges).getNodes = F at h1 h2 h3 ⊢
  rw [h1]
  unfold modularitySum
  refine foldl_congr_mem _ _ _ ?_ _
  intro i hi Q
  have hi2 : i < communities.length := List.mem_range.mp hi
  have hzero : (List.replicate communities.length (0 : ℚ)).getD i 0 = 0 := by
    simp [List.getD_eq_getElem?_getD, List.getElem?_replicate, hi2]
  have h3i := h3 i (by simpa using hi2)
  simp only [] at h3i
  rw [hzero, zero_add] at h3i
  rw [h3i]

/-- A term of the summation loop is non-negative when the community total `t` satisfies
`0 < t ≤ 2 m`. -/
theorem modularity_term_nonneg (t m : ℚ) (hm : 0 < m) (h0 : 0 < t) (h1 : t ≤ 2 * m) :
    0 ≤ t / (2 * m) - (t / (2 * m)) ^ 2 := by
  have hx0 : 0 ≤ t / (2 * m) := by positivity
  have hx1 : t / (2 * m) ≤ 1 := by
    rw [div_le_one (by linarith)]
    exact h1
  nlinarith

end Mess2

namespace Mess2

theorem readCommunity_replicate (n : Nat) (label node : Int)
    (h : 0 ≤ node ∧ node.toNat < n) :
    readCommunity (List.replicate n label) node = label := by
  unfold readCommunity
  simp [h.1, List.getD_eq_getElem?_getD, List.getElem?_replicate, h.2]

end Mess2

/-- Claim C12: for a graph with at least one edge whose node ids are valid indices of the
label vector, the value computed by `calculateModularity` (in exact rational arithmetic) for
a labelling in which two nodes share a label exactly when they lie in the same connected
component is at least the value computed for a labelling that gives every node one single
label, and the latter value is 0. -/
theorem component_modularity_ge_single (edges : List (Int × Int)) (hne : edges ≠ [])
    (components : List Int)
    (hdense : ∀ node ∈ (Mess2.loadGraph edges).graph.getNodes,
      Mess2.InBounds components node)
    (hcomp : ∀ u ∈ (Mess2.loadGraph edges).graph.getNodes,
      ∀ v ∈ (Mess2.loadGraph edges).graph.getNodes,
        (Mess2.readCommunity components u = Mess2.readCommunity components v ↔
          Mess2.Reachable edges u v))
    (label : Int) :
    (Mess2.calculateModularity
      { Mess2.loadGraph edges with
        communities := List.replicate components.length label }).1 = 0 ∧
    (Mess2.calculateModularity
      { Mess2.loadGraph edges with
        communities := List.replicate components.length label }).1 ≤
      (Mess2.calculateModularity
        { Mess2.loadGraph edges with communities := components }).1 := by
  obtain ⟨_, _, hsum⟩ := Mess2.Graph.build_degrees edges
  have hL : (0 : ℚ) < (edges.length : ℚ) := by
    have : 0 < edges.length := List.length_pos.mpr hne
    exact_mod_cast this
  have hnbr : ∀ node ∈ (Mess2.Graph.build edges).getNodes,
      ∀ nb ∈ (Mess2.Graph.build edges).neighborsOf node,
        nb ∈ (Mess2.Graph.build edges).getNodes ∧ Mess2.Reachable edges node nb := by
    intro node _ nb hnb
    have hadj := (Mess2.Graph.mem_neighborsOf_build edges node nb).mp hnb
    exact ⟨(Mess2.Graph.mem_getNodes_build edges nb).mpr hadj.isEndpoint_right,
      Relation.ReflTransGen.single hadj⟩
  have hclosed1 : ∀ node ∈ (Mess2.Graph.build edges).getNodes,
      ∀ nb ∈ (Mess2.Graph.build edges).neighborsOf node,
        Mess2.readCommunity (List.replicate components.length label) nb =
          Mess2.readCommunity (List.replicate components.length label) node := by
    intro node hnode nb hnb
    rw [Mess2.readCommunity_replicate _ _ _ (hdense nb (hnbr node hnode nb hnb).1),
      Mess2.readCommunity_replicate _ _ _ (hdense node hnode)]
  have hclosed2 : ∀ node ∈ (Mess2.Graph.build edges).getNodes,
      ∀ nb ∈ (Mess2.Graph.build edges).neighborsOf node,
        Mess2.readCommunity components nb = Mess2.readCommunity components node := by
    intro node hnode nb hnb
    obtain ⟨h1, h2⟩ := hnbr node hnode nb hnb
    exact ((hcomp node hnode nb h1).mpr h2).symm
  have hsingle : (Mess2.calculateModularity
      { Mess2.loadGraph edges with
        communities := List.replicate components.length label }).1 = 0 := by
    rw [Mess2.calculateModularity_closed edges _ hclosed1]
    apply Mess2.foldl_eq_of_step
    intro i _ Q
    by_cases hi : label = (i : Int)
    · have hall : ∀ node ∈ (Mess2.Graph.build edges).getNodes,
          Mess2.readCommunity (List.replicate components.length label) node = (i : Int) := by
        intro node hnode
        rw [Mess2.readCommunity_replicate _ _ _ (hdense node hnode)]
        exact hi
      rw [Mess2.sum_ite_all (Mess2.Graph.build edges).getNodes
        (fun node => Mess2.readCommunity (List.replicate components.length label) node = (i : Int))
        (fun node => Mess2.UMap.get (Mess2.Graph.build edges).nodeDegrees node 0) hall, hsum]
      have h2 : (((2 * edges.length : Nat) : ℚ)) / (2 * (edges.length : ℚ)) = 1 := by
        push_cast
        exact div_self (by linarith)
      rw [h2]
      simp
    · have hnone : ∀ node ∈ (Mess2.Graph.build edges).getNodes,
          ¬ Mess2.readCommunity (List.replicate components.length label) node = (i : Int) := by
        intro node hnode
        rw [Mess2.readCommunity_replicate _ _ _ (hdense node hnode)]
        exact hi
      rw [Mess2.sum_ite_none (Mess2.Graph.build edges).getNodes
        (fun node => Mess2.readCommunity (List.replicate components.length label) node = (i : Int))
        (fun node => Mess2.UMap.get (Mess2.Graph.build edges).nodeDegrees node 0) hnone]
      simp
  refine ⟨hsingle, ?_⟩
  rw [hsingle, Mess2.calculateModularity_closed edges _ hclosed2]
  apply Mess2.foldl_ge_of_step
  intro i _ Q
  obtain ⟨hle, _⟩ := Mess2.sum_ite_le (Mess2.Graph.build edges).getNodes
    (fun node => Mess2.readCommunity components node = (i : Int))
    (fun node => Mess2.UMap.get (Mess2.Graph.build edges).nodeDegrees node 0)
  rw [hsum] at hle
  split
  · rename_i hpos
    have hle2 : ((Mess2.Graph.build edges).getNodes.map (fun node =>
        if Mess2.readCommunity components node = (i : Int) then
          ((Mess2.UMap.get (Mess2.Graph.build edges).nodeDegrees node 0 : Nat) : ℚ)
        else 0)).sum ≤ 2 * (edges.length : ℚ) := by
      have := hle
      push_cast at this
      exact this
    have := Mess2.modularity_term_nonneg _ _ hL hpos hle2
    linarith
  · exact le_refl _

theorem component_modularity_ge_single_witness :
    (Mess2.calculateModularity
      { Mess2.loadGraph Mess2.sampleEdges with
        communities := List.replicate ([0, 0, 0, 3, 3, 3] : List Int).length 0 }).1 = 0 ∧
    (Mess2.calculateModularity
      { Mess2.loadGraph Mess2.sampleEdges with
        communities := List.replicate ([0, 0, 0, 3, 3, 3] : List Int).length 0 }).1 ≤
      (Mess2.calculateModularity
        { Mess2.loadGraph Mess2.sampleEdges with communities := [0, 0, 0, 3, 3, 3] }).1 := by
  have hnodes : (Mess2.loadGraph Mess2.sampleEdges).graph.getNodes = [0, 1, 2, 3, 4, 5] := by
    decide
  have hadj : ∀ a b, Mess2.Adjacent Mess2.sampleEdges a b →
      Mess2.readCommunity [0, 0, 0, 3, 3, 3] a = Mess2.readCommunity [0, 0, 0, 3, 3, 3] b := by
    intro a b h
    unfold Mess2.Adjacent Mess2.sampleEdges at h
    simp only [List.mem_cons, Prod.mk.injEq, List.mem_singleton, List.not_mem_nil,
      or_false] at h
    rcases h with h | h <;> rcases h with h | h | h | h | h | h <;>
      obtain ⟨rfl, rfl⟩ := h <;> decide
  have hreach : ∀ a b, Mess2.Reachable Mess2.sampleEdges a b →
      Mess2.readCommunity [0, 0, 0, 3, 3, 3] a = Mess2.readCommunity [0, 0, 0, 3, 3, 3] b := by
    intro a b h
    induction h with
    | refl => rfl
    | tail _ hstep ih => exact ih.trans (hadj _ _ hstep)
  have hlab : ∀ u ∈ ([0, 1, 2, 3, 4, 5] : List Int),
      Mess2.Reachable Mess2.sampleEdges u (Mess2.readCommunity [0, 0, 0, 3, 3, 3] u) := by
    intro u hu
    simp only [List.mem_cons, List.mem_singleton, List.not_mem_nil, or_false] at hu
    rcases hu with rfl | rfl | rfl | rfl | rfl | rfl
    · exact Relation.ReflTransGen.refl
    · exact Relation.ReflTransGen.single (Or.inr (by decide))
    · exact Relation.ReflTransGen.single (Or.inl (by decide))
    · exact Relation.ReflTransGen.refl
    · exact Relation.ReflTransGen.single (Or.inr (by decide))
    · exact Relation.ReflTransGen.single (Or.inl (by decide))
  exact component_modularity_ge_single Mess2.sampleEdges (by decide) [0, 0, 0, 3, 3, 3]
    (by unfold Mess2.InBounds; decide)
    (by
      rw [hnodes]
      intro u hu v hv
      constructor
      · intro h
        have h1 := hlab u hu
        have h2 := hlab v hv
        rw [← h] at h2
        exact Relation.ReflTransGen.trans h1 (Mess2.Reachable.symm_int h2)
      · exact hreach u v)
    0

namespace Comm4

end Comm4

namespace Comm4

end Comm4

namespace Mess2

end Mess2

namespace Mess2

end Mess2

namespace Comm4

theorem passLoop_passes (hashOrder : List (Nat × Nat) → List (Nat × Nat))
    (shuffle : Nat → List Nat → List Nat) :
    ∀ (remaining iteration : Nat) (st : PassLoopResult),
      (passLoop hashOrder shuffle remaining iteration st).passes ≤ st.passes + remaining ∧
      (0 < remaining →
        st.passes + 1 ≤ (passLoop hashOrder shuffle remaining iteration st).passes) := by
  intro remaining
  induction remaining with
  | zero =>
    intro iteration st
    exact ⟨le_refl _, fun h => absurd h (by decide)⟩
  | succ n ih =>
    intro iteration st
    rw [passLoop]
    split
    · exact ⟨by simp only []; omega, fun _ => le_refl _⟩
    · obtain ⟨h1, h2⟩ := ih (iteration + 1)
        { self := (localMovePass hashOrder st.self
            (shuffle iteration (List.range st.self.graph.getNumNodes))).1
          communityCount := st.communityCount.set iteration
            (localMovePass hashOrder st.self
              (shuffle iteration (List.range st.self.graph.getNumNodes))).1.countCommunities
          passes := st.passes + 1 }
      simp only [] at h1 h2
      constructor
      · omega
      · intro _
        cases n with
        | zero => simp [passLoop]
        | succ m => have := h2 (Nat.succ_pos m); omega

end Comm4

/-- C13 (amended). For every graph, every iteration order of the hash map and every sequence
of per-pass visitation orders, `detectCommunities` of `comm4.cpp` executes at least one and
at most 21 local-move passes (the pass indices `0 .. maxIterations` with
`maxIterations = 20`). -/
theorem detectCommunities_at_most_twenty_one_passes
    (hashOrder : List (Nat × Nat) → List (Nat × Nat))
    (shuffle : Nat → List Nat → List Nat) (self : Comm4.LouvainCommunityDetection) :
    1 ≤ (Comm4.runPasses hashOrder shuffle self).passes ∧
    (Comm4.runPasses hashOrder shuffle self).passes ≤ 21 := by
  obtain ⟨h1, h2⟩ := Comm4.passLoop_passes hashOrder shuffle (Comm4.maxIterations + 1) 0
    { self := self
      communityCount := List.replicate (Comm4.maxIterations + 1) 0
      passes := 0 }
  have h3 := h2 (Nat.succ_pos _)
  simp only [Comm4.maxIterations] at h1 h3
  exact ⟨h3, h1⟩

namespace Mess2

end Mess2

